import Mathlib

/-!
NeXShell: command pipeline engine.

A shallow embedding of the parser (`command_parser.cpp`, `utils.cpp`), the
executor (`command_executor.cpp`), the `echo`/`ai` built-ins
(`builtin_commands.cpp`) and the deny-list check (`ai_assistant.cpp`).

Conventions of the embedding:

* a `std::string` is a `List Char` (`Str`); string literals are written
  `"...".toList`;
* `getenv` is a function `Env := Str → Option Str` (`none` = unset);
* the operating system is an oracle `OS` answering `open`, `pipe`, `fork`,
  `execvp`, and telling how a program that runs comes to an end; the shell
  process is a `World` value threaded through the executor, which records the
  descriptor table of every child;
* a call that blocks for ever returns the code `none`: `waitpid` does so for a
  child that reads a pipe of which it holds a write end itself;
* file descriptors and process ids are `Int`, `-1` being the "no descriptor"
  value of the source.
-/

namespace NeXShell

/-- A `std::string`. -/
abbrev Str := List Char

/-- The process environment as seen by `getenv`. -/
abbrev Env := Str → Option Str

/-- The single-quote character. -/
def squote : Char := Char.ofNat 39

/-- The double-quote character. -/
def dquote : Char := Char.ofNat 34

/-- `std::isspace` in the C locale: space, `\t`, `\n`, `\v`, `\f`, `\r`. -/
def isspace (c : Char) : Bool :=
  c.toNat == 32 || (9 ≤ c.toNat && c.toNat ≤ 13)

/-- `std::isalnum` in the C locale. -/
def isalnum (c : Char) : Bool :=
  (48 ≤ c.toNat && c.toNat ≤ 57) || (65 ≤ c.toNat && c.toNat ≤ 90) ||
    (97 ≤ c.toNat && c.toNat ≤ 122)

/-! ## utils.cpp -/

namespace Utils

/-- The `while (std::getline(ss, token, delimiter))` loop of `Utils::split`
on a stream that is not exhausted: `token` holds the characters the running
`getline` has extracted so far. A delimiter ends the `getline`, and the next one
is attempted only if characters are left (a `getline` on an exhausted stream
extracts nothing and fails, ending the loop); the end of the stream ends the
running `getline` with what it has extracted. -/
def splitLoop (delimiter : Char) : Str → Str → List Str
  | [], token => [token]
  | c :: cs, token =>
    if c = delimiter then
      token :: (if cs.isEmpty then [] else splitLoop delimiter cs [])
    else splitLoop delimiter cs (token ++ [c])

/-- `Utils::split(str, delimiter)`; on an empty string the first `getline`
already fails. -/
def split (str : Str) (delimiter : Char) : List Str :=
  match str with
  | [] => []
  | c :: cs => splitLoop delimiter (c :: cs) []

/-- `Utils::ltrim`: drop the leading `isspace` characters. -/
def ltrim (str : Str) : Str := str.dropWhile isspace

/-- `Utils::rtrim`: drop the trailing `isspace` characters. -/
def rtrim (str : Str) : Str := (str.reverse.dropWhile isspace).reverse

/-- `Utils::trim`. -/
def trim (str : Str) : Str := ltrim (rtrim str)

end Utils

/-! ## command_parser.h / command_parser.cpp -/

/-- `struct Command`. -/
structure Command where
  program : Str := []
  arguments : List Str := []
  input_file : Option Str := none
  output_file : Option Str := none
  append_output : Bool := false
  run_in_background : Bool := false
  deriving DecidableEq, Repr

/-- `struct Pipeline`. -/
structure Pipeline where
  commands : List Command := []
  run_in_background : Bool := false
  deriving DecidableEq, Repr

namespace CommandParser

/-- `CommandParser::trim`. -/
def trim (str : Str) : Str := Utils.trim str

/-- `CommandParser::is_empty`. -/
def is_empty (input : Str) : Bool := (trim input).isEmpty

/-- `CommandParser::is_special_char`. -/
def is_special_char (c : Char) : Bool :=
  c == '>' || c == '<' || c == '|' || c == '&'

/-- `result.find('$', pos)`: the first index `≥ pos` holding `c`, `none` for
`npos`. -/
def findFrom (c : Char) (s : Str) (pos : Nat) : Option Nat :=
  match (s.drop pos).indexOf? c with
  | some k => some (pos + k)
  | none => none

/-- The inner `while` of `expand_variables`: advance `e` over
`[A-Za-z0-9_]`. -/
def scanName (s : Str) (e : Nat) : Nat :=
  e + ((s.drop e).takeWhile (fun c => isalnum c || c == '_')).length

/-- `result.replace(pos, n, replacement)`. -/
def replace (s : Str) (pos n : Nat) (replacement : Str) : Str :=
  s.take pos ++ replacement ++ s.drop (pos + n)

/-- The outer `while` of `expand_variables` on the working string `result`
and scan position `pos`; one unit of fuel per loop test, `none` when the fuel
is used up before the loop exits. -/
def expandLoop (env : Env) : Nat → Str → Nat → Option Str
  | 0, _, _ => none
  | fuel + 1, result, pos =>
    match findFrom '$' result pos with
    | none => some result
    | some p =>
      let start := p + 1
      let e := scanName result start
      if e > start then
        let var_name := (result.drop start).take (e - start)
        let replacement := (env var_name).getD []
        expandLoop env fuel (replace result p (e - p) replacement) (p + replacement.length)
      else
        expandLoop env fuel result (p + 1)

/-- `CommandParser::expand_variables`. Every iteration that finds a `$`
shortens the unscanned part of the working string, so `token.length + 1` loop
tests always suffice. -/
def expand_variables (env : Env) (token : Str) : Str :=
  (expandLoop env (token.length + 1) token 0).getD token

/-- The local variables of `tokenize`. -/
structure TokState where
  tokens : List Str := []
  current_token : Str := []
  in_quotes : Bool := false
  quote_char : Char := Char.ofNat 0
  deriving DecidableEq, Repr

/-- One iteration of the `for` loop of `tokenize`. -/
def tokStep (env : Env) (s : TokState) (c : Char) : TokState :=
  if !s.in_quotes then
    if c = dquote ∨ c = squote then
      { s with in_quotes := true, quote_char := c }
    else if isspace c then
      if !s.current_token.isEmpty then
        { s with tokens := s.tokens ++ [expand_variables env s.current_token],
                 current_token := [] }
      else s
    else if is_special_char c then
      if !s.current_token.isEmpty then
        { s with tokens := s.tokens ++ [expand_variables env s.current_token] ++ [[c]],
                 current_token := [] }
      else { s with tokens := s.tokens ++ [[c]] }
    else
      { s with current_token := s.current_token ++ [c] }
  else
    if c = s.quote_char then
      { s with in_quotes := false, quote_char := Char.ofNat 0 }
    else
      { s with current_token := s.current_token ++ [c] }

/-- The part of `tokenize` after the loop: flush a pending word. -/
def tokFinish (env : Env) (s : TokState) : List Str :=
  if !s.current_token.isEmpty then s.tokens ++ [expand_variables env s.current_token]
  else s.tokens

/-- `CommandParser::tokenize`. -/
def tokenize (env : Env) (input : Str) : List Str :=
  tokFinish env (input.foldl (tokStep env) {})

/-- The `for` loop of `parse_command` over the tokens that follow the
program: the head of the list is `tokens[i]`, and `i + 1 < end` holds exactly
when the tail is non-empty. -/
def parseArgs (cmd : Command) : List Str → Command
  | [] => cmd
  | token :: rest =>
    if token = ">".toList then
      match rest with
      | f :: rest' => parseArgs { cmd with output_file := some f, append_output := false } rest'
      | [] => cmd
    else if token = ">>".toList then
      match rest with
      | f :: rest' => parseArgs { cmd with output_file := some f, append_output := true } rest'
      | [] => cmd
    else if token = "<".toList then
      match rest with
      | f :: rest' => parseArgs { cmd with input_file := some f } rest'
      | [] => cmd
    else if token = "&".toList then
      parseArgs { cmd with run_in_background := true } rest
    else
      parseArgs { cmd with arguments := cmd.arguments ++ [token] } rest

/-- `CommandParser::parse_command(tokens, start, end)`. -/
def parse_command (tokens : List Str) (start «end» : Nat) : Command :=
  if start ≥ «end» ∨ start ≥ tokens.length then {}
  else
    match (tokens.take «end»).drop start with
    | [] => {}
    | program :: rest => parseArgs { program := program } rest

/-- The first loop of `parse`: one command per non-blank piece that has a
token. -/
def parseParts (env : Env) : List Str → List Command
  | [] => []
  | part :: parts =>
    let cmd_str := trim part
    if !cmd_str.isEmpty then
      let tokens := tokenize env cmd_str
      if !tokens.isEmpty then
        parse_command tokens 0 tokens.length :: parseParts env parts
      else parseParts env parts
    else parseParts env parts

/-- The end of `parse`: hoist the background flag of the last command. -/
def hoistBackground (commands : List Command) : Pipeline :=
  match commands.getLast? with
  | none => { commands := commands }
  | some last_cmd =>
    if last_cmd.run_in_background then
      { commands := commands.dropLast ++ [{ last_cmd with run_in_background := false }],
        run_in_background := true }
    else { commands := commands }

/-- `CommandParser::parse`. -/
def parse (env : Env) (input : Str) : Pipeline :=
  if is_empty input then {}
  else hoistBackground (parseParts env (Utils.split input '|'))

/-- A character of a plain word: not whitespace, not a quote, not `$`, not an
operator character. -/
def plainChar (c : Char) : Bool :=
  !isspace c && !is_special_char c && !(c == dquote) && !(c == squote) && !(c == '$')

end CommandParser

/-! ## The operating system and the shell process -/

/-- The `flags` of the three `open` calls of the executor: `O_RDONLY`,
`O_WRONLY | O_CREAT | O_TRUNC`, `O_WRONLY | O_CREAT | O_APPEND`. -/
inductive OpenMode where
  | rdonly
  | wrTrunc
  | wrAppend
  deriving DecidableEq, Repr

/-- What an open file descriptor refers to. -/
inductive Resource where
  | tty
  | file (path : Str) (mode : OpenMode)
  | pipeRead (n : Nat)
  | pipeWrite (n : Nat)
  deriving DecidableEq, Repr

/-- The open file descriptors of a process. -/
abbrev FdTable := List (Int × Resource)

/-- What `waitpid(pid, &status, 0)` reports. -/
inductive WaitOutcome where
  | error
  | exited (code : Nat)
  | signaled (sig : Nat)
  | stopped
  deriving DecidableEq, Repr

/-- The outcomes of the system calls and the behaviour of the programs.
`open_ok k` and `pipe_ok k` tell whether the `k`-th `open` / `pipe` call of the
run succeeds; `fork k` is `none` when the `k`-th `fork` fails and `some j` when
it creates a child, whose process id is `j + 1` (the parent never sees `0`);
`exec_ok program` tells whether `execvp` finds and starts `program`;
`reads_stdin program arguments` tells whether the program, started with these
arguments, reads its standard input up to the end of file before it exits;
`wait pid` is what `waitpid` reports for the child `pid` once its program has
come to an end. -/
structure OS where
  open_ok : Nat → Str → OpenMode → Bool
  pipe_ok : Nat → Bool
  fork : Nat → Option Nat
  exec_ok : Str → Bool
  reads_stdin : Str → List Str → Bool
  wait : Int → WaitOutcome

/-- A child process as `execute_external_program` leaves it: its descriptor
table at the moment it calls `execvp` (`exec_reached`), or `_exit(1)` after a
failed `dup2`. -/
structure Child where
  pid : Int
  program : Str
  arguments : List Str
  fds : FdTable
  exec_reached : Bool
  deriving DecidableEq, Repr

/-- The shell process and what it has done so far: its open descriptors,
`background_processes_`, the children it forked (oldest first), the process ids
it blocked on with `waitpid` (oldest first), the `open` calls it made, what it
wrote to its own `std::cout`, and the number of `pipe` and `fork` calls. -/
structure World where
  fds : FdTable := [(0, .tty), (1, .tty), (2, .tty)]
  background_processes : List Int := []
  children : List Child := []
  waited : List Int := []
  opened : List (Str × OpenMode) := []
  out : Str := []
  n_pipe : Nat := 0
  n_fork : Nat := 0
  deriving DecidableEq, Repr

/-- Whether `fd` is open in table `t`. -/
def isOpen (t : FdTable) (fd : Int) : Bool := t.any (fun e => e.1 == fd)

/-- The descriptor a successful `open` or `pipe` hands out: the lowest one
that is not open. -/
def freshFd (t : FdTable) : Int :=
  match (List.range (t.length + 1)).find? (fun n => !isOpen t (n : Int)) with
  | some n => (n : Int)
  | none => (t.length : Int)

/-- `close(fd)`. -/
def close (t : FdTable) (fd : Int) : FdTable := t.filter (fun e => e.1 != fd)

/-- `dup2(oldfd, newfd)`: `none` when `oldfd` is not open. -/
def dup2 (t : FdTable) (oldfd newfd : Int) : Option FdTable :=
  match t.find? (fun e => e.1 == oldfd) with
  | none => none
  | some e => if oldfd = newfd then some t else some ((newfd, e.2) :: close t newfd)

/-- `open(path, flags)` in the shell process; `-1` on failure. -/
def sys_open (os : OS) (w : World) (path : Str) (mode : OpenMode) : World × Int :=
  let w1 := { w with opened := w.opened ++ [(path, mode)] }
  if os.open_ok w.opened.length path mode then
    ({ w1 with fds := w.fds ++ [(freshFd w.fds, .file path mode)] }, freshFd w.fds)
  else (w1, -1)

/-- `pipe(pipefd)` in the shell process: `none` on failure, else the read end
and the write end. -/
def sys_pipe (os : OS) (w : World) : World × Option (Int × Int) :=
  let w1 := { w with n_pipe := w.n_pipe + 1 }
  if os.pipe_ok w.n_pipe then
    let r := freshFd w.fds
    let t := w.fds ++ [(r, Resource.pipeRead w.n_pipe)]
    let wr := freshFd t
    ({ w1 with fds := t ++ [(wr, Resource.pipeWrite w.n_pipe)] }, some (r, wr))
  else (w1, none)

/-- `close(fd)` in the shell process. -/
def sys_close (w : World) (fd : Int) : World := { w with fds := close w.fds fd }

/-- What descriptor `fd` of table `t` refers to, if it is open. -/
def resourceOf (t : FdTable) (fd : Int) : Option Resource :=
  (t.find? (fun e => e.1 == fd)).map (fun e => e.2)

/-- Whether the standard input of the child is the read end of a pipe of
which the child itself holds a write end: a read on it never reports the end of
file, since that needs every write end of the pipe to be closed. -/
def Child.starved (c : Child) : Bool :=
  match resourceOf c.fds 0 with
  | some (.pipeRead n) => c.fds.any (fun e => e.2 == Resource.pipeWrite n)
  | _ => false

/-- The child that process id `pid` names: the one forked last with that
id. -/
def childOf (w : World) (pid : Int) : Option Child :=
  w.children.reverse.find? (fun c => c.pid == pid)

/-- The end of the child branch of `execute_external_program`: the code with
which the child leaves by itself, `_exit(1)` after a failed `dup2` and
`_exit(127)` after a failed `execvp`; `none` when `execvp` starts the
program. -/
def Child.ownExit (os : OS) (c : Child) : Option Nat :=
  if !c.exec_reached then some 1
  else if !os.exec_ok c.program then some 127
  else none

/-- The call `waitpid(pid, &status, 0)` in the shell process: `none` when the
call never returns. The call fails when `pid` is no child of the shell. A child
that left `execute_external_program` through `_exit` has that exit code. A
child that runs a program which reads its standard input up to the end of file,
and which is `starved`, never terminates (no signal being sent to it), so the
call blocks for ever. Every other child is taken to terminate (a writer held up
by a full pipe that nobody empties is not modelled), and the call reports
`os.wait pid`. -/
def sys_waitpid (os : OS) (w : World) (pid : Int) : Option WaitOutcome :=
  match childOf w pid with
  | none => some .error
  | some c =>
    match c.ownExit os with
    | some code => some (.exited code)
    | none =>
      if os.reads_stdin c.program c.arguments && c.starved then none
      else some (os.wait pid)

/-- The decimal digits `operator<<` writes for an unsigned integer. -/
def showNat (n : Nat) : Str := Nat.toDigits 10 n

/-- The text `operator<<` writes for a `pid_t`. -/
def showInt (i : Int) : Str := if i < 0 then '-' :: showNat i.natAbs else showNat i.toNat

/-- The descriptors of a list of pipes, read end then write end, in the
order of `pipe_fds`. -/
def flatPairs : List (Int × Int) → List Int
  | [] => []
  | (r, wr) :: rest => r :: wr :: flatPairs rest

/-- In the table `t`, where every descriptor occurs once and descriptors 0
and 1 are open, both ends of the `j`-th pipe of `pairs` are open, as ends of the
pipe numbered `base + j`; no end is descriptor 0 or 1 and no read end is
`-1`. -/
def HoldsPipes (t : FdTable) (pairs : List (Int × Int)) (base : Nat) : Prop :=
  (t.map Prod.fst).Nodup ∧ isOpen t 0 = true ∧ isOpen t 1 = true ∧
    ∀ (j : Nat) (r wr : Int), pairs[j]? = some (r, wr) →
      (r, Resource.pipeRead (base + j)) ∈ t ∧ (wr, Resource.pipeWrite (base + j)) ∈ t ∧
        r ≠ 0 ∧ r ≠ -1 ∧ wr ≠ 0 ∧ wr ≠ 1

/-! ## builtin_commands.cpp -/

namespace BuiltinCommands

/-- The keys of `commands_` after `initialize_commands`. -/
def commands : List Str :=
  ["cd".toList, "pwd".toList, "exit".toList, "help".toList, "history".toList,
   "echo".toList, "export".toList, "unset".toList, "jobs".toList, "fg".toList,
   "bg".toList, "ai".toList]

/-- `BuiltinCommands::is_builtin`. -/
def is_builtin (command_name : Str) : Bool := commands.contains command_name

/-- The loop of `cmd_echo`: the arguments separated by single spaces. -/
def echoText : List Str → Str
  | [] => []
  | [a] => a
  | a :: b :: rest => a ++ ' ' :: echoText (b :: rest)

/-- `BuiltinCommands::cmd_echo`: writes to the shell's own `std::cout`. -/
def cmd_echo (args : List Str) (w : World) : World × Int :=
  ({ w with out := w.out ++ echoText args ++ ['\n'] }, 0)

/-- The handlers of the built-ins other than `echo`, by name; the executor
only calls them. The code is `none` when the handler never returns. -/
abbrev Handlers := Str → List Str → World → World × Option Int

/-- `BuiltinCommands::execute`; the code is `none` when the call never
returns. -/
def execute (h : Handlers) (command : Command) (w : World) : World × Option Int :=
  if command.program = "echo".toList then
    ((cmd_echo command.arguments w).1, some (cmd_echo command.arguments w).2)
  else if is_builtin command.program then h command.program command.arguments w
  else (w, some 1)

end BuiltinCommands

/-! ## command_executor.cpp -/

namespace CommandExecutor

/-- `CommandExecutor::wait_for_process`; the code is `none` when `waitpid`
never returns. -/
def wait_for_process (os : OS) (w : World) (pid : Int) : World × Option Int :=
  let w1 := { w with waited := w.waited ++ [pid] }
  match sys_waitpid os w pid with
  | none => (w1, none)
  | some .error => (w1, some 1)
  | some (.exited code) => (w1, some (code : Int))
  | some (.signaled sig) => (w1, some (128 + (sig : Int)))
  | some .stopped => (w1, some 1)

/-- The child branch of `execute_external_program`, on the descriptor table
`t` inherited from the parent: the table when `execvp` is called, or `none`
with the table at `_exit(1)` when a `dup2` fails. -/
def childSetup (t : FdTable) (input_fd output_fd : Int) : FdTable × Bool :=
  let r1 : FdTable × Bool :=
    if input_fd ≠ -1 then
      match dup2 t input_fd 0 with
      | none => (t, false)
      | some t1 => (close t1 input_fd, true)
    else (t, true)
  if r1.2 then
    if output_fd ≠ -1 then
      match dup2 r1.1 output_fd 1 with
      | none => (r1.1, false)
      | some t2 => (close t2 output_fd, true)
    else (r1.1, true)
  else r1

/-- `CommandExecutor::execute_external_program`, seen from the parent: the
returned process id is `-1` when `fork` fails. -/
def execute_external_program (os : OS) (w : World) (command : Command)
    (input_fd output_fd : Int) : World × Int :=
  let w1 := { w with n_fork := w.n_fork + 1 }
  match os.fork w.n_fork with
  | none => (w1, -1)
  | some j =>
    let pid : Int := (j : Int) + 1
    let c := childSetup w.fds input_fd output_fd
    ({ w1 with children := w.children ++
        [{ pid := pid, program := command.program, arguments := command.arguments,
           fds := c.1, exec_reached := c.2 }] }, pid)

/-- `CommandExecutor::setup_redirections`: the success flag and the two
descriptors (`-1` when not set). -/
def setup_redirections (os : OS) (w : World) (command : Command) : World × Bool × Int × Int :=
  let r1 : World × Int :=
    match command.input_file with
    | some f => sys_open os w f .rdonly
    | none => (w, -1)
  if command.input_file.isSome ∧ r1.2 < 0 then (r1.1, false, r1.2, -1)
  else
    match command.output_file with
    | some f =>
      let r2 := sys_open os r1.1 f (if command.append_output then .wrAppend else .wrTrunc)
      if r2.2 < 0 then
        ((if r1.2 ≠ -1 then sys_close r2.1 r1.2 else r2.1), false, r1.2, r2.2)
      else (r2.1, true, r1.2, r2.2)
    | none => (r1.1, true, r1.2, -1)

/-- `CommandExecutor::execute_command`; the code is `none` when the call
never returns. -/
def execute_command (os : OS) (h : BuiltinCommands.Handlers) (command : Command)
    (w : World) : World × Option Int :=
  if command.program.isEmpty then (w, some 0)
  else if BuiltinCommands.is_builtin command.program then
    BuiltinCommands.execute h command w
  else
    let r := setup_redirections os w command
    if !r.2.1 then (r.1, some 1)
    else
      let input_fd := r.2.2.1
      let output_fd := r.2.2.2
      let sp := execute_external_program os r.1 command input_fd output_fd
      let w1 := if input_fd ≠ -1 then sys_close sp.1 input_fd else sp.1
      let w2 := if output_fd ≠ -1 then sys_close w1 output_fd else w1
      if sp.2 < 0 then (w2, some 1)
      else if command.run_in_background then
        ({ w2 with
            background_processes := w2.background_processes ++ [sp.2],
            out := w2.out ++ '[' :: showNat (w2.background_processes.length + 1) ++
              ']' :: ' ' :: showInt sp.2 ++ ['\n'] }, some 0)
      else wait_for_process os w2 sp.2

/-- The first loop of `create_pipeline`: `k` more pipes to create, `pipe_fds`
holding the ends created so far; `none` when a `pipe` call fails (the function
returns 1 at once). -/
def makePipes (os : OS) : Nat → World → List Int → World × Option (List Int)
  | 0, w, pipe_fds => (w, some pipe_fds)
  | k + 1, w, pipe_fds =>
    match sys_pipe os w with
    | (w1, none) => (w1, none)
    | (w1, some (r, wr)) => makePipes os k w1 (pipe_fds ++ [r, wr])

/-- The second loop of `create_pipeline`, at index `i` with the commands from
`i` on still to start; `size` is `pipeline.commands.size()`. -/
def spawnLoop (os : OS) (size : Nat) (pipe_fds : List Int) :
    Nat → List Command → World → List Int → World × List Int
  | _, [], w, pids => (w, pids)
  | i, cmd :: rest, w, pids =>
    let input_fd0 : Int := if i > 0 then pipe_fds.getD ((i - 1) * 2) (-1) else -1
    let output_fd0 : Int := if i < size - 1 then pipe_fds.getD (i * 2 + 1) (-1) else -1
    if BuiltinCommands.is_builtin cmd.program then
      spawnLoop os size pipe_fds (i + 1) rest w pids
    else
      let r1 : World × Int :=
        match cmd.input_file with
        | some f => if i = 0 then sys_open os w f .rdonly else (w, input_fd0)
        | none => (w, input_fd0)
      let r2 : World × Int :=
        match cmd.output_file with
        | some f =>
          if i = size - 1 then
            sys_open os r1.1 f (if cmd.append_output then .wrAppend else .wrTrunc)
          else (r1.1, output_fd0)
        | none => (r1.1, output_fd0)
      let sp := execute_external_program os r2.1 cmd r1.2 r2.2
      spawnLoop os size pipe_fds (i + 1) rest sp.1 (if sp.2 > 0 then pids ++ [sp.2] else pids)

/-- The last loop of `create_pipeline`: wait for every process id in order,
keeping the last exit code; the loop goes no further than a `wait_for_process`
that never returns. -/
def waitLoop (os : OS) : List Int → World → Int → World × Option Int
  | [], w, last_exit_code => (w, some last_exit_code)
  | pid :: pids, w, _ =>
    match (wait_for_process os w pid).2 with
    | none => ((wait_for_process os w pid).1, none)
    | some exit_code => waitLoop os pids (wait_for_process os w pid).1 exit_code

/-- `CommandExecutor::create_pipeline`; the code is `none` when the call never
returns. -/
def create_pipeline (os : OS) (pipeline : Pipeline) (w : World) : World × Option Int :=
  match makePipes os (pipeline.commands.length - 1) w [] with
  | (w1, none) => (w1, some 1)
  | (w1, some pipe_fds) =>
    let sp := spawnLoop os pipeline.commands.length pipe_fds 0 pipeline.commands w1 []
    let w2 := pipe_fds.foldl sys_close sp.1
    waitLoop os sp.2 w2 0

/-- `CommandExecutor::execute_pipeline`; the result is the state the shell
reaches and the code returned, `none` when the call never returns (the state is
then the one in which the shell stays blocked). -/
def execute_pipeline (os : OS) (h : BuiltinCommands.Handlers) (pipeline : Pipeline)
    (w : World) : World × Option Int :=
  match pipeline.commands with
  | [] => (w, some 0)
  | [command] => execute_command os h command w
  | _ :: _ :: _ => create_pipeline os pipeline w

end CommandExecutor

/-! ## ai_assistant.cpp and the `ai` built-in -/

namespace AIAssistant

/-- `s.find(pat) != std::string::npos`. -/
def contains (s pat : Str) : Bool := s.tails.any (fun t => pat.isPrefixOf t)

/-- `dangerous_commands_` as the constructor of `AIAssistant` fills it. -/
def dangerous_commands : List Str :=
  ["rm -rf /".toList, "rm -rf /*".toList, "dd if=/dev/zero".toList, "mkfs".toList,
   "fdisk".toList, "format".toList, "del /f /s /q C:".toList ++ [Char.ofNat 92],
   "shutdown -h now".toList, "reboot".toList, "halt".toList, "init 0".toList,
   "kill -9 -1".toList, ":()\x7b :|:& \x7d;:".toList, "chmod -R 777 /".toList,
   "chown -R root:root /".toList, "sudo rm -rf".toList]

/-- The local `critical_dirs` of `is_command_safe`. -/
def critical_dirs : List Str :=
  ["/bin".toList, "/sbin".toList, "/usr".toList, "/lib".toList, "/etc".toList, "/boot".toList]

/-- `AIAssistant::is_command_safe`. -/
def is_command_safe (command : Str) : Bool :=
  if dangerous_commands.any (fun dangerous => contains command dangerous) then false
  else if contains command "rm -rf".toList &&
      (contains command "/*".toList || contains command "/ ".toList) then false
  else if critical_dirs.any (fun dir => contains command "rm".toList && contains command dir) then
    false
  else true

/-- The words one of which makes a short one-line response a command. -/
def command_words : List Str :=
  ["ls".toList, "cd".toList, "mkdir".toList, "cp".toList, "mv".toList, "find".toList,
   "grep".toList, "cat".toList, "echo".toList]

/-- The `while (std::getline(iss, line))` loop of
`extract_command_from_response`. -/
def firstCommandLine : List Str → Str
  | [] => []
  | l :: ls =>
    let line := Utils.trim l
    if !line.isEmpty && line.head? != some '#' && !contains line "command:".toList &&
        decide (line.length < 100) && contains line " ".toList then line
    else firstCommandLine ls

/-- `AIAssistant::extract_command_from_response`. -/
def extract_command_from_response (ai_response : Str) : Str :=
  let response := Utils.trim ai_response
  if decide (response.length < 200) && !response.contains '\n' &&
      command_words.any (fun k => contains response k) then response
  else firstCommandLine (Utils.split response '\n')

/-- `AIAssistant::process_natural_command`; `query` is what
`ollama_->query_model` does for the prompt: it returns the model's response or
throws (`.error` holds `e.what()`). -/
def process_natural_command (ai_enabled : Bool) (query : Except Str Str) : Str :=
  if !ai_enabled then
    "AI features are not available. Please check if Ollama is running.".toList
  else
    match query with
    | .error what => "Error processing command: ".toList ++ what
    | .ok ai_response =>
      let command := extract_command_from_response ai_response
      if command.isEmpty then "AI Response: ".toList ++ ai_response
      else if !is_command_safe command then
        "Unsafe command detected: ".toList ++ command ++
          "\nFor safety, this command was not executed.".toList
      else command

/-- The `while (std::getline(iss, line) && suggestions.size() < 3)` loop of
`suggest_commands`. -/
def suggestLoop : List Str → List Str → List Str
  | [], suggestions => suggestions
  | l :: ls, suggestions =>
    if suggestions.length < 3 then
      let line := Utils.trim l
      if !line.isEmpty && line.head? != some '#' then suggestLoop ls (suggestions ++ [line])
      else suggestLoop ls suggestions
    else suggestions

/-- `AIAssistant::suggest_commands` on the model's response. -/
def suggest_commands (ai_enabled : Bool) (response : Str) : List Str :=
  if !ai_enabled then [] else suggestLoop (Utils.split response '\n') []

end AIAssistant

namespace BuiltinCommands

/-- How `cmd_ai` ends: it returns `code` without executing anything, or it
calls `shell_->execute_command(line)` and returns that call's exit code, or an
exception of `query_model` leaves it uncaught. -/
inductive AiOutcome where
  | done (code : Int)
  | run (line : Str)
  | raised (what : Str)
  deriving DecidableEq, Repr

/-- The default branch of `BuiltinCommands::cmd_ai` (natural-language
request): `reply` is the line read from `std::cin` after the prompt
`Execute this command? [y/N]`. -/
def cmd_ai_natural (ai_enabled : Bool) (query : Except Str Str) (reply : Str) : AiOutcome :=
  let result := AIAssistant.process_natural_command ai_enabled query
  if "Error:".toList.isPrefixOf result || "AI Response:".toList.isPrefixOf result then .done 1
  else if reply = "y".toList ∨ reply = "Y".toList ∨ reply = "yes".toList then .run result
  else .done 0

/-- `BuiltinCommands::cmd_ai`: `ai_present` tells whether
`shell_->get_ai_assistant()` is non-null, `query` is what `query_model` does,
`reply` the line read after the confirmation prompt. -/
def cmd_ai (args : List Str) (ai_present ai_enabled : Bool) (query : Except Str Str)
    (reply : Str) : AiOutcome :=
  match args with
  | [] => .done 0
  | first_arg :: _ =>
    if !ai_present then .done 1
    else if first_arg = "status".toList then .done 0
    else if first_arg = "explain".toList ∧ args.length > 1 then
      if !ai_enabled then .done 0
      else match query with
        | .ok _ => .done 0
        | .error what => .raised what
    else if first_arg = "suggest".toList ∧ args.length > 1 then
      if !ai_enabled then .done 1
      else match query with
        | .ok response =>
          if (AIAssistant.suggest_commands ai_enabled response).isEmpty then .done 1 else .done 0
        | .error what => .raised what
    else cmd_ai_natural ai_enabled query reply

end BuiltinCommands

/-! ## Reference definitions of the specification -/

/-- A character of a variable name, `[A-Za-z0-9_]`. -/
def nameChar (c : Char) : Bool := isalnum c || c == '_'

/-- The reference expansion of the specification (§4.B): scanning left to
right, a `$` followed by a non-empty maximal run of name characters is replaced,
with the run, by the value of that name (nothing when it is unset) and the scan
resumes after the run; any other character, a `$` without a name included, is
copied. -/
def refExpand (env : Env) : Str → Str
  | [] => []
  | c :: cs =>
    if c = '$' then
      if cs.takeWhile nameChar ≠ [] then
        (env (cs.takeWhile nameChar)).getD [] ++ refExpand env (cs.dropWhile nameChar)
      else '$' :: refExpand env cs
    else c :: refExpand env cs
termination_by s => s.length
decreasing_by
  all_goals simp_wf
  · have := (List.dropWhile_sublist nameChar (l := cs)).length_le
    omega

/-- The redirection a segment scan is waiting to complete with a file
name. -/
inductive PendingOp where
  | out
  | app
  | inp
  deriving DecidableEq, Repr

/-- The state of the segment scan of the specification (§4.C): the command
built so far and the redirection operator just read, if any. -/
structure SegState where
  cmd : Command
  pending : Option PendingOp := none
  deriving DecidableEq, Repr

/-- One token of the segment scan of the specification: the token after a
redirection operator is that operator's file; otherwise `>`, `>>`, `<` start a
redirection, `&` sets the background flag, and any other token is appended to
the arguments. -/
def specStep (s : SegState) (token : Str) : SegState :=
  match s.pending with
  | some .out =>
    { cmd := { s.cmd with output_file := some token, append_output := false }, pending := none }
  | some .app =>
    { cmd := { s.cmd with output_file := some token, append_output := true }, pending := none }
  | some .inp => { cmd := { s.cmd with input_file := some token }, pending := none }
  | none =>
    if token = ">".toList then { s with pending := some .out }
    else if token = ">>".toList then { s with pending := some .app }
    else if token = "<".toList then { s with pending := some .inp }
    else if token = "&".toList then { s with cmd := { s.cmd with run_in_background := true } }
    else { s with cmd := { s.cmd with arguments := s.cmd.arguments ++ [token] } }

/-- The command of a segment according to the specification: the first
token is the program, the rest is scanned left to right; an operator left
pending at the end is dropped. -/
def specSegment : List Str → Command
  | [] => {}
  | program :: rest => (rest.foldl specStep { cmd := { program := program } }).cmd

/-- Whether the tokens after the program hold an `&` that is not the file
name of a redirection operator. -/
def backgroundMarker : List Str → Bool
  | [] => false
  | [token] => decide (token = "&".toList)
  | token :: f :: rest =>
    if token = ">".toList ∨ token = ">>".toList ∨ token = "<".toList then backgroundMarker rest
    else if token = "&".toList then true
    else backgroundMarker (f :: rest)

/-- The token sequences of the segments of a line that have at least one
token, as the first loop of `parse` computes them. -/
def segmentTokens (env : Env) (line : Str) : List (List Str) :=
  ((Utils.split line '|').map (fun part => CommandParser.tokenize env (CommandParser.trim part))).filter
    (fun tokens => !tokens.isEmpty)

/-- One character of the whitespace collapse of the specification (§8,
law 2). The state is the open quote character, if any, and whether the previous
character was an unquoted space or tab; the result is the new state and the
characters written: a quote opens or closes, quoted text is copied, the first
space or tab of an unquoted run is written as one space and the rest of the run
is dropped. -/
def collapseStep (st : Option Char × Bool) (c : Char) : (Option Char × Bool) × Str :=
  match st.1 with
  | some q => if c = q then ((none, false), [c]) else ((some q, false), [c])
  | none =>
    if c = dquote ∨ c = squote then ((some c, false), [c])
    else if c = ' ' ∨ c = '\t' then ((none, true), if st.2 then [] else [' '])
    else ((none, false), [c])

/-- The whitespace collapse from a given state. -/
def collapseGo (st : Option Char × Bool) : Str → Str
  | [] => []
  | c :: cs => (collapseStep st c).2 ++ collapseGo (collapseStep st c).1 cs

/-- The state of the whitespace collapse after a text. -/
def collapseState (st : Option Char × Bool) (s : Str) : Option Char × Bool :=
  s.foldl (fun st c => (collapseStep st c).1) st

/-- The line with every run of spaces and tabs outside quotes replaced by a
single space. -/
def collapseSpaces (line : Str) : Str := collapseGo (none, false) line

/-- Whether no `|` of the text lies inside quotes, from a given state. -/
def pipesOutsideQuotes (st : Option Char × Bool) : Str → Bool
  | [] => true
  | c :: cs => (c != '|' || st.1.isNone) && pipesOutsideQuotes (collapseStep st c).1 cs

/-- The value an `export` argument list gives to `name` according to the
specification (§4.D): each argument is split at its first `=` into NAME and
VALUE, and a later argument overrides an earlier one; `none` when no argument
names `name`. -/
def exportedValue : List Str → Str → Option Str
  | [], _ => none
  | arg :: rest, name =>
    match exportedValue rest name with
    | some value => some value
    | none =>
      if arg.takeWhile (fun c => c != '=') = name then
        some ((arg.dropWhile (fun c => c != '=')).drop 1)
      else none

/-- The text with every quote delimiter and every whitespace character
outside quotes removed; the argument is the open quote character, if any. -/
def stripText : Option Char → Str → Str
  | _, [] => []
  | some q, c :: cs => if c = q then stripText none cs else c :: stripText (some q) cs
  | none, c :: cs =>
    if c = dquote ∨ c = squote then stripText (some c) cs
    else if isspace c then stripText none cs
    else c :: stripText none cs

/-- The text of a command in the re-serialization of the specification
(§8, law 1): the program, the arguments, then the redirections, separated by
single spaces. -/
def serializeCommand (c : Command) : Str :=
  c.program ++ (c.arguments.map (fun a => ' ' :: a)).flatten ++
    (match c.input_file with
      | some f => " < ".toList ++ f
      | none => []) ++
    (match c.output_file with
      | some f => (if c.append_output then " >> ".toList else " > ".toList) ++ f
      | none => [])

/-- The commands of a pipeline with ` | ` between them. -/
def serializeCommands : List Command → Str
  | [] => []
  | [c] => serializeCommand c
  | c :: c' :: rest => serializeCommand c ++ " | ".toList ++ serializeCommands (c' :: rest)

/-- The re-serialization of a pipeline: its commands, and a trailing ` &`
for a background pipeline. -/
def serialize (p : Pipeline) : Str :=
  serializeCommands p.commands ++ (if p.run_in_background then " &".toList else [])

/-- A non-empty word of plain characters. -/
def plainWord (w : Str) : Bool := !w.isEmpty && w.all CommandParser.plainChar

/-- A command all of whose words are plain, with no appending redirection
and no background flag of its own. -/
def plainCommand (c : Command) : Bool :=
  plainWord c.program && c.arguments.all plainWord &&
    (match c.input_file with
      | some f => plainWord f
      | none => true) &&
    (match c.output_file with
      | some f => plainWord f
      | none => true) &&
    !c.append_output && !c.run_in_background

/-- A pipeline of plain commands; a background pipeline has a command. -/
def plainPipeline (p : Pipeline) : Bool :=
  p.commands.all plainCommand && (!p.run_in_background || !p.commands.isEmpty)

/-- The tokens of a plain command: program, arguments, `<` and the input
file, `>` and the output file. -/
def commandTokens (c : Command) : List Str :=
  c.program :: c.arguments ++
    (match c.input_file with
      | some f => ["<".toList, f]
      | none => []) ++
    (match c.output_file with
      | some f => [">".toList, f]
      | none => [])

/-- Outside quotes, reading `text` adds exactly the tokens `tokens` to what
`tokenize` will return, and ends outside quotes. -/
def Emits (env : Env) (text : Str) (tokens : List Str) : Prop :=
  ∀ st : CommandParser.TokState, st.in_quotes = false →
    (text.foldl (CommandParser.tokStep env) st).in_quotes = false ∧
    CommandParser.tokFinish env (text.foldl (CommandParser.tokStep env) st) =
      CommandParser.tokFinish env st ++ tokens

/-- One iteration of the loop of `tokenize` with the expansion of variables
left out: the words are kept as they stand in the line. -/
def wordStep (s : CommandParser.TokState) (c : Char) : CommandParser.TokState :=
  if !s.in_quotes then
    if c = dquote ∨ c = squote then
      { s with in_quotes := true, quote_char := c }
    else if isspace c then
      if !s.current_token.isEmpty then
        { s with tokens := s.tokens ++ [s.current_token], current_token := [] }
      else s
    else if CommandParser.is_special_char c then
      if !s.current_token.isEmpty then
        { s with tokens := s.tokens ++ [s.current_token] ++ [[c]], current_token := [] }
      else { s with tokens := s.tokens ++ [[c]] }
    else
      { s with current_token := s.current_token ++ [c] }
  else
    if c = s.quote_char then
      { s with in_quotes := false, quote_char := Char.ofNat 0 }
    else
      { s with current_token := s.current_token ++ [c] }

/-- The words of a piece of the line, as they stand in the line before the
expansion of variables: quoted and unquoted text run together, operator
characters outside quotes apart. -/
def lineWords (input : Str) : List Str :=
  if !(input.foldl wordStep {}).current_token.isEmpty then
    (input.foldl wordStep {}).tokens ++ [(input.foldl wordStep {}).current_token]
  else (input.foldl wordStep {}).tokens

/-- The program words of a line: the first word of every piece between `|`
characters that has a word. -/
def programWords (line : Str) : List Str :=
  ((Utils.split line '|').map (fun part => lineWords (CommandParser.trim part))).filterMap
    List.head?

/-! ## `CommandValidator` (ai_assistant.cpp) -/

namespace CommandValidator

/-- `dangerous_commands_` after `initialize_dangerous_patterns`. -/
def dangerous_commands : List Str :=
  ["rm -rf /".toList, "rm -rf /*".toList, "dd if=/dev/zero".toList, "mkfs".toList,
   "fdisk".toList, "format".toList, "shutdown".toList, "reboot".toList, "halt".toList,
   "init 0".toList, "kill -9 -1".toList]

/-- `dangerous_patterns_` after `initialize_dangerous_patterns`. -/
def dangerous_patterns : List Str :=
  ["rm -rf".toList, "dd if=".toList, "mkfs.".toList, ":()\x7b :|:& \x7d;:".toList,
   "chmod -R 777 /".toList, "chown -R".toList]

/-- `CommandValidator::is_safe`. -/
def is_safe (command : Str) : Bool :=
  if dangerous_commands.any (fun dangerous => AIAssistant.contains command dangerous) then false
  else if dangerous_patterns.any (fun pattern => AIAssistant.contains command pattern) then false
  else true

end CommandValidator

/-- The literal phrases of the deny list as the specification lists them
(§4.G), for comparison with the two lists of the code. -/
def specLiteralPhrases : List Str :=
  ["rm -rf /".toList, "rm -rf /*".toList, "dd if=/dev/zero".toList, "mkfs".toList,
   "fdisk".toList, "shutdown -h now".toList, ":()\x7b :|:& \x7d;:".toList,
   "chmod -R 777 /".toList, "sudo rm -rf".toList, "kill -9 -1".toList]

/-- The deny patterns as the specification lists them (§4.G). -/
def specPatterns : List Str :=
  ["rm -rf".toList, "dd if=".toList, "mkfs.".toList, "chown -R".toList]

namespace CommandValidator

/-- The order in which a range-`for` visits `dangerous_commands_`, a
`std::set<std::string>`: ascending byte order. -/
def commands_in_order : List Str :=
  ["dd if=/dev/zero".toList, "fdisk".toList, "format".toList, "halt".toList, "init 0".toList,
   "kill -9 -1".toList, "mkfs".toList, "reboot".toList, "rm -rf /".toList, "rm -rf /*".toList,
   "shutdown".toList]

/-- The order in which a range-`for` visits `dangerous_patterns_`. -/
def patterns_in_order : List Str :=
  [":()\x7b :|:& \x7d;:".toList, "chmod -R 777 /".toList, "chown -R".toList, "dd if=".toList,
   "mkfs.".toList, "rm -rf".toList]

/-- `CommandValidator::get_danger_reason`. -/
def get_danger_reason (command : Str) : Str :=
  match commands_in_order.find? (fun dangerous => AIAssistant.contains command dangerous) with
  | some dangerous => "Contains dangerous command: ".toList ++ dangerous
  | none =>
    match patterns_in_order.find? (fun pattern => AIAssistant.contains command pattern) with
    | some pattern => "Contains dangerous pattern: ".toList ++ pattern
    | none => "Command appears safe".toList

end CommandValidator

/-! ## shell.cpp and the `cd`, `export`, `unset` built-ins -/

/-- The part of `class Shell` the built-ins read and write, with the process
environment (`getenv` / `setenv` / `unsetenv`) next to it. -/
structure ShellState where
  environment_variables : Str → Option Str
  process_env : Env
  current_directory : Str

/-- `setenv(name, value, 1)`: fails, changing nothing, for an empty name or
a name with `=`. -/
def setenv (env : Env) (name value : Str) : Env :=
  if name = [] ∨ '=' ∈ name then env
  else fun n => if n = name then some value else env n

/-- `unsetenv(name)`: fails, changing nothing, for an empty name or a name
with `=`. -/
def unsetenv (env : Env) (name : Str) : Env :=
  if name = [] ∨ '=' ∈ name then env
  else fun n => if n = name then none else env n

/-- What `chdir` and the `getcwd` that follows it do: `chdir_ok path` tells
whether `chdir(path)` succeeds, `getcwd path` is the directory name `getcwd`
returns after it (`none` when `getcwd` fails). -/
structure DirOS where
  chdir_ok : Str → Bool
  getcwd : Str → Option Str

namespace Shell

/-- `Shell::set_environment_variable`. -/
def set_environment_variable (sh : ShellState) (name value : Str) : ShellState :=
  { sh with
    environment_variables := fun n => if n = name then some value else sh.environment_variables n
    process_env := setenv sh.process_env name value }

/-- `Shell::get_environment_variable`. -/
def get_environment_variable (sh : ShellState) (name : Str) : Str :=
  match sh.environment_variables name with
  | some value => value
  | none => (sh.process_env name).getD []

/-- The first part of `Shell::change_directory`: the target path, `none`
when `cd -` finds `OLDPWD` unset. -/
def target_path (sh : ShellState) (path : Str) : Option Str :=
  if path = [] ∨ path = "~".toList then some (get_environment_variable sh "HOME".toList)
  else if path = "-".toList then
    if (get_environment_variable sh "OLDPWD".toList).isEmpty then none
    else some (get_environment_variable sh "OLDPWD".toList)
  else if path.head? = some '~' ∧ path.get? 1 = some '/' then
    some (get_environment_variable sh "HOME".toList ++ path.drop 1)
  else some path

/-- `Shell::change_directory`. -/
def change_directory (d : DirOS) (sh : ShellState) (path : Str) : ShellState × Bool :=
  match target_path sh path with
  | none => (sh, false)
  | some target =>
    if d.chdir_ok target then
      let sh1 := set_environment_variable sh "OLDPWD".toList sh.current_directory
      match d.getcwd target with
      | some cwd =>
        let sh2 := { sh1 with current_directory := cwd }
        (set_environment_variable sh2 "PWD".toList sh2.current_directory, true)
      | none => (sh1, false)
    else (sh, false)

end Shell

namespace BuiltinCommands

/-- `BuiltinCommands::cmd_cd`. -/
def cmd_cd (d : DirOS) (args : List Str) (sh : ShellState) : ShellState × Int :=
  let path := match args with
    | [] => Shell.get_environment_variable sh "HOME".toList
    | a :: _ => a
  let r := Shell.change_directory d sh path
  if r.2 then (r.1, 0) else (r.1, 1)

/-- The `for` loop of `cmd_export`. -/
def exportLoop : List Str → ShellState → ShellState × Int
  | [], sh => (sh, 0)
  | arg :: rest, sh =>
    match arg.indexOf? '=' with
    | some pos =>
      exportLoop rest (Shell.set_environment_variable sh (arg.take pos) (arg.drop (pos + 1)))
    | none => (sh, 1)

/-- `BuiltinCommands::cmd_export`. -/
def cmd_export (args : List Str) (sh : ShellState) : ShellState × Int :=
  if args.isEmpty then (sh, 1) else exportLoop args sh

/-- `BuiltinCommands::cmd_unset`. -/
def cmd_unset (args : List Str) (sh : ShellState) : ShellState × Int :=
  if args.isEmpty then (sh, 1)
  else ({ sh with process_env := args.foldl unsetenv sh.process_env }, 0)

end BuiltinCommands

/-- A shell in `/home/u` with `HOME` and `PWD` set and `OLDPWD` unset, as
`Shell::initialize` leaves it when the process starts with these variables. -/
def startShell : ShellState where
  environment_variables := fun n =>
    if n = "HOME".toList then some "/home/u".toList
    else if n = "PWD".toList then some "/home/u".toList else none
  process_env := fun n =>
    if n = "HOME".toList then some "/home/u".toList
    else if n = "PWD".toList then some "/home/u".toList else none
  current_directory := "/home/u".toList

/-- The process id the parent gets from the `k`-th `fork` of the run
(`-1` when that `fork` fails). -/
def forkPid (os : OS) (k : Nat) : Int :=
  match os.fork k with
  | some j => (j : Int) + 1
  | none => -1

/-- The process ids of `n` consecutive forks, the first being the `start`-th
of the run. -/
def spawnedPids (os : OS) : Nat → Nat → List Int
  | _, 0 => []
  | start, n + 1 => forkPid os start :: spawnedPids os (start + 1) n

/-- The commands of a pipeline that are not built-ins, in order. -/
def externalCommands (commands : List Command) : List Command :=
  commands.filter (fun c => !BuiltinCommands.is_builtin c.program)

/-- An environment with no variable set. -/
def emptyEnv : Env := fun _ => none

/-- An environment in which only `HOME` is set, to `/root`. -/
def homeEnv : Env := fun n => if n = "HOME".toList then some "/root".toList else none

/-- The programs that read their standard input when they are given no file
operand. -/
def stdinFilters : List Str := ["cat".toList, "sort".toList, "wc".toList]

/-- An operating system in which every call succeeds: the `k`-th fork creates
process `101 + k`, every program is found by `execvp`, the programs `cat`,
`sort` and `wc` read their standard input to its end when all their arguments
are options, no other program reads it, and every child that comes to an end
exits with the last digit of its id. -/
def okOS : OS where
  open_ok := fun _ _ _ => true
  pipe_ok := fun _ => true
  fork := fun k => some (100 + k)
  exec_ok := fun _ => true
  reads_stdin := fun program arguments =>
    stdinFilters.contains program && arguments.all (fun a => a.head? == some '-')
  wait := fun pid => .exited (pid.toNat % 10)

/-- An operating system like `okOS` in which every `open` fails. -/
def noFileOS : OS := { okOS with open_ok := fun _ _ _ => false }

/-- An operating system like `okOS` in which only the first `pipe` succeeds. -/
def onePipeOS : OS := { okOS with pipe_ok := fun k => k == 0 }

/-- An operating system like `okOS` in which every `fork` fails. -/
def noForkOS : OS := { okOS with fork := fun _ => none }

/-- An environment in which `A` is set to the text `$A`. -/
def selfEnv : Env := fun n => if n = "A".toList then some "$A".toList else none

/-- An operating system like `okOS` in which `execvp` finds no program. -/
def noExecOS : OS := { okOS with exec_ok := fun _ => false }

/-- Handlers that do nothing and return 0. -/
def noHandlers : BuiltinCommands.Handlers := fun _ _ w => (w, some 0)


/-! ## Lemmas on the parser -/

namespace CommandParser

theorem findFrom_eq_none (c : Char) (s : Str) (pos : Nat) (h : c ∉ s) :
    findFrom c s pos = none := by
  have h1 : (s.drop pos).indexOf? c = none := by
    unfold List.indexOf?
    rw [List.findIdx?_eq_none_iff]
    intro x hx
    have hx' : x ∈ s := List.mem_of_mem_drop hx
    simp only [beq_eq_false_iff_ne, ne_eq]
    rintro rfl
    exact h hx'
  simp [findFrom, h1]

/-- A word without `$` is its own expansion. -/
theorem expand_variables_eq_self (env : Env) (w : Str) (h : '$' ∉ w) :
    expand_variables env w = w := by
  simp [expand_variables, expandLoop, findFrom_eq_none _ _ _ h]

theorem plainChar_step (env : Env) (s : TokState) (c : Char) (hs : s.in_quotes = false)
    (hc : plainChar c = true) :
    tokStep env s c = { s with current_token := s.current_token ++ [c] } := by
  simp only [plainChar, Bool.and_eq_true, Bool.not_eq_true', beq_eq_false_iff_ne, ne_eq] at hc
  obtain ⟨⟨⟨⟨h1, h2⟩, h3⟩, h4⟩, _⟩ := hc
  simp [tokStep, hs, h1, h2, h3, h4]

/-- Outside quotes, the characters of a plain word extend the current word. -/
theorem foldl_tokStep_plain (env : Env) (w : Str) (hw : ∀ c ∈ w, plainChar c = true) :
    ∀ s : TokState, s.in_quotes = false →
      w.foldl (tokStep env) s = { s with current_token := s.current_token ++ w } := by
  induction w with
  | nil => intro s _; simp
  | cons c cs ih =>
    intro s hs
    have hc : plainChar c = true := hw c (List.mem_cons_self _ _)
    rw [List.foldl_cons, plainChar_step env s c hs hc,
      ih (fun x hx => hw x (List.mem_cons_of_mem _ hx))
        { s with current_token := s.current_token ++ [c] } hs]
    simp

/-- Inside quotes, every character other than the open quote extends the
current word, whatever it is. -/
theorem foldl_tokStep_quoted (env : Env) (q : Char) (w : Str) (hw : q ∉ w) :
    ∀ s : TokState, s.in_quotes = true → s.quote_char = q →
      w.foldl (tokStep env) s = { s with current_token := s.current_token ++ w } := by
  induction w with
  | nil => intro s _ _; simp
  | cons c cs ih =>
    intro s hs hq
    have hc : c ≠ q := fun h => hw (h ▸ List.mem_cons_self _ _)
    have hstep : tokStep env s c = { s with current_token := s.current_token ++ [c] } := by
      simp [tokStep, hs, hq, hc]
    rw [List.foldl_cons, hstep,
      ih (fun h => hw (List.mem_cons_of_mem _ h))
        { s with current_token := s.current_token ++ [c] } hs hq]
    simp

theorem splitLoop_no_delim (d : Char) (s : Str) (h : d ∉ s) :
    ∀ token : Str, Utils.splitLoop d s token = [token ++ s] := by
  induction s with
  | nil => intro token; simp [Utils.splitLoop]
  | cons c cs ih =>
    intro token
    have hc : c ≠ d := fun e => h (e ▸ List.mem_cons_self _ _)
    rw [Utils.splitLoop, if_neg hc, ih (fun e => h (List.mem_cons_of_mem _ e))]
    simp

/-- A non-empty string without the delimiter is a single piece. -/
theorem split_no_delim (d : Char) (s : Str) (hne : s ≠ []) (h : d ∉ s) :
    Utils.split s d = [s] := by
  cases s with
  | nil => exact absurd rfl hne
  | cons c cs => simp [Utils.split, splitLoop_no_delim d (c :: cs) h]

/-- A string that neither starts nor ends with whitespace is its own trim. -/
theorem trim_eq_self (a b : Char) (m : Str) (ha : isspace a = false) (hb : isspace b = false) :
    trim (a :: (m ++ [b])) = a :: (m ++ [b]) := by
  have h1 : Utils.rtrim (a :: (m ++ [b])) = a :: (m ++ [b]) := by
    simp [Utils.rtrim, List.dropWhile_cons, hb]
  simp [trim, Utils.trim, h1, Utils.ltrim, List.dropWhile_cons, ha]

theorem plainChar_not_space {c : Char} (h : plainChar c = true) : isspace c = false := by
  simp only [plainChar, Bool.and_eq_true, Bool.not_eq_true'] at h
  exact h.1.1.1.1

theorem plain_no_dollar {w : Str} (hw : ∀ c ∈ w, plainChar c = true) : '$' ∉ w := by
  intro h
  have := hw _ h
  revert this
  decide

theorem plain_no_pipe {w : Str} (hw : ∀ c ∈ w, plainChar c = true) : '|' ∉ w := by
  intro h
  have := hw _ h
  revert this
  decide

theorem plain_ne_of_mem {w : Str} (hw : ∀ c ∈ w, plainChar c = true) (t : Str) (c : Char)
    (hc : c ∈ t) (hp : plainChar c = false) : w ≠ t := by
  rintro rfl
  rw [hw c hc] at hp
  exact absurd hp (by decide)

theorem tokStep_space_flush (env : Env) (s : TokState) (hs : s.in_quotes = false)
    (hc : s.current_token ≠ []) :
    tokStep env s ' ' =
      { s with tokens := s.tokens ++ [expand_variables env s.current_token],
               current_token := [] } := by
  have h1 : ¬ (' ' = dquote ∨ ' ' = squote) := by decide
  have h2 : isspace ' ' = true := by decide
  simp [tokStep, hs, h1, h2, hc]

theorem tokStep_space_skip (env : Env) (s : TokState) (hs : s.in_quotes = false)
    (hc : s.current_token = []) : tokStep env s ' ' = s := by
  have h1 : ¬ (' ' = dquote ∨ ' ' = squote) := by decide
  have h2 : isspace ' ' = true := by decide
  simp [tokStep, hs, h1, h2, hc]

theorem tokStep_gt_empty (env : Env) (s : TokState) (hs : s.in_quotes = false)
    (hc : s.current_token = []) :
    tokStep env s '>' = { s with tokens := s.tokens ++ [['>']] } := by
  have h1 : ¬ ('>' = dquote ∨ '>' = squote) := by decide
  have h2 : isspace '>' = false := by decide
  have h3 : is_special_char '>' = true := by decide
  simp [tokStep, hs, h1, h2, h3, hc]

theorem tokStep_open_quote (env : Env) (s : TokState) (q : Char) (hs : s.in_quotes = false)
    (hq : q = dquote ∨ q = squote) :
    tokStep env s q = { s with in_quotes := true, quote_char := q } := by
  simp [tokStep, hs, hq]

theorem tokStep_close_quote (env : Env) (s : TokState) (hs : s.in_quotes = true) :
    tokStep env s s.quote_char = { s with in_quotes := false, quote_char := Char.ofNat 0 } := by
  simp [tokStep, hs]

/-- The tokens of `P >> F` for plain words `P`, `F`: the two `>` are two
tokens. -/
theorem tokenize_append_line (env : Env) (P F : Str) (hP : P ≠ []) (hF : F ≠ [])
    (hPp : ∀ c ∈ P, plainChar c = true) (hFp : ∀ c ∈ F, plainChar c = true) :
    tokenize env (P ++ " >> ".toList ++ F) = [P, ['>'], ['>'], F] := by
  have hl : P ++ " >> ".toList ++ F = P ++ (' ' :: '>' :: '>' :: ' ' :: F) := by
    simp [String.toList]
  rw [hl, tokenize, List.foldl_append, foldl_tokStep_plain env P hPp _ rfl]
  rw [List.foldl_cons, tokStep_space_flush env _ rfl (by simpa using hP)]
  rw [List.foldl_cons, tokStep_gt_empty env _ rfl rfl]
  rw [List.foldl_cons, tokStep_gt_empty env _ rfl rfl]
  rw [List.foldl_cons, tokStep_space_skip env _ rfl rfl, foldl_tokStep_plain env F hFp _ rfl]
  simp [tokFinish, hF, expand_variables_eq_self env _ (plain_no_dollar hPp),
    expand_variables_eq_self env _ (plain_no_dollar hFp)]

/-- The parse of a line that is its own trim and has no `|`: one command,
made from all its tokens. -/
theorem parse_single (env : Env) (line : Str) (toks : List Str) (hne : line ≠ [])
    (htrim : trim line = line) (hpipe : '|' ∉ line) (htok : tokenize env line = toks)
    (htne : toks ≠ []) :
    parse env line = hoistBackground [parse_command toks 0 toks.length] := by
  have hemp : is_empty line = false := by
    simp [is_empty, htrim, hne]
  simp [parse, hemp, split_no_delim '|' line hne hpipe, parseParts, htrim, hne, htok, htne]

theorem parseArgs_gt (cmd : Command) (f : Str) (rest : List Str) :
    parseArgs cmd (['>'] :: f :: rest) =
      parseArgs { cmd with output_file := some f, append_output := false } rest := by
  rw [parseArgs.eq_def]; rfl

theorem parseArgs_word (cmd : Command) (w : Str) (rest : List Str) (n1 : w ≠ ">".toList)
    (n2 : w ≠ ">>".toList) (n3 : w ≠ "<".toList) (n4 : w ≠ "&".toList) :
    parseArgs cmd (w :: rest) = parseArgs { cmd with arguments := cmd.arguments ++ [w] } rest := by
  rw [parseArgs.eq_def]
  simp only [if_neg n1, if_neg n2, if_neg n3, if_neg n4]

theorem quote_not_space (q : Char) (hq : q = dquote ∨ q = squote) : isspace q = false := by
  rcases hq with rfl | rfl <;> decide

theorem quote_ne_pipe (q : Char) (hq : q = dquote ∨ q = squote) : '|' ≠ q := by
  rcases hq with rfl | rfl <;> decide

/-- Reading an opening quote, text without that quote, and the closing quote
appends the text to the current word and emits no token. -/
theorem foldl_tokStep_quoted_span (env : Env) (q : Char) (hq : q = dquote ∨ q = squote)
    (w rest : Str) (hw : q ∉ w) (s : TokState) (hs : s.in_quotes = false) :
    (q :: (w ++ q :: rest)).foldl (tokStep env) s =
      rest.foldl (tokStep env)
        { tokens := s.tokens, current_token := s.current_token ++ w, in_quotes := false,
          quote_char := Char.ofNat 0 } := by
  rw [List.foldl_cons, tokStep_open_quote env s q hs hq, List.foldl_append,
    foldl_tokStep_quoted env q w hw _ rfl rfl, List.foldl_cons]
  have := tokStep_close_quote env
    { tokens := s.tokens, current_token := s.current_token ++ w, in_quotes := true,
      quote_char := q } rfl
  simp only at this
  rw [this]

end CommandParser

/-! ## Lemmas on the executor -/

namespace CommandExecutor

theorem sys_open_frame (os : OS) (w : World) (path : Str) (mode : OpenMode) :
    (sys_open os w path mode).1.n_fork = w.n_fork ∧
      (sys_open os w path mode).1.children = w.children ∧
      (sys_open os w path mode).1.waited = w.waited ∧
      (sys_open os w path mode).1.background_processes = w.background_processes ∧
      (sys_open os w path mode).1.out = w.out := by
  unfold sys_open
  split <;> simp

theorem sys_pipe_frame (os : OS) (w : World) :
    (sys_pipe os w).1.n_fork = w.n_fork ∧ (sys_pipe os w).1.children = w.children ∧
      (sys_pipe os w).1.waited = w.waited ∧
      (sys_pipe os w).1.background_processes = w.background_processes ∧
      (sys_pipe os w).1.n_pipe = w.n_pipe + 1 ∧
      (sys_pipe os w).1.out = w.out := by
  unfold sys_pipe
  split <;> simp

theorem foldl_sys_close_frame (fds : List Int) :
    ∀ w : World, (fds.foldl sys_close w).n_fork = w.n_fork ∧
      (fds.foldl sys_close w).children = w.children ∧
      (fds.foldl sys_close w).waited = w.waited ∧
      (fds.foldl sys_close w).background_processes = w.background_processes ∧
      (fds.foldl sys_close w).out = w.out := by
  induction fds with
  | nil => intro w; simp
  | cons fd fds ih =>
    intro w
    rw [List.foldl_cons]
    have := ih (sys_close w fd)
    simpa [sys_close] using this

/-- When every `pipe` call succeeds, the first loop of `create_pipeline`
ends with all its pipes and touches no process. -/
theorem makePipes_ok (os : OS) :
    ∀ (n : Nat) (w : World) (acc : List Int),
      (∀ k, k < n → os.pipe_ok (w.n_pipe + k) = true) →
      ∃ w1 fds, makePipes os n w acc = (w1, some fds) ∧ w1.n_fork = w.n_fork ∧
        w1.children = w.children ∧ w1.waited = w.waited ∧
        w1.background_processes = w.background_processes ∧ w1.out = w.out := by
  intro n
  induction n with
  | zero => intro w acc _; exact ⟨w, acc, rfl, rfl, rfl, rfl, rfl, rfl⟩
  | succ n ih =>
    intro w acc hp
    have h0 : os.pipe_ok w.n_pipe = true := by simpa using hp 0 (Nat.succ_pos n)
    obtain ⟨f1, f2, f3, f4, f5, f6⟩ := sys_pipe_frame os w
    have hsome : ∃ r wr, (sys_pipe os w).2 = some (r, wr) := by
      simp [sys_pipe, h0]
    obtain ⟨r, wr, hrw⟩ := hsome
    have hpair : sys_pipe os w = ((sys_pipe os w).1, some (r, wr)) := by
      rw [← hrw]
    obtain ⟨w1, fds, e, g1, g2, g3, g4, g5⟩ := ih (sys_pipe os w).1 (acc ++ [r, wr]) (by
      intro k hk
      rw [f5]
      have := hp (k + 1) (by omega)
      rwa [show w.n_pipe + 1 + k = w.n_pipe + (k + 1) by omega])
    refine ⟨w1, fds, ?_, by rw [g1, f1], by rw [g2, f2], by rw [g3, f3], by rw [g4, f4],
      by rw [g5, f6]⟩
    rw [makePipes, hpair]
    exact e

/-- A successful `fork` in `execute_external_program` adds one child, with
the descriptor table `childSetup` leaves it, and changes nothing else. -/
theorem execute_external_program_ok (os : OS) (w : World) (cmd : Command) (i o : Int)
    (hf : (os.fork w.n_fork).isSome = true) :
    execute_external_program os w cmd i o =
        ({ w with
            n_fork := w.n_fork + 1,
            children := w.children ++
              [{ pid := forkPid os w.n_fork, program := cmd.program,
                 arguments := cmd.arguments, fds := (childSetup w.fds i o).1,
                 exec_reached := (childSetup w.fds i o).2 }] },
          forkPid os w.n_fork) ∧
      0 < forkPid os w.n_fork := by
  obtain ⟨j, hj⟩ := Option.isSome_iff_exists.1 hf
  have hpos : (0 : Int) < (j : Int) + 1 := by omega
  simp [execute_external_program, forkPid, hj, hpos]

/-- The second loop of `create_pipeline` when the forks succeed: built-ins
are passed over, one child is forked for each external command, in order, with
the program and the arguments of the command, and nothing is waited for or
written. -/
theorem spawnLoop_spec (os : OS) (size : Nat) (pipe_fds : List Int) :
    ∀ (cmds : List Command) (i : Nat) (w : World) (pids : List Int),
      (∀ k, k < (externalCommands cmds).length → (os.fork (w.n_fork + k)).isSome = true) →
      ∃ created : List Child,
        (spawnLoop os size pipe_fds i cmds w pids).1.children = w.children ++ created ∧
        created.map Child.pid = spawnedPids os w.n_fork (externalCommands cmds).length ∧
        created.map (fun c => (c.program, c.arguments)) =
          (externalCommands cmds).map (fun c => (c.program, c.arguments)) ∧
        (spawnLoop os size pipe_fds i cmds w pids).2 =
          pids ++ spawnedPids os w.n_fork (externalCommands cmds).length ∧
        (spawnLoop os size pipe_fds i cmds w pids).1.waited = w.waited ∧
        (spawnLoop os size pipe_fds i cmds w pids).1.background_processes =
          w.background_processes ∧
        (spawnLoop os size pipe_fds i cmds w pids).1.out = w.out := by
  intro cmds
  induction cmds with
  | nil =>
    intro i w pids _
    exact ⟨[], by simp [spawnLoop, spawnedPids, externalCommands]⟩
  | cons cmd rest ih =>
    intro i w pids hf
    by_cases hcb : BuiltinCommands.is_builtin cmd.program = true
    · have hext : externalCommands (cmd :: rest) = externalCommands rest := by
        simp [externalCommands, hcb]
      rw [spawnLoop]
      simp only [hcb, if_true]
      rw [hext] at hf ⊢
      exact ih (i + 1) w pids hf
    · have hcb' : BuiltinCommands.is_builtin cmd.program = false := by simpa using hcb
      have hext : externalCommands (cmd :: rest) = cmd :: externalCommands rest := by
        simp [externalCommands, hcb']
      rw [hext] at hf ⊢
      rw [spawnLoop]
      simp only [hcb', Bool.false_eq_true, if_false]
      generalize hr1 : (match cmd.input_file with
          | some f => if i = 0 then sys_open os w f .rdonly
              else (w, if i > 0 then pipe_fds.getD ((i - 1) * 2) (-1) else -1)
          | none => (w, if i > 0 then pipe_fds.getD ((i - 1) * 2) (-1) else -1)) = r1
      have hr1f : r1.1.n_fork = w.n_fork ∧ r1.1.children = w.children ∧
          r1.1.waited = w.waited ∧ r1.1.background_processes = w.background_processes ∧
          r1.1.out = w.out := by
        subst hr1
        have key := fun f => sys_open_frame os w f .rdonly
        split
        · split
          · exact key _
          · exact ⟨rfl, rfl, rfl, rfl, rfl⟩
        · exact ⟨rfl, rfl, rfl, rfl, rfl⟩
      generalize hr2 : (match cmd.output_file with
          | some f =>
            if i = size - 1 then
              sys_open os r1.1 f (if cmd.append_output then .wrAppend else .wrTrunc)
            else (r1.1, if i < size - 1 then pipe_fds.getD (i * 2 + 1) (-1) else -1)
          | none => (r1.1, if i < size - 1 then pipe_fds.getD (i * 2 + 1) (-1) else -1)) = r2
      have hr2f : r2.1.n_fork = r1.1.n_fork ∧ r2.1.children = r1.1.children ∧
          r2.1.waited = r1.1.waited ∧
          r2.1.background_processes = r1.1.background_processes ∧ r2.1.out = r1.1.out := by
        subst hr2
        have key := fun f => sys_open_frame os r1.1 f
          (if cmd.append_output then .wrAppend else .wrTrunc)
        split
        · split
          · exact key _
          · exact ⟨rfl, rfl, rfl, rfl, rfl⟩
        · exact ⟨rfl, rfl, rfl, rfl, rfl⟩
      obtain ⟨a1, a2, a3, a4, a5⟩ := hr1f
      obtain ⟨b1, b2, b3, b4, b5⟩ := hr2f
      have hn : r2.1.n_fork = w.n_fork := b1.trans a1
      obtain ⟨e1, e2⟩ := execute_external_program_ok os r2.1 cmd r1.2 r2.2
        (by rw [hn]; simpa using hf 0 (by simp))
      rw [hn] at e1 e2
      rw [e1]
      simp only
      rw [if_pos e2]
      obtain ⟨created, g1, g2, g3, g4, g5, g6, g7⟩ := ih (i + 1)
        { r2.1 with
          n_fork := w.n_fork + 1,
          children := r2.1.children ++
            [{ pid := forkPid os w.n_fork, program := cmd.program,
               arguments := cmd.arguments, fds := (childSetup r2.1.fds r1.2 r2.2).1,
               exec_reached := (childSetup r2.1.fds r1.2 r2.2).2 }] }
        (pids ++ [forkPid os w.n_fork])
        (by
          intro k hk
          have := hf (k + 1) (by simpa using hk)
          simpa [show w.n_fork + 1 + k = w.n_fork + (k + 1) by omega] using this)
      simp only at g1 g2 g4 g5 g6 g7
      refine ⟨{ pid := forkPid os w.n_fork, program := cmd.program,
                arguments := cmd.arguments, fds := (childSetup r2.1.fds r1.2 r2.2).1,
                exec_reached := (childSetup r2.1.fds r1.2 r2.2).2 } :: created,
        ?_, ?_, ?_, ?_, ?_, ?_, ?_⟩
      · rw [g1, b2, a2]; simp
      · simp [spawnedPids, g2]
      · simp [g3]
      · rw [g4]; simp [spawnedPids]
      · rw [g5, b3, a3]
      · rw [g6, b4, a4]
      · rw [g7, b5, a5]

theorem wait_for_process_frame (os : OS) (w : World) (pid : Int) :
    (wait_for_process os w pid).1.waited = w.waited ++ [pid] ∧
      (wait_for_process os w pid).1.children = w.children ∧
      (wait_for_process os w pid).1.background_processes = w.background_processes ∧
      (wait_for_process os w pid).1.fds = w.fds ∧
      (wait_for_process os w pid).1.out = w.out := by
  unfold wait_for_process
  split <;> simp

/-- What `waitpid` does depends on the children of the shell only. -/
theorem sys_waitpid_congr (os : OS) (w w1 : World) (pid : Int) (h : w.children = w1.children) :
    sys_waitpid os w pid = sys_waitpid os w1 pid := by
  unfold sys_waitpid childOf
  rw [h]

theorem wait_for_process_code (os : OS) (w w1 : World) (pid : Int)
    (h : w.children = w1.children) :
    (wait_for_process os w pid).2 = (wait_for_process os w1 pid).2 := by
  unfold wait_for_process
  rw [sys_waitpid_congr os w w1 pid h]
  split <;> rfl

theorem wait_for_process_isSome (os : OS) (w : World) (pid : Int) :
    (wait_for_process os w pid).2 = none ↔ sys_waitpid os w pid = none := by
  unfold wait_for_process
  split <;> simp_all

/-- The last loop of `create_pipeline` changes neither the children nor the
background list nor the output of the shell. -/
theorem waitLoop_frame (os : OS) :
    ∀ (pids : List Int) (w : World) (c : Int),
      (waitLoop os pids w c).1.children = w.children ∧
        (waitLoop os pids w c).1.background_processes = w.background_processes ∧
        (waitLoop os pids w c).1.out = w.out ∧
        (waitLoop os pids w c).1.fds = w.fds := by
  intro pids
  induction pids with
  | nil => intro w c; simp [waitLoop]
  | cons pid rest ih =>
    intro w c
    obtain ⟨_, f2, f3, f4, f5⟩ := wait_for_process_frame os w pid
    rw [waitLoop]
    cases hr : (wait_for_process os w pid).2 with
    | none => exact ⟨f2, f3, f5, f4⟩
    | some code =>
      obtain ⟨h1, h2, h3, h4⟩ := ih (wait_for_process os w pid).1 code
      exact ⟨h1.trans f2, h2.trans f3, h3.trans f5, h4.trans f4⟩

/-- When no `waitpid` blocks, the last loop of `create_pipeline` waits for
every process id in order and returns the code of the last one. -/
theorem waitLoop_returns (os : OS) :
    ∀ (pids : List Int) (w : World) (c : Int),
      (∀ pid ∈ pids, sys_waitpid os w pid ≠ none) →
      (waitLoop os pids w c).1.waited = w.waited ++ pids ∧
        (waitLoop os pids w c).2 =
          (match pids.getLast? with
            | none => some c
            | some pid => (wait_for_process os w pid).2) := by
  intro pids
  induction pids with
  | nil => intro w c _; simp [waitLoop]
  | cons pid rest ih =>
    intro w c hall
    obtain ⟨f1, f2, _, _, _⟩ := wait_for_process_frame os w pid
    rw [waitLoop]
    cases hr : (wait_for_process os w pid).2 with
    | none =>
      exact absurd ((wait_for_process_isSome os w pid).1 hr) (hall pid (List.mem_cons_self _ _))
    | some code =>
      simp only
      obtain ⟨h1, h2⟩ := ih (wait_for_process os w pid).1 code (by
        intro q hq
        rw [sys_waitpid_congr os _ w q f2]
        exact hall q (List.mem_cons_of_mem _ hq))
      refine ⟨by rw [h1, f1]; simp, ?_⟩
      rw [h2]
      cases rest with
      | nil => simp [hr]
      | cons a t =>
        rw [List.getLast?_cons_cons]
        cases hl : (a :: t).getLast? with
        | none => simp at hl
        | some x => exact wait_for_process_code os _ _ x f2

/-- When a `waitpid` blocks, the last loop of `create_pipeline` never
ends. -/
theorem waitLoop_blocks (os : OS) :
    ∀ (pids : List Int) (w : World) (c : Int),
      (∃ pid ∈ pids, sys_waitpid os w pid = none) → (waitLoop os pids w c).2 = none := by
  intro pids
  induction pids with
  | nil => intro w c h; obtain ⟨_, h, _⟩ := h; simp at h
  | cons pid rest ih =>
    intro w c hex
    obtain ⟨_, f2, _, _, _⟩ := wait_for_process_frame os w pid
    rw [waitLoop]
    cases hr : (wait_for_process os w pid).2 with
    | none => rfl
    | some code =>
      simp only
      apply ih
      obtain ⟨q, hq, hb⟩ := hex
      rcases List.mem_cons.1 hq with rfl | hq
      · rw [(wait_for_process_isSome os w q).2 hb] at hr
        exact absurd hr (by simp)
      · exact ⟨q, hq, by rw [sys_waitpid_congr os _ w q f2]; exact hb⟩

/-- The child that a process id names is, when one of the children forked
last has that id, one of these. -/
theorem childOf_created (w : World) (old created : List Child) (pid : Int)
    (hw : w.children = old ++ created) (hp : pid ∈ created.map Child.pid) :
    ∃ c ∈ created, childOf w pid = some c := by
  unfold childOf
  rw [hw, List.reverse_append, List.find?_append]
  obtain ⟨c0, hc0, hpid⟩ := List.mem_map.1 hp
  cases hfind : created.reverse.find? (fun c => c.pid == pid) with
  | none =>
    have := List.find?_eq_none.1 hfind c0 (List.mem_reverse.2 hc0)
    simp [hpid] at this
  | some c =>
    exact ⟨c, List.mem_reverse.1 (List.mem_of_find?_eq_some hfind), rfl⟩

/-- Waiting for a child whose program does not read its standard input to
the end returns. -/
theorem sys_waitpid_returns (os : OS) (w : World) (pid : Int) (c : Child)
    (hc : childOf w pid = some c) (hr : os.reads_stdin c.program c.arguments = false) :
    sys_waitpid os w pid ≠ none := by
  unfold sys_waitpid
  rw [hc]
  simp only [hr, Bool.false_and]
  cases c.ownExit os <;> simp

theorem spawnedPids_getLast (os : OS) :
    ∀ (n start : Nat), (spawnedPids os start (n + 1)).getLast? = some (forkPid os (start + n)) := by
  intro n
  induction n with
  | zero => intro start; simp [spawnedPids]
  | succ n ih =>
    intro start
    rw [spawnedPids]
    have := ih (start + 1)
    rw [spawnedPids] at this ⊢
    rw [List.getLast?_cons_cons, this]
    congr 2; omega

/-- A pipeline of two or more commands goes through `create_pipeline`,
whatever the handlers of the built-ins. -/
theorem execute_pipeline_eq_create (os : OS) (h : BuiltinCommands.Handlers) (p : Pipeline)
    (w : World) (hN : 2 ≤ p.commands.length) :
    execute_pipeline os h p w = create_pipeline os p w := by
  unfold execute_pipeline
  split
  · rename_i e; rw [e] at hN; simp at hN
  · rename_i e; rw [e] at hN; simp at hN
  · rfl

/-- The multi-command path when the pipes are created and the forks
succeed: one child per external command, in order, nothing written and nothing
put on the background list. When the wait for each of these children returns,
they are all waited for, in order, and the code returned is that of the last
wait (0 when there is no external command); when the wait for one of them never
returns, neither does `create_pipeline`. -/
theorem create_pipeline_spec (os : OS) (p : Pipeline) (w : World)
    (hpipe : ∀ k, k < p.commands.length - 1 → os.pipe_ok (w.n_pipe + k) = true)
    (hfork : ∀ i, i < (externalCommands p.commands).length →
      (os.fork (w.n_fork + i)).isSome = true) :
    (∃ created : List Child,
        (create_pipeline os p w).1.children = w.children ++ created ∧
        created.map Child.pid =
          spawnedPids os w.n_fork (externalCommands p.commands).length ∧
        created.map (fun c => (c.program, c.arguments)) =
          (externalCommands p.commands).map (fun c => (c.program, c.arguments))) ∧
      (create_pipeline os p w).1.out = w.out ∧
      (create_pipeline os p w).1.background_processes = w.background_processes ∧
      ((∀ pid ∈ spawnedPids os w.n_fork (externalCommands p.commands).length,
          sys_waitpid os (create_pipeline os p w).1 pid ≠ none) →
        (create_pipeline os p w).1.waited =
          w.waited ++ spawnedPids os w.n_fork (externalCommands p.commands).length ∧
        (create_pipeline os p w).2 =
          (match (externalCommands p.commands).length with
            | 0 => some 0
            | n + 1 =>
              (wait_for_process os (create_pipeline os p w).1 (forkPid os (w.n_fork + n))).2) ∧
        (create_pipeline os p w).2 ≠ none) ∧
      ((∃ pid ∈ spawnedPids os w.n_fork (externalCommands p.commands).length,
          sys_waitpid os (create_pipeline os p w).1 pid = none) →
        (create_pipeline os p w).2 = none) := by
  obtain ⟨w1, fds, hmk, m1, m2, m3, m4, m5⟩ :=
    makePipes_ok os (p.commands.length - 1) w [] hpipe
  obtain ⟨created, s1, s2, s3, s4, s5, s6, s7⟩ :=
    spawnLoop_spec os p.commands.length fds p.commands 0 w1 []
      (by intro k hk; rw [m1]; exact hfork k hk)
  rw [m1] at s2 s4
  rw [List.nil_append] at s4
  generalize hsp : spawnLoop os p.commands.length fds 0 p.commands w1 [] = sp
    at s1 s4 s5 s6 s7
  obtain ⟨_, c2, c3, c4, c5⟩ := foldl_sys_close_frame fds sp.1
  obtain ⟨v1, v2, v3, _⟩ := waitLoop_frame os sp.2 (fds.foldl sys_close sp.1) 0
  have hcp : create_pipeline os p w = waitLoop os sp.2 (fds.foldl sys_close sp.1) 0 := by
    simp only [create_pipeline, hmk, hsp]
  have hch : (create_pipeline os p w).1.children = w.children ++ created := by
    rw [hcp, v1, c2, s1, m2]
  have hclose : (fds.foldl sys_close sp.1).children = (create_pipeline os p w).1.children := by
    rw [hch, c2, s1, m2]
  have hW : ∀ pid, (wait_for_process os (fds.foldl sys_close sp.1) pid).2 =
      (wait_for_process os (create_pipeline os p w).1 pid).2 :=
    fun pid => wait_for_process_code os _ _ pid hclose
  refine ⟨⟨created, hch, s2, s3⟩, by rw [hcp, v3, c5, s7, m5], by rw [hcp, v2, c4, s6, m4],
    ?_, ?_⟩
  · intro hall
    have hret : ∀ pid ∈ sp.2, sys_waitpid os (fds.foldl sys_close sp.1) pid ≠ none := by
      intro pid hpid
      rw [sys_waitpid_congr os _ _ pid hclose]
      exact hall pid (by rw [← s4]; exact hpid)
    obtain ⟨r1, r2⟩ := waitLoop_returns os sp.2 (fds.foldl sys_close sp.1) 0 hret
    have hlast : (create_pipeline os p w).2 =
        (match sp.2.getLast? with
          | none => some 0
          | some pid => (wait_for_process os (fds.foldl sys_close sp.1) pid).2) := by
      rw [hcp]
      exact r2
    have hcode : (create_pipeline os p w).2 =
        (match (externalCommands p.commands).length with
          | 0 => some 0
          | n + 1 =>
            (wait_for_process os (create_pipeline os p w).1
              (forkPid os (w.n_fork + n))).2) := by
      rw [hlast, s4]
      cases hn : (externalCommands p.commands).length with
      | zero => simp [spawnedPids]
      | succ n =>
        rw [spawnedPids_getLast]
        exact hW _
    refine ⟨by rw [hcp, r1, c3, s5, m3, s4], hcode, ?_⟩
    rw [hcode]
    cases hn : (externalCommands p.commands).length with
    | zero => simp
    | succ n =>
      simp only
      intro hnone
      refine hall (forkPid os (w.n_fork + n)) ?_ ((wait_for_process_isSome os _ _).1 hnone)
      rw [hn]
      exact List.mem_of_getLast?_eq_some (spawnedPids_getLast os n w.n_fork)
  · rintro ⟨pid, hpid, hb⟩
    rw [hcp]
    apply waitLoop_blocks
    exact ⟨pid, by rw [s4]; exact hpid, by rw [sys_waitpid_congr os _ _ pid hclose]; exact hb⟩

/-- When no external command of the pipeline reads its standard input to the
end, the wait for each child of the pipeline returns. -/
theorem create_pipeline_waits_return (os : OS) (p : Pipeline) (w : World)
    (hpipe : ∀ k, k < p.commands.length - 1 → os.pipe_ok (w.n_pipe + k) = true)
    (hfork : ∀ i, i < (externalCommands p.commands).length →
      (os.fork (w.n_fork + i)).isSome = true)
    (hread : ∀ c ∈ externalCommands p.commands, os.reads_stdin c.program c.arguments = false) :
    ∀ pid ∈ spawnedPids os w.n_fork (externalCommands p.commands).length,
      sys_waitpid os (create_pipeline os p w).1 pid ≠ none := by
  obtain ⟨⟨created, hch, s2, s3⟩, _⟩ := create_pipeline_spec os p w hpipe hfork
  intro pid hpid
  rw [← s2] at hpid
  obtain ⟨c, hc, hof⟩ := childOf_created _ w.children created pid hch hpid
  refine sys_waitpid_returns os _ pid c hof ?_
  have hmem : (c.program, c.arguments) ∈
      (externalCommands p.commands).map (fun c => (c.program, c.arguments)) := by
    rw [← s3]
    exact List.mem_map.2 ⟨c, hc, rfl⟩
  obtain ⟨cmd, hcmd, he⟩ := List.mem_map.1 hmem
  have h1 : cmd.program = c.program := congrArg Prod.fst he
  have h2 : cmd.arguments = c.arguments := congrArg Prod.snd he
  rw [← h1, ← h2]
  exact hread cmd hcmd

theorem mem_close {t : FdTable} {fd : Int} {e : Int × Resource} :
    e ∈ close t fd ↔ e ∈ t ∧ e.1 ≠ fd := by
  simp [close, List.mem_filter]

theorem isOpen_iff {t : FdTable} {fd : Int} :
    isOpen t fd = true ↔ ∃ res, (fd, res) ∈ t := by
  unfold isOpen
  rw [List.any_eq_true]
  constructor
  · rintro ⟨⟨k, res⟩, hm, hk⟩
    have : k = fd := by simpa using hk
    subst this
    exact ⟨res, hm⟩
  · rintro ⟨res, hm⟩
    exact ⟨(fd, res), hm, by simp⟩

theorem isOpen_iff_mem_keys {t : FdTable} {fd : Int} :
    isOpen t fd = true ↔ fd ∈ t.map Prod.fst := by
  rw [isOpen_iff, List.mem_map]
  constructor
  · rintro ⟨res, hm⟩
    exact ⟨(fd, res), hm, rfl⟩
  · rintro ⟨⟨k, res⟩, hm, hk⟩
    simp only at hk
    subst hk
    exact ⟨res, hm⟩

/-- The descriptor handed out by `open` and `pipe` is not open and not
negative. -/
theorem freshFd_spec (t : FdTable) : isOpen t (freshFd t) = false ∧ 0 ≤ freshFd t := by
  unfold freshFd
  split
  · rename_i n h
    have h1 := List.find?_some h
    have hm := List.mem_of_find?_eq_some h
    simp at hm
    obtain ⟨a, _, rfl⟩ := hm
    exact ⟨by simpa using h1, Int.natCast_nonneg a⟩
  · rename_i h
    exfalso
    have hall := List.find?_eq_none.1 h
    simp at hall
    have hsub : (List.range (t.length + 1)).map (fun n : Nat => (n : Int)) ⊆
        t.map Prod.fst := by
      intro x hx
      obtain ⟨n, hn, rfl⟩ := List.mem_map.1 hx
      exact isOpen_iff_mem_keys.1 (hall _ n (List.mem_range.1 hn) rfl)
    have hnd : ((List.range (t.length + 1)).map (fun n : Nat => (n : Int))).Nodup :=
      (List.nodup_range _).map Nat.cast_injective
    have := (List.subperm_of_subset hnd hsub).length_le
    simp at this

theorem resourceOf_of_mem (t : FdTable) (hu : (t.map Prod.fst).Nodup) (fd : Int)
    (res : Resource) (h : (fd, res) ∈ t) : resourceOf t fd = some res := by
  induction t with
  | nil => exact absurd h (List.not_mem_nil _)
  | cons e t ih =>
    rw [List.map_cons, List.nodup_cons] at hu
    unfold resourceOf
    rw [List.find?_cons]
    by_cases he : e.1 = fd
    · have hb : (e.1 == fd) = true := by simpa using he
      rw [hb]
      rcases List.mem_cons.1 h with h1 | h1
      · rw [← h1]
        rfl
      · exfalso
        apply hu.1
        rw [he]
        exact List.mem_map.2 ⟨(fd, res), h1, rfl⟩
    · have hb : (e.1 == fd) = false := by simpa using he
      rw [hb]
      rcases List.mem_cons.1 h with h1 | h1
      · rw [← h1] at he
        exact absurd rfl he
      · exact ih hu.2 h1

theorem nodup_close (t : FdTable) (fd : Int) (hu : (t.map Prod.fst).Nodup) :
    ((close t fd).map Prod.fst).Nodup := by
  unfold close
  exact (List.Nodup.sublist ((List.filter_sublist t).map Prod.fst) hu)

theorem nodup_cons_close (t : FdTable) (fd : Int) (res : Resource)
    (hu : (t.map Prod.fst).Nodup) : (((fd, res) :: close t fd).map Prod.fst).Nodup := by
  rw [List.map_cons, List.nodup_cons]
  refine ⟨?_, nodup_close t fd hu⟩
  intro hm
  obtain ⟨e, he, hk⟩ := List.mem_map.1 hm
  exact (mem_close.1 he).2 hk

theorem dup2_of_mem (t : FdTable) (hu : (t.map Prod.fst).Nodup) (oldfd newfd : Int)
    (res : Resource) (h : (oldfd, res) ∈ t) (hne : oldfd ≠ newfd) :
    dup2 t oldfd newfd = some ((newfd, res) :: close t newfd) := by
  have hr := resourceOf_of_mem t hu oldfd res h
  unfold resourceOf at hr
  unfold dup2
  cases hf : t.find? (fun e => e.1 == oldfd) with
  | none => rw [hf] at hr; simp at hr
  | some e =>
    rw [hf] at hr
    simp only [Option.map_some', Option.some.injEq] at hr
    simp only [if_neg hne, hr]

/-- A child that is given the read end `r` of a pipe as its input, in a
table where the write end `wfd` of that pipe is open, reaches `execvp` with the
pipe on its standard input and `wfd` still open. -/
theorem childSetup_keeps_writer (t : FdTable) (hu : (t.map Prod.fst).Nodup) (r wfd out : Int)
    (n : Nat) (hr : (r, Resource.pipeRead n) ∈ t) (hw : (wfd, Resource.pipeWrite n) ∈ t)
    (hr0 : r ≠ 0) (hr1 : r ≠ -1) (hw0 : wfd ≠ 0) (hw1 : wfd ≠ 1)
    (hout : out = -1 ∨ (out ≠ 0 ∧ out ≠ 1 ∧ ∃ res, (out, res) ∈ t ∧
      res ≠ Resource.pipeRead n ∧ res ≠ Resource.pipeWrite n)) :
    (childSetup t r out).2 = true ∧
      resourceOf (childSetup t r out).1 0 = some (Resource.pipeRead n) ∧
      (wfd, Resource.pipeWrite n) ∈ (childSetup t r out).1 := by
  have hwr : wfd ≠ r := by
    intro h
    rw [h] at hw
    have h1 := resourceOf_of_mem t hu r _ hr
    have h2 := resourceOf_of_mem t hu r _ hw
    rw [h1] at h2
    simp at h2
  have hd1 := dup2_of_mem t hu r 0 _ hr hr0
  have hu1 : ((close ((0, Resource.pipeRead n) :: close t 0) r).map Prod.fst).Nodup :=
    nodup_close _ r (nodup_cons_close t 0 _ hu)
  have hm0 : ((0 : Int), Resource.pipeRead n) ∈
      close ((0, Resource.pipeRead n) :: close t 0) r :=
    mem_close.2 ⟨List.mem_cons_self _ _, fun h => hr0 h.symm⟩
  have hmw : (wfd, Resource.pipeWrite n) ∈ close ((0, Resource.pipeRead n) :: close t 0) r :=
    mem_close.2 ⟨List.mem_cons_of_mem _ (mem_close.2 ⟨hw, hw0⟩), hwr⟩
  rcases hout with rfl | ⟨ho0, ho1, res, hres, hne1, hne2⟩
  · have hcs : childSetup t r (-1) =
        (close ((0, Resource.pipeRead n) :: close t 0) r, true) := by
      simp [childSetup, hr1, hd1]
    rw [hcs]
    exact ⟨rfl, resourceOf_of_mem _ hu1 0 _ hm0, hmw⟩
  · have hor : out ≠ r := by
      intro h
      rw [h] at hres
      have h1 := resourceOf_of_mem t hu r _ hr
      have h2 := resourceOf_of_mem t hu r _ hres
      rw [h1] at h2
      exact hne1 (Option.some.inj h2).symm
    have how : out ≠ wfd := by
      intro h
      rw [h] at hres
      have h1 := resourceOf_of_mem t hu wfd _ hw
      have h2 := resourceOf_of_mem t hu wfd _ hres
      rw [h1] at h2
      exact hne2 (Option.some.inj h2).symm
    by_cases hneg : out = -1
    · subst hneg
      have hcs : childSetup t r (-1) =
          (close ((0, Resource.pipeRead n) :: close t 0) r, true) := by
        simp [childSetup, hr1, hd1]
      rw [hcs]
      exact ⟨rfl, resourceOf_of_mem _ hu1 0 _ hm0, hmw⟩
    · have hmo : (out, res) ∈ close ((0, Resource.pipeRead n) :: close t 0) r :=
        mem_close.2 ⟨List.mem_cons_of_mem _ (mem_close.2 ⟨hres, ho0⟩), hor⟩
      have hd2 := dup2_of_mem _ hu1 out 1 _ hmo ho1
      have hcs : childSetup t r out =
          (close ((1, res) :: close (close ((0, Resource.pipeRead n) :: close t 0) r) 1) out,
            true) := by
        simp [childSetup, hr1, hd1, hneg, hd2]
      rw [hcs]
      have hu2 := nodup_close _ out (nodup_cons_close _ 1 res hu1)
      refine ⟨rfl, resourceOf_of_mem _ hu2 0 _ ?_, ?_⟩
      · exact mem_close.2 ⟨List.mem_cons_of_mem _ (mem_close.2 ⟨hm0, fun h => by simp at h⟩),
          fun h => ho0 h.symm⟩
      · exact mem_close.2 ⟨List.mem_cons_of_mem _ (mem_close.2 ⟨hmw, hw1⟩),
          fun h => how h.symm⟩

theorem flatPairs_append (a b : List (Int × Int)) :
    flatPairs (a ++ b) = flatPairs a ++ flatPairs b := by
  induction a with
  | nil => rfl
  | cons x rest ih =>
    obtain ⟨r, wr⟩ := x
    simp [flatPairs, ih]

theorem flatPairs_getD (d : Int) :
    ∀ (pairs : List (Int × Int)) (j : Nat) (r wr : Int), pairs[j]? = some (r, wr) →
      (flatPairs pairs).getD (j * 2) d = r ∧ (flatPairs pairs).getD (j * 2 + 1) d = wr := by
  intro pairs
  induction pairs with
  | nil => intro j r wr h; simp at h
  | cons x rest ih =>
    intro j r wr h
    obtain ⟨a, b⟩ := x
    cases j with
    | zero =>
      simp only [List.getElem?_cons_zero, Option.some.injEq, Prod.mk.injEq] at h
      obtain ⟨rfl, rfl⟩ := h
      exact ⟨rfl, rfl⟩
    | succ k =>
      rw [List.getElem?_cons_succ] at h
      obtain ⟨h1, h2⟩ := ih k r wr h
      have e1 : (k + 1) * 2 = k * 2 + 1 + 1 := by omega
      have e2 : (k + 1) * 2 + 1 = (k * 2 + 1) + 1 + 1 := by omega
      rw [e2, e1]
      simp only [flatPairs, List.getD_cons_succ]
      exact ⟨h1, h2⟩

theorem isOpen_append (t : FdTable) (e : Int × Resource) (fd : Int)
    (h : isOpen t fd = true) : isOpen (t ++ [e]) fd = true := by
  unfold isOpen at h ⊢
  rw [List.any_append, h]
  rfl

/-- Opening a descriptor that was not open keeps the pipes that are held. -/
theorem holdsPipes_append (t : FdTable) (pairs : List (Int × Int)) (base : Nat)
    (h : HoldsPipes t pairs base) (f : Int) (res : Resource) (hf : isOpen t f = false) :
    HoldsPipes (t ++ [(f, res)]) pairs base := by
  obtain ⟨hu, h0, h1, hp⟩ := h
  refine ⟨?_, isOpen_append t _ 0 h0, isOpen_append t _ 1 h1, ?_⟩
  · rw [List.map_append, List.map_singleton]
    apply List.Nodup.append hu (List.nodup_singleton _)
    intro x hx hx2
    rw [List.mem_singleton] at hx2
    subst hx2
    have := isOpen_iff_mem_keys.2 hx
    rw [hf] at this
    exact absurd this (by decide)
  · intro j r wr hj
    obtain ⟨a1, a2, a3⟩ := hp j r wr hj
    exact ⟨List.mem_append_left _ a1, List.mem_append_left _ a2, a3⟩

/-- An `open` keeps the pipes that are held; the descriptor it returns is
`-1` or a file that is neither descriptor 0 nor descriptor 1. -/
theorem holdsPipes_sys_open (os : OS) (w : World) (path : Str) (mode : OpenMode)
    (pairs : List (Int × Int)) (base : Nat) (h : HoldsPipes w.fds pairs base) :
    HoldsPipes (sys_open os w path mode).1.fds pairs base ∧
      ((sys_open os w path mode).2 = -1 ∨
        ((sys_open os w path mode).2 ≠ 0 ∧ (sys_open os w path mode).2 ≠ 1 ∧
          ((sys_open os w path mode).2, Resource.file path mode) ∈
            (sys_open os w path mode).1.fds)) := by
  obtain ⟨hf, _⟩ := freshFd_spec w.fds
  unfold sys_open
  by_cases hok : os.open_ok w.opened.length path mode = true
  · simp only [hok, if_true]
    refine ⟨holdsPipes_append w.fds pairs base h _ _ hf, Or.inr ⟨?_, ?_, ?_⟩⟩
    · intro h0
      rw [h0, h.2.1] at hf
      exact absurd hf (by decide)
    · intro h1
      rw [h1, h.2.2.1] at hf
      exact absurd hf (by decide)
    · exact List.mem_append_right _ (List.mem_singleton_self _)
  · have hok' : os.open_ok w.opened.length path mode = false := by simpa using hok
    rw [if_neg (by rw [hok']; decide)]
    exact ⟨h, Or.inl rfl⟩

/-- A successful `pipe` adds a pipe to those that are held. -/
theorem holdsPipes_sys_pipe (os : OS) (w : World) (pairs : List (Int × Int)) (base : Nat)
    (h : HoldsPipes w.fds pairs base) (hlen : base + pairs.length = w.n_pipe)
    (hok : os.pipe_ok w.n_pipe = true) :
    ∃ r wr, sys_pipe os w = ((sys_pipe os w).1, some (r, wr)) ∧
      HoldsPipes (sys_pipe os w).1.fds (pairs ++ [(r, wr)]) base := by
  obtain ⟨hf1, hn1⟩ := freshFd_spec w.fds
  obtain ⟨hf2, _⟩ := freshFd_spec (w.fds ++ [(freshFd w.fds, Resource.pipeRead w.n_pipe)])
  have hA := holdsPipes_append w.fds pairs base h _ (Resource.pipeRead w.n_pipe) hf1
  have hB := holdsPipes_append _ pairs base hA _ (Resource.pipeWrite w.n_pipe) hf2
  have hfds : (sys_pipe os w).1.fds =
      w.fds ++ [(freshFd w.fds, Resource.pipeRead w.n_pipe)] ++
        [(freshFd (w.fds ++ [(freshFd w.fds, Resource.pipeRead w.n_pipe)]),
          Resource.pipeWrite w.n_pipe)] := by
    simp [sys_pipe, hok]
  refine ⟨freshFd w.fds, freshFd (w.fds ++ [(freshFd w.fds, Resource.pipeRead w.n_pipe)]),
    by simp [sys_pipe, hok], ?_⟩
  rw [hfds]
  refine ⟨hB.1, hB.2.1, hB.2.2.1, ?_⟩
  intro j r wr hj
  by_cases hjl : j < pairs.length
  · rw [List.getElem?_append_left hjl] at hj
    exact hB.2.2.2 j r wr hj
  · have hjl' : pairs.length ≤ j := by omega
    rw [List.getElem?_append_right hjl'] at hj
    have hj0 : j - pairs.length = 0 := by
      by_contra hne
      obtain ⟨k, hk⟩ : ∃ k, j - pairs.length = k + 1 := ⟨j - pairs.length - 1, by omega⟩
      rw [hk] at hj
      simp at hj
    rw [hj0] at hj
    simp only [List.getElem?_cons_zero, Option.some.injEq, Prod.mk.injEq] at hj
    obtain ⟨rfl, rfl⟩ := hj
    have hbj : base + j = w.n_pipe := by omega
    rw [hbj]
    refine ⟨List.mem_append_left _ (List.mem_append_right _ (List.mem_singleton_self _)),
      List.mem_append_right _ (List.mem_singleton_self _), ?_, ?_, ?_, ?_⟩
    · intro h0
      rw [h0, h.2.1] at hf1
      exact absurd hf1 (by decide)
    · intro hm
      rw [hm] at hn1
      exact absurd hn1 (by decide)
    · intro h0
      rw [h0, hA.2.1] at hf2
      exact absurd hf2 (by decide)
    · intro h1
      rw [h1, hA.2.2.1] at hf2
      exact absurd hf2 (by decide)

/-- When every `pipe` call succeeds, the first loop of `create_pipeline`
ends holding all its pipes. -/
theorem makePipes_holds (os : OS) (base : Nat) :
    ∀ (k : Nat) (w : World) (pairs : List (Int × Int)),
      HoldsPipes w.fds pairs base → base + pairs.length = w.n_pipe →
      (∀ j, j < k → os.pipe_ok (w.n_pipe + j) = true) →
      ∃ w1 pairs1, makePipes os k w (flatPairs pairs) = (w1, some (flatPairs pairs1)) ∧
        HoldsPipes w1.fds pairs1 base ∧ pairs1.length = pairs.length + k := by
  intro k
  induction k with
  | zero => intro w pairs h _ _; exact ⟨w, pairs, rfl, h, rfl⟩
  | succ k ih =>
    intro w pairs h hlen hp
    have h0 : os.pipe_ok w.n_pipe = true := by simpa using hp 0 (Nat.succ_pos k)
    obtain ⟨r, wr, hpair, hh⟩ := holdsPipes_sys_pipe os w pairs base h hlen h0
    have hn : (sys_pipe os w).1.n_pipe = w.n_pipe + 1 := (sys_pipe_frame os w).2.2.2.2.1
    obtain ⟨w1, pairs1, e, g1, g2⟩ := ih (sys_pipe os w).1 (pairs ++ [(r, wr)]) hh
      (by rw [hn, List.length_append, List.length_singleton]; omega)
      (by
        intro j hj
        rw [hn]
        have := hp (j + 1) (by omega)
        rwa [show w.n_pipe + 1 + j = w.n_pipe + (j + 1) by omega])
    refine ⟨w1, pairs1, ?_, g1, by rw [g2, List.length_append, List.length_singleton]; omega⟩
    rw [makePipes, hpair]
    simp only
    rw [flatPairs_append] at e
    exact e

theorem holdsPipes_mono_read {t : FdTable} {pairs : List (Int × Int)} {base : Nat}
    (h : HoldsPipes t pairs base) (j : Nat) (r wr : Int) (hj : pairs[j]? = some (r, wr)) :
    (r, Resource.pipeRead (base + j)) ∈ t ∧ (wr, Resource.pipeWrite (base + j)) ∈ t :=
  ⟨(h.2.2.2 j r wr hj).1, (h.2.2.2 j r wr hj).2.1⟩

theorem starved_of_table (c : Child) (n : Nat) (wfd : Int)
    (h0 : resourceOf c.fds 0 = some (Resource.pipeRead n))
    (hw : (wfd, Resource.pipeWrite n) ∈ c.fds) : c.starved = true := by
  unfold Child.starved
  rw [h0]
  simp only
  rw [List.any_eq_true]
  exact ⟨(wfd, Resource.pipeWrite n), hw, by simp⟩

/-- The second loop of `create_pipeline` from a stage after the first on,
the shell holding the pipes: every child it forks reaches `execvp` with a pipe
on its standard input of which it holds the write end. -/
theorem spawnLoop_readers_starved (os : OS) (size : Nat) (pairs : List (Int × Int))
    (base : Nat) :
    ∀ (cmds : List Command) (i : Nat) (w : World) (pids : List Int),
      1 ≤ i → i + cmds.length = size → pairs.length = size - 1 →
      HoldsPipes w.fds pairs base →
      (∀ k, k < (externalCommands cmds).length → (os.fork (w.n_fork + k)).isSome = true) →
      ∃ created : List Child,
        (spawnLoop os size (flatPairs pairs) i cmds w pids).1.children =
          w.children ++ created ∧
        ∀ c ∈ created, c.exec_reached = true ∧ c.starved = true := by
  intro cmds
  induction cmds with
  | nil =>
    intro i w pids _ _ _ _ _
    exact ⟨[], by simp [spawnLoop]⟩
  | cons cmd rest ih =>
    intro i w pids hi hsz hlen hold hf
    have hsz' : i + 1 + rest.length = size := by
      rw [List.length_cons] at hsz
      omega
    by_cases hcb : BuiltinCommands.is_builtin cmd.program = true
    · have hext : externalCommands (cmd :: rest) = externalCommands rest := by
        simp [externalCommands, hcb]
      rw [spawnLoop]
      simp only [hcb, if_true]
      rw [hext] at hf
      exact ih (i + 1) w pids (by omega) hsz' hlen hold hf
    · have hcb' : BuiltinCommands.is_builtin cmd.program = false := by simpa using hcb
      have hext : externalCommands (cmd :: rest) = cmd :: externalCommands rest := by
        simp [externalCommands, hcb']
      rw [hext] at hf
      have hi0 : i ≠ 0 := by omega
      have hipos : i > 0 := by omega
      have hj : i - 1 < pairs.length := by omega
      obtain ⟨r, wr, hpair⟩ : ∃ r wr, pairs[i - 1]? = some (r, wr) :=
        ⟨(pairs[i - 1]).1, (pairs[i - 1]).2, by rw [List.getElem?_eq_getElem hj]⟩
      obtain ⟨q1, q2, q3, q4, q5, q6⟩ := hold.2.2.2 (i - 1) r wr hpair
      have hin : (flatPairs pairs).getD ((i - 1) * 2) (-1) = r :=
        (flatPairs_getD (-1) pairs (i - 1) r wr hpair).1
      rw [spawnLoop]
      simp only [hcb', Bool.false_eq_true, if_false]
      generalize hr1 : (match cmd.input_file with
          | some f => if i = 0 then sys_open os w f .rdonly
              else (w, if i > 0 then (flatPairs pairs).getD ((i - 1) * 2) (-1) else -1)
          | none => (w, if i > 0 then (flatPairs pairs).getD ((i - 1) * 2) (-1) else -1)) = r1
      have hr1e : r1 = (w, r) := by
        subst hr1
        cases cmd.input_file with
        | none => simp only [if_pos hipos, hin]
        | some f => simp only [if_neg hi0, if_pos hipos, hin]
      subst hr1e
      simp only
      generalize hr2 : (match cmd.output_file with
          | some f =>
            if i = size - 1 then
              sys_open os w f (if cmd.append_output then .wrAppend else .wrTrunc)
            else (w, if i < size - 1 then (flatPairs pairs).getD (i * 2 + 1) (-1) else -1)
          | none => (w, if i < size - 1 then (flatPairs pairs).getD (i * 2 + 1) (-1) else -1)) = r2
      have hpipeout : (i < size - 1 →
          (flatPairs pairs).getD (i * 2 + 1) (-1) ≠ 0 ∧
          (flatPairs pairs).getD (i * 2 + 1) (-1) ≠ 1 ∧
          ∃ res, ((flatPairs pairs).getD (i * 2 + 1) (-1), res) ∈ w.fds ∧
            res ≠ Resource.pipeRead (base + (i - 1)) ∧
            res ≠ Resource.pipeWrite (base + (i - 1))) := by
        intro hlt
        have hj2 : i < pairs.length := by omega
        have hpair2 : pairs[i]? = some ((pairs[i]).1, (pairs[i]).2) := by
          rw [List.getElem?_eq_getElem hj2]
        obtain ⟨_, p2, _, _, p5, p6⟩ := hold.2.2.2 i _ _ hpair2
        rw [(flatPairs_getD (-1) pairs i _ _ hpair2).2]
        refine ⟨p5, p6, _, p2, by simp, ?_⟩
        intro he
        have := Resource.pipeWrite.inj he
        omega
      have hr2f : HoldsPipes r2.1.fds pairs base ∧ r2.1.n_fork = w.n_fork ∧
          r2.1.children = w.children ∧
          (r2.2 = -1 ∨ (r2.2 ≠ 0 ∧ r2.2 ≠ 1 ∧ ∃ res, (r2.2, res) ∈ r2.1.fds ∧
            res ≠ Resource.pipeRead (base + (i - 1)) ∧
            res ≠ Resource.pipeWrite (base + (i - 1)))) := by
        subst hr2
        have hplain : HoldsPipes w.fds pairs base ∧ w.n_fork = w.n_fork ∧
            w.children = w.children ∧
            ((if i < size - 1 then (flatPairs pairs).getD (i * 2 + 1) (-1) else -1) = -1 ∨
              ((if i < size - 1 then (flatPairs pairs).getD (i * 2 + 1) (-1) else -1) ≠ 0 ∧
                (if i < size - 1 then (flatPairs pairs).getD (i * 2 + 1) (-1) else -1) ≠ 1 ∧
                ∃ res, ((if i < size - 1 then (flatPairs pairs).getD (i * 2 + 1) (-1)
                    else -1), res) ∈ w.fds ∧
                  res ≠ Resource.pipeRead (base + (i - 1)) ∧
                  res ≠ Resource.pipeWrite (base + (i - 1)))) := by
          refine ⟨hold, rfl, rfl, ?_⟩
          by_cases hlt : i < size - 1
          · rw [if_pos hlt]
            exact Or.inr (hpipeout hlt)
          · rw [if_neg hlt]
            exact Or.inl rfl
        have hopen : ∀ f, HoldsPipes (sys_open os w f
              (if cmd.append_output then .wrAppend else .wrTrunc)).1.fds pairs base ∧
            (sys_open os w f (if cmd.append_output then .wrAppend else .wrTrunc)).1.n_fork =
              w.n_fork ∧
            (sys_open os w f (if cmd.append_output then .wrAppend else .wrTrunc)).1.children =
              w.children ∧
            ((sys_open os w f (if cmd.append_output then .wrAppend else .wrTrunc)).2 = -1 ∨
              ((sys_open os w f (if cmd.append_output then .wrAppend else .wrTrunc)).2 ≠ 0 ∧
                (sys_open os w f (if cmd.append_output then .wrAppend else .wrTrunc)).2 ≠ 1 ∧
                ∃ res, ((sys_open os w f
                    (if cmd.append_output then .wrAppend else .wrTrunc)).2, res) ∈
                    (sys_open os w f
                      (if cmd.append_output then .wrAppend else .wrTrunc)).1.fds ∧
                  res ≠ Resource.pipeRead (base + (i - 1)) ∧
                  res ≠ Resource.pipeWrite (base + (i - 1)))) := by
          intro f
          obtain ⟨o1, o2⟩ := holdsPipes_sys_open os w f
            (if cmd.append_output then .wrAppend else .wrTrunc) pairs base hold
          obtain ⟨fr1, fr2, _⟩ := sys_open_frame os w f
            (if cmd.append_output then .wrAppend else .wrTrunc)
          refine ⟨o1, fr1, fr2, ?_⟩
          rcases o2 with o2 | ⟨o3, o4, o5⟩
          · exact Or.inl o2
          · exact Or.inr ⟨o3, o4, _, o5, by simp, by simp⟩
        split
        · split
          · exact hopen _
          · exact hplain
        · exact hplain
      obtain ⟨c1, c2, c3, c4⟩ := hr2f
      obtain ⟨e1, e2⟩ := execute_external_program_ok os r2.1 cmd r r2.2
        (by rw [c2]; simpa using hf 0 (by simp))
      rw [c2] at e1 e2
      rw [e1]
      simp only
      rw [if_pos e2]
      obtain ⟨s1, s2, s3⟩ := childSetup_keeps_writer r2.1.fds c1.1 r wr r2.2 (base + (i - 1))
        ((holdsPipes_mono_read c1 (i - 1) r wr hpair).1)
        ((holdsPipes_mono_read c1 (i - 1) r wr hpair).2) q3 q4 q5 q6 c4
      obtain ⟨created, g1, g2⟩ := ih (i + 1)
        { r2.1 with
          n_fork := w.n_fork + 1,
          children := r2.1.children ++
            [{ pid := forkPid os w.n_fork, program := cmd.program,
               arguments := cmd.arguments, fds := (childSetup r2.1.fds r r2.2).1,
               exec_reached := (childSetup r2.1.fds r r2.2).2 }] }
        (pids ++ [forkPid os w.n_fork]) (by omega) hsz' hlen c1
        (by
          intro k hk
          have := hf (k + 1) (by simpa using hk)
          simpa [show w.n_fork + 1 + k = w.n_fork + (k + 1) by omega] using this)
      simp only at g1
      refine ⟨{ pid := forkPid os w.n_fork, program := cmd.program,
                arguments := cmd.arguments, fds := (childSetup r2.1.fds r r2.2).1,
                exec_reached := (childSetup r2.1.fds r r2.2).2 } :: created, ?_, ?_⟩
      · rw [g1, c3]; simp
      · intro c hc
        rcases List.mem_cons.1 hc with rfl | hc
        · exact ⟨s1, starved_of_table _ (base + (i - 1)) wr s2 s3⟩
        · exact g2 c hc

/-- One stage of the second loop of `create_pipeline`: the shell goes on
holding its pipes, and at most one child is added. -/
theorem spawnLoop_step (os : OS) (size : Nat) (pipe_fds : List Int)
    (pairs : List (Int × Int)) (base : Nat) (i : Nat) (cmd : Command) (rest : List Command)
    (w : World) (pids : List Int) (hold : HoldsPipes w.fds pairs base)
    (hf : ∀ k, k < (externalCommands [cmd]).length → (os.fork (w.n_fork + k)).isSome = true) :
    ∃ (w1 : World) (pids1 : List Int),
      spawnLoop os size pipe_fds i (cmd :: rest) w pids =
          spawnLoop os size pipe_fds (i + 1) rest w1 pids1 ∧
        HoldsPipes w1.fds pairs base ∧
        w1.n_fork = w.n_fork + (externalCommands [cmd]).length ∧
        ∃ first : List Child, w1.children = w.children ++ first := by
  by_cases hcb : BuiltinCommands.is_builtin cmd.program = true
  · have hext : externalCommands [cmd] = [] := by simp [externalCommands, hcb]
    refine ⟨w, pids, ?_, hold, by rw [hext]; rfl, [], by simp⟩
    rw [spawnLoop]
    simp only [hcb, if_true]
  · have hcb' : BuiltinCommands.is_builtin cmd.program = false := by simpa using hcb
    have hext : externalCommands [cmd] = [cmd] := by simp [externalCommands, hcb']
    rw [hext] at hf ⊢
    rw [spawnLoop]
    simp only [hcb', Bool.false_eq_true, if_false]
    generalize hr1 : (match cmd.input_file with
        | some f => if i = 0 then sys_open os w f .rdonly
            else (w, if i > 0 then pipe_fds.getD ((i - 1) * 2) (-1) else -1)
        | none => (w, if i > 0 then pipe_fds.getD ((i - 1) * 2) (-1) else -1)) = r1
    have hr1f : HoldsPipes r1.1.fds pairs base ∧ r1.1.n_fork = w.n_fork ∧
        r1.1.children = w.children := by
      subst hr1
      have key := fun f => sys_open_frame os w f .rdonly
      have hk := fun f => (holdsPipes_sys_open os w f .rdonly pairs base hold).1
      split
      · split
        · exact ⟨hk _, (key _).1, (key _).2.1⟩
        · exact ⟨hold, rfl, rfl⟩
      · exact ⟨hold, rfl, rfl⟩
    obtain ⟨a1, a2, a3⟩ := hr1f
    generalize hr2 : (match cmd.output_file with
        | some f =>
          if i = size - 1 then
            sys_open os r1.1 f (if cmd.append_output then .wrAppend else .wrTrunc)
          else (r1.1, if i < size - 1 then pipe_fds.getD (i * 2 + 1) (-1) else -1)
        | none => (r1.1, if i < size - 1 then pipe_fds.getD (i * 2 + 1) (-1) else -1)) = r2
    have hr2f : HoldsPipes r2.1.fds pairs base ∧ r2.1.n_fork = r1.1.n_fork ∧
        r2.1.children = r1.1.children := by
      subst hr2
      have key := fun f => sys_open_frame os r1.1 f
        (if cmd.append_output then .wrAppend else .wrTrunc)
      have hk := fun f => (holdsPipes_sys_open os r1.1 f
        (if cmd.append_output then .wrAppend else .wrTrunc) pairs base a1).1
      split
      · split
        · exact ⟨hk _, (key _).1, (key _).2.1⟩
        · exact ⟨a1, rfl, rfl⟩
      · exact ⟨a1, rfl, rfl⟩
    obtain ⟨b1, b2, b3⟩ := hr2f
    have hn : r2.1.n_fork = w.n_fork := b2.trans a2
    obtain ⟨e1, e2⟩ := execute_external_program_ok os r2.1 cmd r1.2 r2.2
      (by rw [hn]; simpa using hf 0 (by simp))
    rw [hn] at e1 e2
    rw [e1]
    simp only
    rw [if_pos e2]
    exact ⟨_, _, rfl, b1, rfl, _, by rw [b3, a3]⟩

theorem mem_spawnedPids (os : OS) :
    ∀ (n start : Nat) (x : Int),
      x ∈ spawnedPids os start n ↔ ∃ k, k < n ∧ x = forkPid os (start + k) := by
  intro n
  induction n with
  | zero => intro start x; simp [spawnedPids]
  | succ n ih =>
    intro start x
    rw [spawnedPids, List.mem_cons, ih]
    constructor
    · rintro (h | ⟨k, hk, h⟩)
      · exact ⟨0, Nat.succ_pos n, h⟩
      · exact ⟨k + 1, by omega, by rw [h]; congr 1; omega⟩
    · rintro ⟨k, hk, h⟩
      cases k with
      | zero => exact Or.inl h
      | succ k => exact Or.inr ⟨k, by omega, by rw [h]; congr 1; omega⟩

theorem spawnedPids_nodup (os : OS) :
    ∀ (n start : Nat),
      (∀ i j, i < n → j < n → forkPid os (start + i) = forkPid os (start + j) → i = j) →
      (spawnedPids os start n).Nodup := by
  intro n
  induction n with
  | zero => intro start _; simp [spawnedPids]
  | succ n ih =>
    intro start hinj
    rw [spawnedPids, List.nodup_cons]
    constructor
    · intro hm
      obtain ⟨k, hk, he⟩ := (mem_spawnedPids os n (start + 1) _).1 hm
      have := hinj 0 (k + 1) (Nat.succ_pos n) (by omega)
        (by rw [Nat.add_zero, he]; congr 1; omega)
      omega
    · apply ih
      intro i j hi hj he
      have := hinj (i + 1) (j + 1) (by omega) (by omega)
        (by
          rw [show start + (i + 1) = start + 1 + i by omega,
            show start + (j + 1) = start + 1 + j by omega]
          exact he)
      omega

/-- When the children forked last have distinct ids, the id of one of them
names it. -/
theorem childOf_unique (w : World) (old created : List Child) (c : Child)
    (hw : w.children = old ++ created) (hnd : (created.map Child.pid).Nodup)
    (hc : c ∈ created) : childOf w c.pid = some c := by
  obtain ⟨c2, hc2, hof⟩ := childOf_created w old created c.pid hw (List.mem_map.2 ⟨c, hc, rfl⟩)
  have hpid : c2.pid = c.pid := by
    have := List.find?_some hof
    simpa using this
  rw [hof, List.inj_on_of_nodup_map hnd hc2 hc hpid]

theorem externalCommands_cons (c : Command) (rest : List Command) :
    externalCommands (c :: rest) = externalCommands [c] ++ externalCommands rest := by
  unfold externalCommands
  rw [← List.filter_append]
  rfl

/-- The children of `create_pipeline` are those of its second loop. -/
theorem create_pipeline_children (os : OS) (p : Pipeline) (w w1 : World) (fds : List Int)
    (hmk : makePipes os (p.commands.length - 1) w [] = (w1, some fds)) :
    (create_pipeline os p w).1.children =
      (spawnLoop os p.commands.length fds 0 p.commands w1 []).1.children := by
  have hcp : create_pipeline os p w =
      waitLoop os (spawnLoop os p.commands.length fds 0 p.commands w1 []).2
        (fds.foldl sys_close (spawnLoop os p.commands.length fds 0 p.commands w1 []).1) 0 := by
    simp only [create_pipeline, hmk]
  rw [hcp, (waitLoop_frame os _ _ _).1, (foldl_sys_close_frame fds _).2.1]

/-- A pipeline of two or more commands in which an external command after
the first is found by `execvp` and reads its standard input to the end never
returns, when the pipes are created, the forks succeed with distinct process
ids, and the shell starts with descriptors 0 and 1 open: the child of that
command holds the write end of the pipe it reads. -/
theorem create_pipeline_blocks (os : OS) (p : Pipeline) (w : World)
    (hN : 2 ≤ p.commands.length)
    (hpipe : ∀ k, k < p.commands.length - 1 → os.pipe_ok (w.n_pipe + k) = true)
    (hfork : ∀ i, i < (externalCommands p.commands).length →
      (os.fork (w.n_fork + i)).isSome = true)
    (hpid : ∀ i j, i < (externalCommands p.commands).length →
      j < (externalCommands p.commands).length →
      forkPid os (w.n_fork + i) = forkPid os (w.n_fork + j) → i = j)
    (hu : (w.fds.map Prod.fst).Nodup) (h0 : isOpen w.fds 0 = true)
    (h1 : isOpen w.fds 1 = true)
    (hreader : ∃ c ∈ p.commands.tail, BuiltinCommands.is_builtin c.program = false ∧
      os.exec_ok c.program = true ∧ os.reads_stdin c.program c.arguments = true) :
    (create_pipeline os p w).2 = none := by
  obtain ⟨⟨created, k1, k2, _⟩, _, _, _, k7⟩ := create_pipeline_spec os p w hpipe hfork
  obtain ⟨c, hctail, hcb, hcx, hcr⟩ := hreader
  cases hcm : p.commands with
  | nil => rw [hcm] at hN; simp at hN
  | cons c0 rest =>
    rw [hcm, List.tail_cons] at hctail
    have hsplit := externalCommands_cons c0 rest
    have hlenE : (externalCommands p.commands).length =
        (externalCommands [c0]).length + (externalCommands rest).length := by
      rw [hcm, hsplit, List.length_append]
    obtain ⟨w1, pairs, hmk, hold, hplen⟩ := makePipes_holds os w.n_pipe (p.commands.length - 1)
      w [] ⟨hu, h0, h1, fun j r wr h => by simp at h⟩ (by simp) hpipe
    have hflat : flatPairs [] = ([] : List Int) := rfl
    rw [hflat] at hmk
    obtain ⟨w1', fds', hmk', m1, m2, _⟩ := makePipes_ok os (p.commands.length - 1) w [] hpipe
    rw [hmk] at hmk'
    have hw1 : w1 = w1' := congrArg Prod.fst hmk'
    subst hw1
    have hch := create_pipeline_children os p w w1 (flatPairs pairs) hmk
    rw [hcm] at hch
    obtain ⟨w2, pids2, hstep, hold2, hn2, first, hfirst⟩ :=
      spawnLoop_step os (c0 :: rest).length (flatPairs pairs) pairs w.n_pipe 0 c0 rest w1 []
        hold (by
          intro k hk
          rw [m1]
          exact hfork k (by rw [hlenE]; omega))
    rw [hstep] at hch
    have hforks : ∀ k, k < (externalCommands rest).length →
        (os.fork (w2.n_fork + k)).isSome = true := by
      intro k hk
      rw [hn2, m1, Nat.add_assoc]
      exact hfork _ (by rw [hlenE]; omega)
    obtain ⟨readers, r1, r2⟩ := spawnLoop_readers_starved os (c0 :: rest).length pairs w.n_pipe
      rest 1 w2 pids2 (Nat.le_refl 1) (by rw [List.length_cons]; omega)
      (by rw [hplen, hcm]; simp) hold2 hforks
    obtain ⟨readers', t1, _, t3, _⟩ := spawnLoop_spec os (c0 :: rest).length (flatPairs pairs)
      rest 1 w2 pids2 hforks
    have hsame : readers' = readers := List.append_cancel_left (t1.symm.trans r1)
    subst hsame
    have hcext : c ∈ externalCommands rest := by
      unfold externalCommands
      rw [List.mem_filter]
      exact ⟨hctail, by rw [hcb]; rfl⟩
    have hmem : (c.program, c.arguments) ∈
        readers'.map (fun c => (c.program, c.arguments)) := by
      rw [t3]
      exact List.mem_map.2 ⟨c, hcext, rfl⟩
    obtain ⟨c1, hc1, he⟩ := List.mem_map.1 hmem
    have hp1 : c1.program = c.program := congrArg Prod.fst he
    have hp2 : c1.arguments = c.arguments := congrArg Prod.snd he
    have hall : created = first ++ readers' := by
      have hcat : w.children ++ created = w.children ++ (first ++ readers') := by
        rw [← k1, hch, r1, hfirst, m2, List.append_assoc]
      exact List.append_cancel_left hcat
    have hc1' : c1 ∈ created := by
      rw [hall]
      exact List.mem_append_right _ hc1
    have hnd : (created.map Child.pid).Nodup := by
      rw [k2]
      exact spawnedPids_nodup os _ _ hpid
    have hof := childOf_unique (create_pipeline os p w).1 w.children created c1 k1 hnd hc1'
    apply k7
    refine ⟨c1.pid, ?_, ?_⟩
    · rw [← k2]
      exact List.mem_map.2 ⟨c1, hc1', rfl⟩
    · unfold sys_waitpid
      rw [hof]
      obtain ⟨x1, x2⟩ := r2 c1 hc1
      simp [Child.ownExit, x1, x2, hp1, hp2, hcx, hcr]

end CommandExecutor

/-! ## Theorems -/

open CommandParser

/-- C1, evaluated on the code: for all plain non-empty words `P` and `F`,
`parse` of `P >> F` is a single command with program `P` whose `output_file` is
the token `>`, with `append_output = false` and `F` left among the arguments:
`tokenize` emits the two adjacent `>` as two one-character tokens, never as
`>>`. -/
theorem parse_append_redirect_two_tokens (env : Env) (P F : Str) (hP : P ≠ []) (hF : F ≠ [])
    (hPp : ∀ c ∈ P, plainChar c = true) (hFp : ∀ c ∈ F, plainChar c = true) :
    parse env (P ++ " >> ".toList ++ F) =
      { commands := [{ program := P, arguments := [F], output_file := some ['>'],
                       append_output := false }] } := by
  have htok := tokenize_append_line env P F hP hF hPp hFp
  obtain ⟨a, P', rfl⟩ := List.exists_cons_of_ne_nil hP
  obtain ⟨F', b, rfl⟩ : ∃ F' b, F = F' ++ [b] := by
    rcases List.eq_nil_or_concat F with h | ⟨F', b, h⟩
    · exact absurd h hF
    · exact ⟨F', b, by simpa using h⟩
  have ha : isspace a = false := plainChar_not_space (hPp a (List.mem_cons_self _ _))
  have hb : isspace b = false := plainChar_not_space (hFp b (by simp))
  have hline : a :: P' ++ " >> ".toList ++ (F' ++ [b]) = a :: ((P' ++ " >> ".toList ++ F') ++ [b]) := by
    simp
  have htrim : trim (a :: P' ++ " >> ".toList ++ (F' ++ [b])) =
      a :: P' ++ " >> ".toList ++ (F' ++ [b]) := by
    rw [hline]; exact trim_eq_self a b _ ha hb
  have hpipe : '|' ∉ a :: P' ++ " >> ".toList ++ (F' ++ [b]) := by
    have h1 := plain_no_pipe hPp
    have h2 := plain_no_pipe hFp
    intro h
    rcases List.mem_append.1 h with h | h
    · rcases List.mem_append.1 h with h | h
      · exact h1 h
      · revert h; decide
    · exact h2 h
  rw [parse_single env _ _ (by simp) htrim hpipe htok (by simp)]
  have n1 : F' ++ [b] ≠ ">".toList := plain_ne_of_mem hFp _ '>' (by decide) (by decide)
  have n2 : F' ++ [b] ≠ ">>".toList := plain_ne_of_mem hFp _ '>' (by decide) (by decide)
  have n3 : F' ++ [b] ≠ "<".toList := plain_ne_of_mem hFp _ '<' (by decide) (by decide)
  have n4 : F' ++ [b] ≠ "&".toList := plain_ne_of_mem hFp _ '&' (by decide) (by decide)
  have hcmd : parse_command [a :: P', ['>'], ['>'], F' ++ [b]] 0 4 =
      parseArgs { program := a :: P' } [['>'], ['>'], F' ++ [b]] := rfl
  have hlen : [a :: P', ['>'], ['>'], F' ++ [b]].length = 4 := rfl
  rw [hlen, hcmd, parseArgs_gt, parseArgs_word _ _ _ n1 n2 n3 n4, parseArgs.eq_def]
  rfl

/-- C1 at `ls >> out`. -/
theorem parse_append_redirect_two_tokens_witness :
    parse emptyEnv ("ls".toList ++ " >> ".toList ++ "out".toList) =
      { commands := [{ program := "ls".toList, arguments := ["out".toList],
                       output_file := some ['>'], append_output := false }] } :=
  parse_append_redirect_two_tokens emptyEnv "ls".toList "out".toList (by decide) (by decide)
    (by decide) (by decide)

/-- C3, as amended: the text between a pair of quotes, operator characters
included, is appended verbatim to the word the tokenizer is building and no
token is emitted for it; and for a plain program word `P` followed by a quoted
non-empty text `w` without `|`, `parse` yields one command with program `P`
whose single argument is the expansion of `w`, provided that word is not
exactly `>`, `>>`, `<` or `&`. -/
theorem quoted_operator_chars_literal (env : Env) (q : Char) (hq : q = dquote ∨ q = squote)
    (w : Str) (hw : q ∉ w) :
    (∀ pre post : Str, (pre.foldl (tokStep env) {}).in_quotes = false →
      tokenize env (pre ++ q :: (w ++ q :: post)) =
        tokFinish env (post.foldl (tokStep env)
          { tokens := (pre.foldl (tokStep env) {}).tokens,
            current_token := (pre.foldl (tokStep env) {}).current_token ++ w,
            in_quotes := false, quote_char := Char.ofNat 0 })) ∧
    (∀ P : Str, P ≠ [] → (∀ c ∈ P, plainChar c = true) → w ≠ [] → '|' ∉ w →
      expand_variables env w ≠ ">".toList → expand_variables env w ≠ ">>".toList →
      expand_variables env w ≠ "<".toList → expand_variables env w ≠ "&".toList →
      parse env (P ++ ' ' :: q :: (w ++ [q])) =
        { commands := [{ program := P, arguments := [expand_variables env w] }] }) := by
  constructor
  · intro pre post hpre
    rw [tokenize, List.foldl_append, foldl_tokStep_quoted_span env q hq w post hw _ hpre]
  · intro P hP hPp hne hpipe n1 n2 n3 n4
    have htok : tokenize env (P ++ ' ' :: q :: (w ++ [q])) = [P, expand_variables env w] := by
      rw [tokenize, List.foldl_append, foldl_tokStep_plain env P hPp _ rfl,
        List.foldl_cons, tokStep_space_flush env _ rfl (by simpa using hP),
        foldl_tokStep_quoted_span env q hq w [] hw _ rfl]
      simp [tokFinish, hne, expand_variables_eq_self env _ (plain_no_dollar hPp)]
    obtain ⟨a, P', rfl⟩ := List.exists_cons_of_ne_nil hP
    have ha : isspace a = false := plainChar_not_space (hPp a (List.mem_cons_self _ _))
    have hline : a :: P' ++ ' ' :: q :: (w ++ [q]) = a :: ((P' ++ ' ' :: q :: w) ++ [q]) := by
      simp
    have htrim : trim (a :: P' ++ ' ' :: q :: (w ++ [q])) = a :: P' ++ ' ' :: q :: (w ++ [q]) := by
      rw [hline]; exact trim_eq_self a q _ ha (quote_not_space q hq)
    have hnp : '|' ∉ a :: P' ++ ' ' :: q :: (w ++ [q]) := by
      have h1 := plain_no_pipe hPp
      have h2 := quote_ne_pipe q hq
      intro h
      rcases List.mem_append.1 h with h | h
      · exact h1 h
      · simp only [List.mem_cons, List.mem_append, List.mem_singleton, List.not_mem_nil,
          or_false] at h
        rcases h with h | h | h | h
        · revert h; decide
        · exact h2 h
        · exact hpipe h
        · exact h2 h
    rw [parse_single env _ _ (by simp) htrim hnp htok (by simp)]
    have hcmd : parse_command [a :: P', expand_variables env w] 0 2 =
        parseArgs { program := a :: P' } [expand_variables env w] := rfl
    have hlen : [a :: P', expand_variables env w].length = 2 := rfl
    rw [hlen, hcmd, parseArgs_word _ _ _ n1 n2 n3 n4, parseArgs.eq_def]
    rfl

/-- C3 at `echo "a>b"` after the prefix `x `: the quoted `>` stays in the
word, and the parse is the single command `echo` with the argument `a>b`. -/
theorem quoted_operator_chars_literal_witness :
    tokenize emptyEnv ("x ".toList ++ dquote :: ("a>b".toList ++ dquote :: "c".toList)) =
        ["x".toList, "a>bc".toList] ∧
      parse emptyEnv ("echo".toList ++ ' ' :: dquote :: ("a>b".toList ++ [dquote])) =
        { commands := [{ program := "echo".toList, arguments := ["a>b".toList] }] } := by
  have h := quoted_operator_chars_literal emptyEnv dquote (Or.inl rfl) "a>b".toList (by decide)
  refine ⟨?_, ?_⟩
  · rw [h.1 "x ".toList "c".toList (by decide)]
    decide
  · have h2 := h.2 "echo".toList (by decide) (by decide) (by decide) (by decide) (by decide)
      (by decide) (by decide) (by decide)
    rw [h2]
    decide

/-- C3 fails as stated: `|` splits the line before tokenizing, so
`echo "a|b"` is the two commands `echo a` and `b`; and a quoted `>` is the
operator, so `echo ">" x` has no argument and `output_file = x`. -/
theorem quoted_operator_counterexample :
    parse emptyEnv ("echo ".toList ++ dquote :: ("a|b".toList ++ [dquote])) =
        { commands := [{ program := "echo".toList, arguments := ["a".toList] },
                       { program := "b".toList }] } ∧
      parse emptyEnv ("echo ".toList ++ dquote :: ("a|b".toList ++ [dquote])) ≠
        { commands := [{ program := "echo".toList, arguments := ["a|b".toList] }] } ∧
      parse emptyEnv ("echo ".toList ++ dquote :: ('>' :: dquote :: " x".toList)) =
        { commands := [{ program := "echo".toList, output_file := some "x".toList }] } ∧
      parse emptyEnv ("sleep 1 ".toList ++ [squote, '&', squote]) =
        { commands := [{ program := "sleep".toList, arguments := ["1".toList] }],
          run_in_background := true } := by
  decide

/-- C4, as amended: for every environment and every non-empty text `w`
written between single quotes, the token produced by `tokenize` is the variable
expansion of `w`, as for any other word; it is `w` verbatim when `w` contains no
`$`. -/
theorem single_quoted_token (env : Env) (w : Str) (hne : w ≠ []) (hq : squote ∉ w) :
    tokenize env (squote :: (w ++ [squote])) = [expand_variables env w] ∧
      ('$' ∉ w → tokenize env (squote :: (w ++ [squote])) = [w]) := by
  have h : tokenize env (squote :: (w ++ [squote])) = [expand_variables env w] := by
    rw [tokenize, foldl_tokStep_quoted_span env squote (Or.inr rfl) w [] hq _ rfl]
    simp [tokFinish, hne]
  exact ⟨h, fun hd => by rw [h, expand_variables_eq_self env w hd]⟩

/-- C4 at the single-quoted text `a b $HOME` with `HOME=/root`. -/
theorem single_quoted_token_witness :
    tokenize homeEnv (squote :: ("a b $HOME".toList ++ [squote])) = ["a b /root".toList] := by
  rw [(single_quoted_token homeEnv "a b $HOME".toList (by decide) (by decide)).1]
  decide

/-- C4 fails as stated: with `HOME=/root`, the single-quoted `$HOME` is
tokenized to `/root`, not to the quoted text. -/
theorem single_quoted_counterexample :
    tokenize homeEnv (squote :: ("$HOME".toList ++ [squote])) = ["/root".toList] ∧
      tokenize homeEnv (squote :: ("$HOME".toList ++ [squote])) ≠ ["$HOME".toList] := by
  decide


open CommandExecutor BuiltinCommands

/-- C7, evaluated on the code: in `ls | wc` the child of `wc` has the read
end of the pipe as its standard input and still holds the write end of that
pipe, so it never sees the end of its input; the shell waits for `ls`, then for
`wc`, and `execute_pipeline` never returns a status. `ls | sort | wc` stays
blocked on `sort`. In general, for a pipeline of `N ≥ 2` external commands whose
pipes are created and whose forks succeed, one child is forked per command, in
order, and `execute_pipeline` returns exactly when the wait for each of these
children returns; the children are then waited for in creation order and the
status is that of the last command's child, as `wait_for_process` encodes it.
But when the shell has descriptors 0 and 1 open (each descriptor once in its
table), the children get distinct process ids, and a command after the first is
found by `execvp` and reads its standard input to the end, `execute_pipeline`
never returns. -/
theorem pipeline_blocks_on_stdin_reader :
    (execute_pipeline okOS noHandlers (parse emptyEnv "ls | wc".toList) {}).2 = none ∧
      (execute_pipeline okOS noHandlers (parse emptyEnv "ls | wc".toList) {}).1.waited =
        [101, 102] ∧
      (execute_pipeline okOS noHandlers (parse emptyEnv "ls | wc".toList) {}).1.children.map
          (fun c => (c.program, c.starved)) =
        [("ls".toList, false), ("wc".toList, true)] ∧
      (execute_pipeline okOS noHandlers (parse emptyEnv "ls | sort | wc".toList) {}).2 = none ∧
      (execute_pipeline okOS noHandlers (parse emptyEnv "ls | sort | wc".toList) {}).1.waited =
        [101, 102] ∧
      (∀ (os : OS) (h : Handlers) (p : Pipeline) (w : World),
        2 ≤ p.commands.length →
        (∀ c ∈ p.commands, is_builtin c.program = false) →
        (∀ k, k < p.commands.length - 1 → os.pipe_ok (w.n_pipe + k) = true) →
        (∀ i, i < p.commands.length → (os.fork (w.n_fork + i)).isSome = true) →
        (execute_pipeline os h p w).1.children.map Child.pid =
            w.children.map Child.pid ++ spawnedPids os w.n_fork p.commands.length ∧
          (execute_pipeline os h p w).1.children.map Child.program =
            w.children.map Child.program ++ p.commands.map Command.program ∧
          (execute_pipeline os h p w).1.background_processes = w.background_processes ∧
          ((execute_pipeline os h p w).2 = none ↔
            ∃ pid ∈ spawnedPids os w.n_fork p.commands.length,
              sys_waitpid os (execute_pipeline os h p w).1 pid = none) ∧
          ((execute_pipeline os h p w).2 ≠ none →
            (execute_pipeline os h p w).2 =
                (wait_for_process os (execute_pipeline os h p w).1
                  (forkPid os (w.n_fork + (p.commands.length - 1)))).2 ∧
              (execute_pipeline os h p w).1.waited =
                w.waited ++ spawnedPids os w.n_fork p.commands.length) ∧
          ((∀ i j, i < p.commands.length → j < p.commands.length →
              forkPid os (w.n_fork + i) = forkPid os (w.n_fork + j) → i = j) →
            (w.fds.map Prod.fst).Nodup → isOpen w.fds 0 = true → isOpen w.fds 1 = true →
            (∃ c ∈ p.commands.tail, os.exec_ok c.program = true ∧
              os.reads_stdin c.program c.arguments = true) →
            (execute_pipeline os h p w).2 = none)) := by
  refine ⟨by decide, by decide, by decide, by decide, by decide, ?_⟩
  intro os h p w hN hext hpipe hfork
  have hall : externalCommands p.commands = p.commands := by
    unfold externalCommands
    rw [List.filter_eq_self]
    intro c hc
    rw [hext c hc]
    rfl
  obtain ⟨⟨created, k1, k2, k3⟩, _, k5, k6, k7⟩ := create_pipeline_spec os p w hpipe
    (by rw [hall]; exact hfork)
  rw [hall] at k2 k3 k6 k7
  rw [execute_pipeline_eq_create os h p w hN]
  have hiff : (create_pipeline os p w).2 = none ↔
      ∃ pid ∈ spawnedPids os w.n_fork p.commands.length,
        sys_waitpid os (create_pipeline os p w).1 pid = none := by
    constructor
    · intro hnone
      by_contra hno
      exact (k6 (fun pid hpid hb => hno ⟨pid, hpid, hb⟩)).2.2 hnone
    · exact k7
  refine ⟨by rw [k1, List.map_append, k2], ?_, k5, hiff, ?_, ?_⟩
  · rw [k1, List.map_append]
    congr 1
    have := congrArg (List.map Prod.fst) k3
    simpa [List.map_map, Function.comp_def] using this
  rotate_left
  · intro hpid hu h0 h1 hreader
    obtain ⟨c, hc, hcx, hcr⟩ := hreader
    exact create_pipeline_blocks os p w hN hpipe (by rw [hall]; exact hfork)
      (by rw [hall]; exact hpid) hu h0 h1
      ⟨c, hc, hext c (List.mem_of_mem_tail hc), hcx, hcr⟩
  · intro hsome
    have hret : ∀ pid ∈ spawnedPids os w.n_fork p.commands.length,
        sys_waitpid os (create_pipeline os p w).1 pid ≠ none :=
      fun pid hpid hb => hsome (hiff.2 ⟨pid, hpid, hb⟩)
    obtain ⟨r1, r2, _⟩ := k6 hret
    refine ⟨?_, r1⟩
    rw [r2]
    obtain ⟨n, hn⟩ : ∃ n, p.commands.length = n + 1 := ⟨p.commands.length - 1, by omega⟩
    rw [hn]
    simp only [Nat.add_sub_cancel]

/-- C7 (general part) at `ls | date | uname`, three programs that do not read
their standard input, on an operating system where the children get the ids
101, 102, 103 and exit with 1, 2, 3: the pipeline returns 3. -/
theorem pipeline_blocks_on_stdin_reader_witness :
    (execute_pipeline okOS noHandlers (parse emptyEnv "ls | date | uname".toList) {}).2 =
        some 3 ∧
      (execute_pipeline okOS noHandlers
        (parse emptyEnv "ls | date | uname".toList) {}).1.waited = [101, 102, 103] ∧
      (execute_pipeline okOS noHandlers (parse emptyEnv "ls | sort -r | uname".toList) {}).2 =
        none := by
  have key := pipeline_blocks_on_stdin_reader.2.2.2.2.2 okOS noHandlers
    (parse emptyEnv "ls | date | uname".toList) {}
    (by decide) (by decide) (by intro k _; rfl) (by intro i _; rfl)
  have hsome : (execute_pipeline okOS noHandlers
      (parse emptyEnv "ls | date | uname".toList) {}).2 ≠ none := by decide
  have key2 := pipeline_blocks_on_stdin_reader.2.2.2.2.2 okOS noHandlers
    (parse emptyEnv "ls | sort -r | uname".toList) {}
    (by decide) (by decide) (by intro k _; rfl) (by intro i _; rfl)
  refine ⟨(key.2.2.2.2.1 hsome).1.trans (by decide), (key.2.2.2.2.1 hsome).2.trans (by decide),
    key2.2.2.2.2.2 ?_ (by decide) (by decide) (by decide) (by decide)⟩
  intro i j _ _ hij
  have h1 : forkPid okOS (({} : World).n_fork + i) = ((100 + i : Nat) : Int) + 1 := by
    simp [forkPid, okOS]
  have h2 : forkPid okOS (({} : World).n_fork + j) = ((100 + j : Nat) : Int) + 1 := by
    simp [forkPid, okOS]
  rw [h1, h2] at hij
  omega

/-- C2, evaluated on the code: `execute_pipeline` never reads the pipeline's
background flag, and `parse` has cleared the flag on the command. For
`sleep 1 &` (one child, id 101, exit status 1) the shell waits for the child
and returns its status 1, and `background_processes_` stays empty; likewise for
`ls | wc &` the shell waits for `ls` and then for `wc` (a wait that never
returns, `wc` holding the write end of the pipe it reads), and for `ls | date &`
it waits for both children and returns the status 2 of `date`; nothing is put
on `background_processes_`. The branch of `execute_command` for a command whose
own flag is set, which `parse` never produces, does not wait: it puts the child
on the list, writes `[1] 101` and returns 0. -/
theorem background_pipeline_is_waited_for :
    (∀ (os : OS) (h : Handlers) (p : Pipeline) (w : World) (b : Bool),
        execute_pipeline os h { p with run_in_background := b } w =
          execute_pipeline os h p w) ∧
      parse emptyEnv "sleep 1 &".toList =
        { commands := [{ program := "sleep".toList, arguments := ["1".toList] }],
          run_in_background := true } ∧
      (execute_pipeline okOS noHandlers (parse emptyEnv "sleep 1 &".toList) {}).2 = some 1 ∧
      (execute_pipeline okOS noHandlers (parse emptyEnv "sleep 1 &".toList) {}).1.waited =
        [101] ∧
      (execute_pipeline okOS noHandlers
        (parse emptyEnv "sleep 1 &".toList) {}).1.background_processes = [] ∧
      (parse emptyEnv "ls | wc &".toList).run_in_background = true ∧
      (execute_pipeline okOS noHandlers (parse emptyEnv "ls | wc &".toList) {}).2 = none ∧
      (execute_pipeline okOS noHandlers (parse emptyEnv "ls | wc &".toList) {}).1.waited =
        [101, 102] ∧
      (execute_pipeline okOS noHandlers
        (parse emptyEnv "ls | wc &".toList) {}).1.background_processes = [] ∧
      (execute_pipeline okOS noHandlers (parse emptyEnv "ls | date &".toList) {}).2 = some 2 ∧
      (execute_pipeline okOS noHandlers (parse emptyEnv "ls | date &".toList) {}).1.waited =
        [101, 102] ∧
      (execute_pipeline okOS noHandlers
        (parse emptyEnv "ls | date &".toList) {}).1.background_processes = [] ∧
      execute_command okOS noHandlers
          { program := "sleep".toList, arguments := ["1".toList], run_in_background := true }
          {} =
        ({ children := [{ pid := 101, program := "sleep".toList, arguments := ["1".toList],
                          fds := [(0, .tty), (1, .tty), (2, .tty)], exec_reached := true }],
           background_processes := [101], out := "[1] 101\n".toList, n_fork := 1 },
          some 0) := by
  refine ⟨fun _ _ _ _ _ => rfl, ?_⟩
  decide

/-- C5, evaluated on the code: when the assistant answers `ls | rm -rf /`,
the validator rejects the candidate, `process_natural_command` returns the
notice `Unsafe command detected: ...`, which starts with neither `Error:` nor
`AI Response:`; after the reply `y`, `cmd_ai` passes that notice to
`Shell::execute_command`. The deny-list check rejects the notice as well, and
its parse has `rm -rf / ...` as second command. -/
theorem ai_executes_rejected_notice :
    AIAssistant.extract_command_from_response "ls | rm -rf /".toList = "ls | rm -rf /".toList ∧
      AIAssistant.is_command_safe "ls | rm -rf /".toList = false ∧
      cmd_ai ["delete".toList, "everything".toList] true true (.ok "ls | rm -rf /".toList)
          "y".toList =
        .run ("Unsafe command detected: ls | rm -rf /".toList ++ '\n' ::
          "For safety, this command was not executed.".toList) ∧
      AIAssistant.is_command_safe ("Unsafe command detected: ls | rm -rf /".toList ++ '\n' ::
          "For safety, this command was not executed.".toList) = false ∧
      ((parse emptyEnv ("Unsafe command detected: ls | rm -rf /".toList ++ '\n' ::
          "For safety, this command was not executed.".toList)).commands.map
            (fun c => (c.program, c.arguments.take 2))) =
        [("Unsafe".toList, ["command".toList, "detected:".toList]),
         ("rm".toList, ["-rf".toList, "/".toList])] := by
  decide!

/-- C6, evaluated on the code: `echo hi > /tmp/x` parses to the command
`echo` with argument `hi` and `output_file = /tmp/x`; executing it, whatever
the operating system does, opens no file, forks no child, and appends `hi\n` to
the shell's own standard output. The external `ls > /tmp/x` does open the file
and its child has it as descriptor 1. -/
theorem builtin_echo_ignores_redirection :
    parse emptyEnv "echo hi > /tmp/x".toList =
        { commands := [{ program := "echo".toList, arguments := ["hi".toList],
                         output_file := some "/tmp/x".toList }] } ∧
      (∀ (os : OS) (h : Handlers) (w : World),
        execute_pipeline os h (parse emptyEnv "echo hi > /tmp/x".toList) w =
          ({ w with out := w.out ++ "hi".toList ++ ['\n'] }, some 0)) ∧
      (execute_pipeline okOS noHandlers (parse emptyEnv "ls > /tmp/x".toList) {}).1.opened =
        [("/tmp/x".toList, OpenMode.wrTrunc)] ∧
      (execute_pipeline okOS noHandlers (parse emptyEnv "ls > /tmp/x".toList) {}).1.children.map
          Child.fds =
        [[(1, .file "/tmp/x".toList .wrTrunc), (0, .tty), (2, .tty)]] := by
  have hp : parse emptyEnv "echo hi > /tmp/x".toList =
      { commands := [{ program := "echo".toList, arguments := ["hi".toList],
                       output_file := some "/tmp/x".toList }] } := by decide
  refine ⟨hp, fun os h w => ?_, by decide, by decide⟩
  rw [hp]
  rfl

/-- C8, evaluated on the code: when every `open` fails, the single command
`cat < /nonexistent` returns 1 with no child forked, but the pipeline
`cat < /nonexistent | wc` forks both children (ids 101, 102) and waits for them
(the wait for `wc`, which holds the write end of the pipe it reads, never
returns), and `cat < /nonexistent | ls` forks both children and returns the
status 2 of `ls`; the same for a failing output file in `ls | wc > /no/out` and
`ls | date > /no/out`. -/
theorem pipeline_ignores_failed_open :
    (execute_pipeline noFileOS noHandlers (parse emptyEnv "cat < /nonexistent".toList) {}).2 =
        some 1 ∧
      (execute_pipeline noFileOS noHandlers
        (parse emptyEnv "cat < /nonexistent".toList) {}).1.children = [] ∧
      (execute_pipeline noFileOS noHandlers
        (parse emptyEnv "cat < /nonexistent | wc".toList) {}).2 = none ∧
      (execute_pipeline noFileOS noHandlers
        (parse emptyEnv "cat < /nonexistent | wc".toList) {}).1.opened =
          [("/nonexistent".toList, OpenMode.rdonly)] ∧
      (execute_pipeline noFileOS noHandlers
        (parse emptyEnv "cat < /nonexistent | wc".toList) {}).1.children.map
          (fun c => (c.pid, c.program, c.exec_reached)) =
          [(101, "cat".toList, true), (102, "wc".toList, true)] ∧
      (execute_pipeline noFileOS noHandlers
        (parse emptyEnv "ls | wc > /no/out".toList) {}).2 = none ∧
      (execute_pipeline noFileOS noHandlers
        (parse emptyEnv "ls | wc > /no/out".toList) {}).1.children.map Child.pid =
          [101, 102] ∧
      (execute_pipeline noFileOS noHandlers
        (parse emptyEnv "cat < /nonexistent | ls".toList) {}).2 = some 2 ∧
      (execute_pipeline noFileOS noHandlers
        (parse emptyEnv "cat < /nonexistent | ls".toList) {}).1.children.map
          (fun c => (c.pid, c.program, c.exec_reached)) =
          [(101, "cat".toList, true), (102, "ls".toList, true)] ∧
      (execute_pipeline noFileOS noHandlers
        (parse emptyEnv "ls | date > /no/out".toList) {}).2 = some 2 ∧
      (execute_pipeline noFileOS noHandlers
        (parse emptyEnv "ls | date > /no/out".toList) {}).1.children.map Child.pid =
          [101, 102] := by
  decide

/-- C9, evaluated on the code: with every system call succeeding,
`cat < in.txt | wc` leaves descriptor 5 (the file `in.txt`) open in the shell,
which was not open before, and so does `cat < in.txt | ls`, which returns the
status 2 of `ls`; the single command `cat < in.txt` leaves the table as it was.
When the second `pipe` of `a | b | c` fails, the pipeline returns 1 with both
ends of the first pipe (3 and 4) still open. -/
theorem pipeline_leaks_descriptors :
    ({} : World).fds = [(0, .tty), (1, .tty), (2, .tty)] ∧
      (execute_pipeline okOS noHandlers (parse emptyEnv "cat < in.txt | wc".toList) {}).1.fds =
        [(0, .tty), (1, .tty), (2, .tty), (5, .file "in.txt".toList .rdonly)] ∧
      (execute_pipeline okOS noHandlers (parse emptyEnv "cat < in.txt".toList) {}).1.fds =
        [(0, .tty), (1, .tty), (2, .tty)] ∧
      (execute_pipeline onePipeOS noHandlers (parse emptyEnv "a | b | c".toList) {}).2 =
        some 1 ∧
      (execute_pipeline onePipeOS noHandlers (parse emptyEnv "a | b | c".toList) {}).1.fds =
        [(0, .tty), (1, .tty), (2, .tty), (3, .pipeRead 0), (4, .pipeWrite 0)] ∧
      (execute_pipeline okOS noHandlers (parse emptyEnv "cat < in.txt | ls".toList) {}).2 =
        some 2 ∧
      (execute_pipeline okOS noHandlers (parse emptyEnv "cat < in.txt | ls".toList) {}).1.fds =
        [(0, .tty), (1, .tty), (2, .tty), (5, .file "in.txt".toList .rdonly)] := by
  decide

/-- C10, evaluated on the code: in `ls | wc` the shell holds the pipe as
descriptors 3 (read end) and 4 (write end); the child of `wc` reaches `execvp`
with the read end on its standard input and descriptor 4, the write end of
that same pipe, still open, and the child of `ls` keeps the read end 3. -/
theorem pipeline_child_keeps_pipe_ends :
    (execute_pipeline okOS noHandlers (parse emptyEnv "ls | wc".toList) {}).1.children =
      [{ pid := 101, program := "ls".toList, arguments := [],
         fds := [(1, .pipeWrite 0), (0, .tty), (2, .tty), (3, .pipeRead 0)],
         exec_reached := true },
       { pid := 102, program := "wc".toList, arguments := [],
         fds := [(0, .pipeRead 0), (1, .tty), (2, .tty), (4, .pipeWrite 0)],
         exec_reached := true }] := by
  decide

/-! ## The deny-list checks -/

/-- `contains s pat` holds exactly when `pat` is a contiguous part of `s`. -/
theorem contains_iff_part (s pat : Str) : AIAssistant.contains s pat = true ↔ pat <:+: s := by
  simp only [AIAssistant.contains, List.any_eq_true, List.mem_tails, List.isPrefixOf_iff_prefix]
  constructor
  · rintro ⟨t, ht, hp⟩
    exact List.infix_iff_prefix_suffix.2 ⟨t, hp, ht⟩
  · intro h
    obtain ⟨t, hp, ht⟩ := List.infix_iff_prefix_suffix.1 h
    exact ⟨t, ht, hp⟩

theorem contains_trans (s p d : Str) (h1 : AIAssistant.contains s p = true)
    (h2 : AIAssistant.contains p d = true) : AIAssistant.contains s d = true :=
  (contains_iff_part s d).2
    (((contains_iff_part p d).1 h2).trans ((contains_iff_part s p).1 h1))

theorem validator_unsafe_of_entry (command d : Str)
    (hd : d ∈ CommandValidator.dangerous_commands ++ CommandValidator.dangerous_patterns)
    (hc : AIAssistant.contains command d = true) : CommandValidator.is_safe command = false := by
  unfold CommandValidator.is_safe
  rcases List.mem_append.1 hd with h | h
  · have : CommandValidator.dangerous_commands.any
        (fun dangerous => AIAssistant.contains command dangerous) = true :=
      List.any_eq_true.2 ⟨d, h, hc⟩
    simp [this]
  · have : CommandValidator.dangerous_patterns.any
        (fun pattern => AIAssistant.contains command pattern) = true :=
      List.any_eq_true.2 ⟨d, h, hc⟩
    simp [this]

theorem assistant_unsafe_of_entry (command d : Str) (hd : d ∈ AIAssistant.dangerous_commands)
    (hc : AIAssistant.contains command d = true) : AIAssistant.is_command_safe command = false := by
  unfold AIAssistant.is_command_safe
  have : AIAssistant.dangerous_commands.any
      (fun dangerous => AIAssistant.contains command dangerous) = true :=
    List.any_eq_true.2 ⟨d, hd, hc⟩
  simp [this]

/-- Each literal phrase of the specification contains an entry of the
validator's lists and an entry of the assistant's list. -/
theorem specLiteralPhrases_covered :
    ∀ phrase ∈ specLiteralPhrases,
      (∃ d ∈ CommandValidator.dangerous_commands ++ CommandValidator.dangerous_patterns,
        AIAssistant.contains phrase d = true) ∧
      (∃ d ∈ AIAssistant.dangerous_commands, AIAssistant.contains phrase d = true) := by
  decide!

/-- C11: every command string that contains one of the literal phrases of
the specification's deny list is classified unsafe by `CommandValidator::is_safe`
and by `AIAssistant::is_command_safe`. -/
theorem literal_phrases_rejected (command phrase : Str) (hp : phrase ∈ specLiteralPhrases)
    (hc : AIAssistant.contains command phrase = true) :
    CommandValidator.is_safe command = false ∧ AIAssistant.is_command_safe command = false := by
  obtain ⟨⟨d1, hd1, h1⟩, ⟨d2, hd2, h2⟩⟩ := specLiteralPhrases_covered phrase hp
  exact ⟨validator_unsafe_of_entry command d1 hd1 (contains_trans command phrase d1 hc h1),
    assistant_unsafe_of_entry command d2 hd2 (contains_trans command phrase d2 hc h2)⟩

/-- C11 at `echo x; sudo rm -rf tmp`, which contains the phrase
`sudo rm -rf`. -/
theorem literal_phrases_rejected_witness :
    CommandValidator.is_safe "echo x; sudo rm -rf tmp".toList = false ∧
      AIAssistant.is_command_safe "echo x; sudo rm -rf tmp".toList = false :=
  literal_phrases_rejected "echo x; sudo rm -rf tmp".toList "sudo rm -rf".toList
    (by decide) (by decide!)

/-- C12, as amended: every command string that contains one of the
patterns `rm -rf`, `dd if=`, `mkfs.`, `chown -R` is classified unsafe by
`CommandValidator::is_safe`; `AIAssistant::is_command_safe` classifies it unsafe
when it contains `mkfs.`, or `rm -rf` together with `/*` or `/ `. -/
theorem patterns_rejected (command : Str) :
    (∀ pattern ∈ specPatterns, AIAssistant.contains command pattern = true →
      CommandValidator.is_safe command = false) ∧
    (AIAssistant.contains command "mkfs.".toList = true →
      AIAssistant.is_command_safe command = false) ∧
    (AIAssistant.contains command "rm -rf".toList = true →
      (AIAssistant.contains command "/*".toList = true ∨
        AIAssistant.contains command "/ ".toList = true) →
      AIAssistant.is_command_safe command = false) := by
  refine ⟨?_, ?_, ?_⟩
  · intro pattern hp hc
    have hall : ∀ q ∈ specPatterns, q ∈ CommandValidator.dangerous_commands ++
        CommandValidator.dangerous_patterns := by decide
    exact validator_unsafe_of_entry command pattern (hall pattern hp) hc
  · intro hc
    exact assistant_unsafe_of_entry command "mkfs".toList (by decide)
      (contains_trans command "mkfs.".toList "mkfs".toList hc (by decide))
  · intro h1 h2
    unfold AIAssistant.is_command_safe
    split
    · rfl
    · have h3 : (AIAssistant.contains command "/*".toList ||
          AIAssistant.contains command "/ ".toList) = true := by
        rw [Bool.or_eq_true]; exact h2
      rw [if_pos (by rw [h1, h3]; rfl)]

/-- C12 at `dd if=a of=b`, `mkfs.ext4 /dev/sdb1` and `rm -rf ./*`. -/
theorem patterns_rejected_witness :
    CommandValidator.is_safe "dd if=a of=b".toList = false ∧
      AIAssistant.is_command_safe "mkfs.ext4 /dev/sdb1".toList = false ∧
      AIAssistant.is_command_safe "rm -rf ./*".toList = false :=
  ⟨(patterns_rejected "dd if=a of=b".toList).1 "dd if=".toList (by decide) (by decide),
   (patterns_rejected "mkfs.ext4 /dev/sdb1".toList).2.1 (by decide!),
   (patterns_rejected "rm -rf ./*".toList).2.2 (by decide) (Or.inl (by decide))⟩

/-- C12 fails as stated for the check applied to AI-proposed commands:
`rm -rf build`, `dd if=a of=b` and `chown -R me dir` each contain a pattern
and are accepted by `AIAssistant::is_command_safe`. -/
theorem patterns_counterexample :
    AIAssistant.contains "rm -rf build".toList "rm -rf".toList = true ∧
      AIAssistant.is_command_safe "rm -rf build".toList = true ∧
      AIAssistant.contains "dd if=a of=b".toList "dd if=".toList = true ∧
      AIAssistant.is_command_safe "dd if=a of=b".toList = true ∧
      AIAssistant.contains "chown -R me dir".toList "chown -R".toList = true ∧
      AIAssistant.is_command_safe "chown -R me dir".toList = true := by
  decide!

/-- The validator classifies a command unsafe exactly when the command
contains an entry of one of its two lists. -/
theorem validator_unsafe_iff (command : Str) :
    CommandValidator.is_safe command = false ↔
      ∃ d ∈ CommandValidator.dangerous_commands ++ CommandValidator.dangerous_patterns,
        AIAssistant.contains command d = true := by
  constructor
  · intro h
    unfold CommandValidator.is_safe at h
    split at h
    · rename_i h1
      obtain ⟨d, hd, hc⟩ := List.any_eq_true.1 h1
      exact ⟨d, List.mem_append_left _ hd, hc⟩
    · split at h
      · rename_i _ h2
        obtain ⟨d, hd, hc⟩ := List.any_eq_true.1 h2
        exact ⟨d, List.mem_append_right _ hd, hc⟩
      · exact absurd h (by decide)
  · rintro ⟨d, hd, hc⟩
    exact validator_unsafe_of_entry command d hd hc

/-- C13, as amended: every command string that contains both `rm` and one
of the critical directories `/bin`, `/sbin`, `/usr`, `/lib`, `/etc`, `/boot` is
classified unsafe by `AIAssistant::is_command_safe`; `CommandValidator::is_safe`
has no rule for directories: it classifies a command unsafe exactly when the
command contains an entry of its two lists. -/
theorem critical_dirs_rejected (command : Str) :
    (∀ dir ∈ ["/bin".toList, "/sbin".toList, "/usr".toList, "/lib".toList, "/etc".toList,
        "/boot".toList],
      AIAssistant.contains command "rm".toList = true → AIAssistant.contains command dir = true →
      AIAssistant.is_command_safe command = false) ∧
    (CommandValidator.is_safe command = false ↔
      ∃ d ∈ CommandValidator.dangerous_commands ++ CommandValidator.dangerous_patterns,
        AIAssistant.contains command d = true) := by
  constructor
  · intro dir hdir hrm hd
    have hany : AIAssistant.critical_dirs.any
        (fun dir => AIAssistant.contains command "rm".toList && AIAssistant.contains command dir)
        = true :=
      List.any_eq_true.2 ⟨dir, hdir, by rw [hrm, hd]; rfl⟩
    unfold AIAssistant.is_command_safe
    split
    · rfl
    · split
      · rfl
      · rfl
  · exact validator_unsafe_iff command

/-- C13 at `rm /etc/passwd`. -/
theorem critical_dirs_rejected_witness :
    AIAssistant.is_command_safe "rm /etc/passwd".toList = false :=
  (critical_dirs_rejected "rm /etc/passwd".toList).1 "/etc".toList (by decide) (by decide)
    (by decide)

/-- C13 fails as stated for `CommandValidator::is_safe`: `rm /etc/passwd`
contains `rm` and `/etc` and is classified safe. -/
theorem critical_dirs_counterexample :
    AIAssistant.contains "rm /etc/passwd".toList "rm".toList = true ∧
      AIAssistant.contains "rm /etc/passwd".toList "/etc".toList = true ∧
      CommandValidator.is_safe "rm /etc/passwd".toList = true := by
  decide!

/-! ## Variable expansion -/

theorem findFrom_at_head (c : Char) (pre cs : Str) :
    findFrom c (pre ++ c :: cs) pre.length = some pre.length := by
  simp [findFrom, List.indexOf?]

theorem findFrom_past_other (c c' : Char) (pre cs : Str) (h : c' ≠ c) :
    findFrom c (pre ++ c' :: cs) pre.length = findFrom c (pre ++ c' :: cs) (pre.length + 1) := by
  have h1 : (pre ++ c' :: cs).drop pre.length = c' :: cs := List.drop_left pre _
  have h2 : (pre ++ c' :: cs).drop (pre.length + 1) = cs := by
    have : pre ++ c' :: cs = (pre ++ [c']) ++ cs := by simp
    rw [this]
    exact List.drop_left' (by simp)
  simp only [findFrom, h1, h2, List.indexOf?, List.findIdx?_cons]
  have hne : (c' == c) = false := by simpa using h
  simp only [hne, Bool.false_eq_true, if_false, List.findIdx?_succ]
  cases List.findIdx? (fun x => x == c) cs with
  | none => rfl
  | some k =>
    simp only [Option.map_some']
    congr 1
    omega

theorem expandLoop_congr_pos (env : Env) (fuel : Nat) (s : Str) (p q : Nat)
    (h : findFrom '$' s p = findFrom '$' s q) : expandLoop env fuel s p = expandLoop env fuel s q := by
  cases fuel with
  | zero => rfl
  | succ f => simp only [expandLoop, h]

theorem take_length_takeWhile (p : Char → Bool) (l : Str) :
    l.take (l.takeWhile p).length = l.takeWhile p := by
  have h := List.take_left (l.takeWhile p) (l.dropWhile p)
  rwa [List.takeWhile_append_dropWhile] at h

theorem drop_length_takeWhile (p : Char → Bool) (l : Str) :
    l.drop (l.takeWhile p).length = l.dropWhile p := by
  have h := List.drop_left (l.takeWhile p) (l.dropWhile p)
  rwa [List.takeWhile_append_dropWhile] at h

/-- The loop of `expand_variables`, started at the end of an already
processed prefix `pre` with more fuel than unscanned characters, ends with
`pre` followed by the reference expansion of the unscanned part. -/
theorem expandLoop_refines (env : Env) :
    ∀ (n : Nat) (rest pre : Str) (fuel : Nat), rest.length ≤ n → rest.length < fuel →
      expandLoop env fuel (pre ++ rest) pre.length = some (pre ++ refExpand env rest) := by
  intro n
  induction n with
  | zero =>
    intro rest pre fuel hn hf
    have hr : rest = [] := List.length_eq_zero.1 (Nat.le_zero.1 hn)
    subst hr
    obtain ⟨f, rfl⟩ : ∃ f, fuel = f + 1 := ⟨fuel - 1, by omega⟩
    simp [expandLoop, findFrom, List.indexOf?, refExpand]
  | succ m ih =>
    intro rest pre fuel hn hf
    obtain ⟨f, rfl⟩ : ∃ f, fuel = f + 1 := ⟨fuel - 1, by omega⟩
    cases rest with
    | nil => simp [expandLoop, findFrom, List.indexOf?, refExpand]
    | cons c cs =>
      have hcs : cs.length ≤ m := by simpa using hn
      have hcf : cs.length < f := by simpa using hf
      by_cases hc : c = '$'
      · subst hc
        have hdrop : (pre ++ '$' :: cs).drop (pre.length + 1) = cs := by
          have : pre ++ '$' :: cs = (pre ++ ['$']) ++ cs := by simp
          rw [this]
          exact List.drop_left' (by simp)
        have htake : (pre ++ '$' :: cs).take pre.length = pre := List.take_left pre _
        rw [expandLoop, findFrom_at_head]
        simp only [scanName, hdrop]
        by_cases hnm : cs.takeWhile nameChar = []
        · have hlen : (cs.takeWhile (fun c => isalnum c || c == '_')).length = 0 := by
            change (cs.takeWhile nameChar).length = 0
            rw [hnm]; rfl
          rw [hlen, if_neg (by omega)]
          have hs : pre ++ '$' :: cs = (pre ++ ['$']) ++ cs := by simp
          have hl : pre.length + 1 = (pre ++ ['$']).length := by simp
          rw [hs, hl, ih cs (pre ++ ['$']) f hcs hcf, refExpand, if_pos rfl, if_neg (not_not.2 hnm)]
          simp
        · have hpos : 0 < (cs.takeWhile nameChar).length := List.length_pos.2 hnm
          have hlen : (cs.takeWhile (fun c => isalnum c || c == '_')).length =
              (cs.takeWhile nameChar).length := rfl
          rw [hlen, if_pos (by omega)]
          have e1 : pre.length + 1 + (cs.takeWhile nameChar).length - (pre.length + 1) =
              (cs.takeWhile nameChar).length := by omega
          have e2 : pre.length + (pre.length + 1 + (cs.takeWhile nameChar).length - pre.length) =
              pre.length + 1 + (cs.takeWhile nameChar).length := by omega
          have hd2 : (pre ++ '$' :: cs).drop (pre.length + 1 + (cs.takeWhile nameChar).length) =
              cs.dropWhile nameChar := by
            rw [← List.drop_drop, hdrop, drop_length_takeWhile]
          simp only [e1, take_length_takeWhile, replace, e2, htake, hd2]
          have hl : pre.length + ((env (cs.takeWhile nameChar)).getD []).length =
              (pre ++ (env (cs.takeWhile nameChar)).getD []).length := by simp
          have hdw : (cs.dropWhile nameChar).length ≤ cs.length :=
            (List.dropWhile_sublist nameChar).length_le
          rw [hl, ih (cs.dropWhile nameChar) (pre ++ (env (cs.takeWhile nameChar)).getD []) f
            (by omega) (by omega), refExpand, if_pos rfl, if_pos hnm]
          simp
      · have hs : pre ++ c :: cs = (pre ++ [c]) ++ cs := by simp
        have hl : pre.length + 1 = (pre ++ [c]).length := by simp
        rw [expandLoop_congr_pos env (f + 1) _ _ _ (findFrom_past_other '$' c pre cs hc), hs, hl,
          ih cs (pre ++ [c]) (f + 1) hcs (by omega), refExpand, if_neg hc]
        simp

/-- C14: for every word and every environment, `expand_variables` equals the
reference expansion of the specification. -/
theorem expand_variables_eq_reference (env : Env) (w : Str) :
    expand_variables env w = refExpand env w := by
  have h := expandLoop_refines env w.length w [] (w.length + 1) (Nat.le_refl _) (Nat.lt_succ_self _)
  simp only [List.nil_append, List.length_nil] at h
  rw [expand_variables, h]
  rfl

/-! ## The segment parser -/

theorem parseArgs_nil (cmd : Command) : parseArgs cmd [] = cmd := by
  rw [parseArgs.eq_def]

theorem parseArgs_cons (cmd : Command) (token : Str) (rest : List Str) :
    parseArgs cmd (token :: rest) =
      if token = ">".toList then
        match rest with
        | f :: rest' => parseArgs { cmd with output_file := some f, append_output := false } rest'
        | [] => cmd
      else if token = ">>".toList then
        match rest with
        | f :: rest' => parseArgs { cmd with output_file := some f, append_output := true } rest'
        | [] => cmd
      else if token = "<".toList then
        match rest with
        | f :: rest' => parseArgs { cmd with input_file := some f } rest'
        | [] => cmd
      else if token = "&".toList then
        parseArgs { cmd with run_in_background := true } rest
      else
        parseArgs { cmd with arguments := cmd.arguments ++ [token] } rest := by
  rw [parseArgs.eq_def]

/-- The loop of `parse_command` computes the segment scan of the
specification. -/
theorem parseArgs_eq_fold :
    ∀ (n : Nat) (tokens : List Str) (cmd : Command), tokens.length ≤ n →
      parseArgs cmd tokens = (tokens.foldl specStep { cmd := cmd }).cmd := by
  intro n
  induction n with
  | zero =>
    intro tokens cmd h
    have : tokens = [] := List.length_eq_zero.1 (Nat.le_zero.1 h)
    subst this
    rw [parseArgs_nil]; rfl
  | succ n ih =>
    intro tokens cmd h
    cases tokens with
    | nil => rw [parseArgs_nil]; rfl
    | cons token rest =>
      have hr : rest.length ≤ n := by simpa using h
      rw [parseArgs_cons, List.foldl_cons]
      by_cases h1 : token = ">".toList
      · rw [if_pos h1]
        cases rest with
        | nil => simp [specStep, h1]
        | cons f rest' =>
          have : rest'.length ≤ n := by simp at hr; omega
          simp only [List.foldl_cons]
          rw [ih rest' _ this]
          simp [specStep, h1]
      · rw [if_neg h1]
        by_cases h2 : token = ">>".toList
        · rw [if_pos h2]
          cases rest with
          | nil => simp [specStep, h2]
          | cons f rest' =>
            have : rest'.length ≤ n := by simp at hr; omega
            simp only [List.foldl_cons]
            rw [ih rest' _ this]
            simp [specStep, h2]
        · rw [if_neg h2]
          by_cases h3 : token = "<".toList
          · rw [if_pos h3]
            cases rest with
            | nil => simp [specStep, h3]
            | cons f rest' =>
              have : rest'.length ≤ n := by simp at hr; omega
              simp only [List.foldl_cons]
              rw [ih rest' _ this]
              simp [specStep, h3]
          · rw [if_neg h3]
            by_cases h4 : token = "&".toList
            · rw [if_pos h4, ih rest _ hr]
              simp [specStep, h4]
            · rw [if_neg h4, ih rest _ hr]
              have h1' : ¬ token = ['>'] := h1
              have h2' : ¬ token = ['>', '>'] := h2
              have h3' : ¬ token = ['<'] := h3
              have h4' : ¬ token = ['&'] := h4
              simp [specStep, h1', h2', h3', h4']

theorem backgroundMarker_cons_op (token : Str) (rest : List Str)
    (h : token = ">".toList ∨ token = ">>".toList ∨ token = "<".toList) :
    backgroundMarker (token :: rest) = backgroundMarker rest.tail := by
  cases rest with
  | nil =>
    have : token ≠ "&".toList := by
      rcases h with h | h | h <;> (rw [h]; decide)
    simp [backgroundMarker]
    exact this
  | cons f r => simp only [backgroundMarker, if_pos h, List.tail_cons]

theorem backgroundMarker_cons_amp (rest : List Str) :
    backgroundMarker ("&".toList :: rest) = true := by
  cases rest with
  | nil => decide
  | cons f r =>
    have h : ¬ ("&".toList = ">".toList ∨ "&".toList = ">>".toList ∨ "&".toList = "<".toList) := by
      decide
    simp only [backgroundMarker, if_neg h, if_true]

theorem backgroundMarker_cons_word (token : Str) (rest : List Str) (h1 : token ≠ ">".toList)
    (h2 : token ≠ ">>".toList) (h3 : token ≠ "<".toList) (h4 : token ≠ "&".toList) :
    backgroundMarker (token :: rest) = backgroundMarker rest := by
  cases rest with
  | nil =>
    simp [backgroundMarker]
    exact h4
  | cons f r =>
    have h : ¬ (token = ">".toList ∨ token = ">>".toList ∨ token = "<".toList) := by
      rintro (h | h | h)
      · exact h1 h
      · exact h2 h
      · exact h3 h
    simp only [backgroundMarker, if_neg h, if_neg h4]

/-- What the loop of `parse_command` does to a command: the program is kept,
the arguments grow by a subsequence of the tokens without operator texts, and
the background flag is set exactly by an `&` that is not a file name. -/
theorem parseArgs_props :
    ∀ (n : Nat) (tokens : List Str) (cmd : Command), tokens.length ≤ n →
      (parseArgs cmd tokens).program = cmd.program ∧
      (∃ extra : List Str, (parseArgs cmd tokens).arguments = cmd.arguments ++ extra ∧
        extra.Sublist tokens ∧
        ∀ a ∈ extra, a ≠ ">".toList ∧ a ≠ ">>".toList ∧ a ≠ "<".toList ∧ a ≠ "&".toList) ∧
      (parseArgs cmd tokens).run_in_background =
        (cmd.run_in_background || backgroundMarker tokens) := by
  intro n
  induction n with
  | zero =>
    intro tokens cmd h
    have : tokens = [] := List.length_eq_zero.1 (Nat.le_zero.1 h)
    subst this
    rw [parseArgs_nil]
    exact ⟨rfl, ⟨[], by simp, List.Sublist.slnil, by simp⟩, by simp [backgroundMarker]⟩
  | succ n ih =>
    intro tokens cmd h
    cases tokens with
    | nil =>
      rw [parseArgs_nil]
      exact ⟨rfl, ⟨[], by simp, List.Sublist.slnil, by simp⟩, by simp [backgroundMarker]⟩
    | cons token rest =>
      have hr : rest.length ≤ n := by simpa using h
      have redirect : ∀ (upd : Str → Command),
          (∀ f, (upd f).program = cmd.program ∧ (upd f).arguments = cmd.arguments ∧
            (upd f).run_in_background = cmd.run_in_background) →
          (token = ">".toList ∨ token = ">>".toList ∨ token = "<".toList) →
          (match rest with
            | f :: rest' => parseArgs (upd f) rest'
            | [] => cmd).program = cmd.program ∧
          (∃ extra : List Str, (match rest with
            | f :: rest' => parseArgs (upd f) rest'
            | [] => cmd).arguments = cmd.arguments ++ extra ∧
            extra.Sublist (token :: rest) ∧
            ∀ a ∈ extra, a ≠ ">".toList ∧ a ≠ ">>".toList ∧ a ≠ "<".toList ∧ a ≠ "&".toList) ∧
          (match rest with
            | f :: rest' => parseArgs (upd f) rest'
            | [] => cmd).run_in_background =
            (cmd.run_in_background || backgroundMarker (token :: rest)) := by
        intro upd hupd hop
        rw [backgroundMarker_cons_op token rest hop]
        cases rest with
        | nil =>
          exact ⟨rfl, ⟨[], by simp, List.nil_sublist _, by simp⟩, by simp [backgroundMarker]⟩
        | cons f rest' =>
          have hl : rest'.length ≤ n := by simp at hr; omega
          obtain ⟨u1, u2, u3⟩ := hupd f
          obtain ⟨p1, ⟨extra, p2, p3, p4⟩, p5⟩ := ih rest' (upd f) hl
          refine ⟨p1.trans u1, ⟨extra, ?_, ?_, p4⟩, ?_⟩
          · show (parseArgs (upd f) rest').arguments = cmd.arguments ++ extra
            rw [p2, u2]
          · exact (p3.cons f).cons token
          · show (parseArgs (upd f) rest').run_in_background = _
            rw [p5, u3, List.tail_cons]
      rw [parseArgs_cons]
      by_cases h1 : token = ">".toList
      · rw [if_pos h1]
        exact redirect (fun f => { cmd with output_file := some f, append_output := false })
          (fun f => ⟨rfl, rfl, rfl⟩) (Or.inl h1)
      · rw [if_neg h1]
        by_cases h2 : token = ">>".toList
        · rw [if_pos h2]
          exact redirect (fun f => { cmd with output_file := some f, append_output := true })
            (fun f => ⟨rfl, rfl, rfl⟩) (Or.inr (Or.inl h2))
        · rw [if_neg h2]
          by_cases h3 : token = "<".toList
          · rw [if_pos h3]
            exact redirect (fun f => { cmd with input_file := some f })
              (fun f => ⟨rfl, rfl, rfl⟩) (Or.inr (Or.inr h3))
          · rw [if_neg h3]
            by_cases h4 : token = "&".toList
            · rw [if_pos h4]
              obtain ⟨p1, ⟨extra, p2, p3, p4⟩, p5⟩ :=
                ih rest { cmd with run_in_background := true } hr
              refine ⟨p1, ⟨extra, p2, p3.cons token, p4⟩, ?_⟩
              rw [p5, h4, backgroundMarker_cons_amp]
              simp
            · rw [if_neg h4]
              obtain ⟨p1, ⟨extra, p2, p3, p4⟩, p5⟩ :=
                ih rest { cmd with arguments := cmd.arguments ++ [token] } hr
              refine ⟨p1, ⟨token :: extra, ?_, p3.cons₂ token, ?_⟩, ?_⟩
              · rw [p2]; simp
              · intro a ha
                rcases List.mem_cons.1 ha with rfl | ha
                · exact ⟨h1, h2, h3, h4⟩
                · exact p4 a ha
              · rw [p5, backgroundMarker_cons_word token rest h1 h2 h3 h4]

theorem parse_command_full (tokens : List Str) :
    parse_command tokens 0 tokens.length =
      match tokens with
      | [] => {}
      | program :: rest => parseArgs { program := program } rest := by
  cases tokens with
  | nil => rfl
  | cons p rest =>
    simp only [parse_command, List.length_cons, List.take_length, List.drop_zero]
    rw [if_neg (by omega)]
    have : List.take (rest.length + 1) (p :: rest) = p :: rest := by
      rw [show rest.length + 1 = (p :: rest).length by simp, List.take_length]
    rw [this]

/-- C15, as amended: `parse_command` takes the first token as program and
computes the left-to-right scan of the specification over the rest, in which
`>` or `>>` followed by a token sets `output_file` to that token with
`append_output` false or true, `<` followed by a token sets `input_file`, `&`
sets the background flag, and every other token is appended to the arguments.
The arguments are a subsequence of the tokens after the program and hold none
of the texts `>`, `>>`, `<`, `&`; a one-token segment yields a command with
only its program; a redirection operator that is the last token and is not
itself a file name changes nothing. -/
theorem parse_command_scan (tokens : List Str) :
    parse_command tokens 0 tokens.length = specSegment tokens ∧
      (parse_command tokens 0 tokens.length).program = tokens.headD [] ∧
      (parse_command tokens 0 tokens.length).arguments.Sublist tokens.tail ∧
      (∀ a ∈ (parse_command tokens 0 tokens.length).arguments,
        a ≠ ">".toList ∧ a ≠ ">>".toList ∧ a ≠ "<".toList ∧ a ≠ "&".toList) ∧
      (∀ program : Str, parse_command [program] 0 1 = { program := program }) ∧
      (∀ (program : Str) (rest : List Str) (op : Str),
        op = ">".toList ∨ op = ">>".toList ∨ op = "<".toList →
        (rest.foldl specStep { cmd := { program := program } }).pending = none →
        parse_command (program :: (rest ++ [op])) 0 (program :: (rest ++ [op])).length =
          parse_command (program :: rest) 0 (program :: rest).length) := by
  refine ⟨?_, ?_, ?_, ?_, fun _ => rfl, ?_⟩
  · rw [parse_command_full]
    cases tokens with
    | nil => rfl
    | cons p rest => exact parseArgs_eq_fold rest.length rest _ (Nat.le_refl _)
  · rw [parse_command_full]
    cases tokens with
    | nil => rfl
    | cons p rest => exact (parseArgs_props rest.length rest _ (Nat.le_refl _)).1
  · rw [parse_command_full]
    cases tokens with
    | nil => exact List.Sublist.slnil
    | cons p rest =>
      obtain ⟨_, ⟨extra, p2, p3, _⟩, _⟩ := parseArgs_props rest.length rest
        { program := p } (Nat.le_refl _)
      show (parseArgs { program := p } rest).arguments.Sublist rest
      rw [p2]
      simpa using p3
  · rw [parse_command_full]
    cases tokens with
    | nil => intro a ha; simp at ha
    | cons p rest =>
      obtain ⟨_, ⟨extra, p2, _, p4⟩, _⟩ := parseArgs_props rest.length rest
        { program := p } (Nat.le_refl _)
      intro a ha
      have ha' : a ∈ (parseArgs { program := p } rest).arguments := ha
      rw [p2] at ha'
      exact p4 a (by simpa using ha')
  · intro program rest op hop hpend
    rw [parse_command_full, parse_command_full]
    show parseArgs { program := program } (rest ++ [op]) = parseArgs { program := program } rest
    rw [parseArgs_eq_fold _ _ _ (Nat.le_refl _), parseArgs_eq_fold _ _ _ (Nat.le_refl _),
      List.foldl_append, List.foldl_cons, List.foldl_nil]
    generalize List.foldl specStep { cmd := { program := program } } rest = st at hpend
    rcases hop with h | h | h
    · simp [specStep, hpend, h]
    · subst h
      have e : ¬ (">>".toList = ">".toList) := by decide
      simp only [specStep, hpend, if_neg e, if_true]
    · subst h
      have e1 : ¬ ("<".toList = ">".toList) := by decide
      have e2 : ¬ ("<".toList = ">>".toList) := by decide
      simp only [specStep, hpend, if_neg e1, if_neg e2, if_true]

/-- C15 at `sort < in > out -r &` and at the trailing operator of
`ls -l >`. -/
theorem parse_command_scan_witness :
    parse_command ["sort".toList, "<".toList, "in".toList, ">".toList, "out".toList,
        "-r".toList, "&".toList] 0 7 =
      { program := "sort".toList, arguments := ["-r".toList], input_file := some "in".toList,
        output_file := some "out".toList, run_in_background := true } ∧
      parse_command ["ls".toList, "-l".toList, ">".toList] 0 3 =
        parse_command ["ls".toList, "-l".toList] 0 2 := by
  refine ⟨?_, ?_⟩
  · have h := (parse_command_scan ["sort".toList, "<".toList, "in".toList, ">".toList,
      "out".toList, "-r".toList, "&".toList]).1
    exact h.trans (by decide)
  · exact (parse_command_scan []).2.2.2.2.2 "ls".toList ["-l".toList] ">".toList (Or.inl rfl)
      (by decide)

/-- C15 fails as stated: a `>>` token is not appended to the arguments but
redirects with `append_output = true`; the line `ls ">>" f` produces such a
token sequence. -/
theorem parse_command_counterexample :
    parse_command ["ls".toList, ">>".toList, "f".toList] 0 3 =
        { program := "ls".toList, output_file := some "f".toList, append_output := true } ∧
      (parse_command ["ls".toList, ">>".toList, "f".toList] 0 3).arguments ≠
        [">>".toList, "f".toList] ∧
      tokenize emptyEnv ("ls ".toList ++ dquote :: '>' :: '>' :: dquote :: " f".toList) =
        ["ls".toList, ">>".toList, "f".toList] := by
  decide

/-! ## The pipeline parser -/

/-- The first loop of `parse` yields one command per token sequence that is
not empty. -/
theorem parseParts_eq (env : Env) (parts : List Str) :
    parseParts env parts =
      (((parts.map (fun part => tokenize env (trim part))).filter
        (fun tokens => !tokens.isEmpty)).map
          (fun tokens => parse_command tokens 0 tokens.length)) := by
  induction parts with
  | nil => rfl
  | cons part parts ih =>
    rw [parseParts]
    by_cases h1 : trim part = []
    · have ht : tokenize env [] = [] := rfl
      simp [h1, ih, ht]
    · by_cases h2 : tokenize env (trim part) = []
      · simp [h1, h2, ih]
      · simp [h1, h2, ih]

/-- A string whose trim is empty holds only whitespace. -/
theorem all_space_of_trim_nil (s : Str) (h : trim s = []) : ∀ c ∈ s, isspace c = true := by
  have h1 : ∀ x ∈ Utils.rtrim s, isspace x = true := by
    have := (List.dropWhile_eq_nil_iff (p := isspace) (l := Utils.rtrim s)).1 h
    exact this
  intro c hc
  have hrev : c ∈ s.reverse := List.mem_reverse.2 hc
  rw [← List.takeWhile_append_dropWhile isspace s.reverse] at hrev
  rcases List.mem_append.1 hrev with hm | hm
  · exact List.mem_takeWhile_imp hm
  · exact h1 c (by
      unfold Utils.rtrim
      exact List.mem_reverse.2 hm)

theorem space_ne_pipe {c : Char} (h : isspace c = true) : c ≠ '|' := by
  rintro rfl
  exact absurd h (by decide)

/-- A blank line has no segment with a token. -/
theorem segmentTokens_blank (env : Env) (line : Str) (h : trim line = []) :
    segmentTokens env line = [] := by
  have hsp := all_space_of_trim_nil line h
  have hpipe : '|' ∉ line := fun hm => space_ne_pipe (hsp _ hm) rfl
  cases hl : line with
  | nil => rfl
  | cons c cs =>
    have hne : line ≠ [] := by rw [hl]; simp
    rw [← hl]
    have ht : tokenize env (trim line) = [] := by rw [h]; rfl
    simp [segmentTokens, split_no_delim '|' line hne hpipe, ht]

/-- For every line, `parse` is the hoisting step applied to the commands of
the segments that have a token. -/
theorem parse_eq_hoist (env : Env) (line : Str) :
    parse env line =
      hoistBackground ((segmentTokens env line).map
        (fun tokens => parse_command tokens 0 tokens.length)) := by
  unfold parse
  by_cases h : trim line = []
  · have he : is_empty line = true := by simp [is_empty, h]
    rw [if_pos he, segmentTokens_blank env line h]
    rfl
  · have he : is_empty line = false := by simp [is_empty, h]
    rw [he, parseParts_eq]
    rfl

theorem hoistBackground_concat (cmds : List Command) (c : Command) :
    hoistBackground (cmds ++ [c]) =
      { commands := cmds ++ [{ c with run_in_background := false }],
        run_in_background := c.run_in_background } := by
  unfold hoistBackground
  rw [List.getLast?_concat]
  by_cases hb : c.run_in_background = true
  · simp [hb]
  · have hb' : c.run_in_background = false := by simpa using hb
    simp only [hb', Bool.false_eq_true, if_false]
    congr
    cases c
    simp_all

/-- The hoisting step: the pipeline flag is the flag of the last command,
which is cleared; the other commands are kept as they are. -/
theorem hoistBackground_props (cmds : List Command) :
    (hoistBackground cmds).run_in_background =
        (match cmds.getLast? with
          | some c => c.run_in_background
          | none => false) ∧
      (∀ c, (hoistBackground cmds).commands.getLast? = some c → c.run_in_background = false) ∧
      (hoistBackground cmds).commands.dropLast = cmds.dropLast ∧
      (hoistBackground cmds).commands.map Command.program = cmds.map Command.program ∧
      (hoistBackground cmds).commands.length = cmds.length := by
  rcases List.eq_nil_or_concat cmds with h | ⟨l, c, h⟩
  · subst h
    refine ⟨rfl, ?_, rfl, rfl, rfl⟩
    intro c hc
    simp [hoistBackground] at hc
  · have h' : cmds = l ++ [c] := by simpa using h
    subst h'
    rw [hoistBackground_concat]
    refine ⟨by simp, ?_, by simp, by simp, by simp⟩
    intro c' hc'
    simp only [List.getLast?_concat, Option.some.injEq] at hc'
    rw [← hc']

theorem parse_command_background (tokens : List Str) :
    (parse_command tokens 0 tokens.length).run_in_background = backgroundMarker tokens.tail := by
  rw [parse_command_full]
  cases tokens with
  | nil => rfl
  | cons p rest =>
    have := (parseArgs_props rest.length rest { program := p } (Nat.le_refl _)).2.2
    simpa using this

/-- C17, as amended: for every line, the pipeline returned by `parse` has
`run_in_background = true` exactly when the tokens after the program of the last
command's segment hold an `&` that is not taken as the file name of a
redirection operator, and the last command's own flag is false. -/
theorem background_flag_hoisted (env : Env) (line : Str) :
    (parse env line).run_in_background =
        (match (segmentTokens env line).getLast? with
          | some tokens => backgroundMarker tokens.tail
          | none => false) ∧
      ∀ c, (parse env line).commands.getLast? = some c → c.run_in_background = false := by
  rw [parse_eq_hoist]
  obtain ⟨h1, h2, _⟩ := hoistBackground_props
    ((segmentTokens env line).map (fun tokens => parse_command tokens 0 tokens.length))
  refine ⟨?_, h2⟩
  rw [h1, List.getLast?_map]
  cases (segmentTokens env line).getLast? with
  | none => rfl
  | some tokens => exact parse_command_background tokens

/-- C17 fails as stated: in `ls > &` the segment holds an `&` token after
its program, but the token is the file name of `>` and the pipeline is not a
background one. -/
theorem background_flag_counterexample :
    tokenize emptyEnv "ls > &".toList = ["ls".toList, ">".toList, "&".toList] ∧
      parse emptyEnv "ls > &".toList =
        { commands := [{ program := "ls".toList, output_file := some "&".toList }],
          run_in_background := false } := by
  decide

/-- C18, as amended: in every pipeline returned by `parse` the last
command's flag is false; the commands before the last are the commands of their
segments unchanged, so such a command has `run_in_background = true` exactly
when its own segment holds an `&` marker. -/
theorem background_flag_of_commands (env : Env) (line : Str) :
    (∀ c, (parse env line).commands.getLast? = some c → c.run_in_background = false) ∧
      (parse env line).commands.dropLast =
        ((segmentTokens env line).map
          (fun tokens => parse_command tokens 0 tokens.length)).dropLast ∧
      (parse env line).commands.dropLast.map Command.run_in_background =
        (segmentTokens env line).dropLast.map (fun tokens => backgroundMarker tokens.tail) := by
  rw [parse_eq_hoist]
  obtain ⟨_, h2, h3, _⟩ := hoistBackground_props
    ((segmentTokens env line).map (fun tokens => parse_command tokens 0 tokens.length))
  refine ⟨h2, h3, ?_⟩
  rw [h3, ← List.map_dropLast, List.map_map]
  apply List.map_congr_left
  intro tokens _
  exact parse_command_background tokens

/-- C18 fails as stated: in the parse of `a & | b` the first command, which
is not the last, has `run_in_background = true`. -/
theorem background_flag_of_commands_counterexample :
    parse emptyEnv "a & | b".toList =
      { commands := [{ program := "a".toList, run_in_background := true },
                     { program := "b".toList }],
        run_in_background := false } := by
  decide

/-! ## Program words -/

theorem mem_of_mem_splitLoop (d : Char) :
    ∀ (s token piece : Str), piece ∈ Utils.splitLoop d s token →
      ∀ ch ∈ piece, ch ∈ token ∨ ch ∈ s := by
  intro s
  induction s with
  | nil =>
    intro token piece hp ch hch
    simp only [Utils.splitLoop, List.mem_singleton] at hp
    subst hp
    exact Or.inl hch
  | cons c cs ih =>
    intro token piece hp ch hch
    rw [Utils.splitLoop] at hp
    by_cases hc : c = d
    · rw [if_pos hc] at hp
      rcases List.mem_cons.1 hp with h | h
      · subst h; exact Or.inl hch
      · by_cases he : cs.isEmpty = true
        · rw [if_pos he] at h; simp at h
        · rw [if_neg he] at h
          rcases ih [] piece h ch hch with h' | h'
          · simp at h'
          · exact Or.inr (List.mem_cons_of_mem _ h')
    · rw [if_neg hc] at hp
      rcases ih (token ++ [c]) piece hp ch hch with h' | h'
      · rcases List.mem_append.1 h' with h'' | h''
        · exact Or.inl h''
        · simp only [List.mem_singleton] at h''
          subst h''
          exact Or.inr (List.mem_cons_self _ _)
      · exact Or.inr (List.mem_cons_of_mem _ h')

theorem mem_of_mem_split (d : Char) (s piece : Str) (hp : piece ∈ Utils.split s d) :
    ∀ ch ∈ piece, ch ∈ s := by
  intro ch hch
  cases s with
  | nil => simp [Utils.split] at hp
  | cons c cs =>
    rcases mem_of_mem_splitLoop d (c :: cs) [] piece hp ch hch with h | h
    · simp at h
    · exact h

theorem mem_of_mem_trim (s : Str) : ∀ ch ∈ trim s, ch ∈ s := by
  intro ch hch
  have h1 : ch ∈ Utils.rtrim s := (List.dropWhile_sublist isspace).subset hch
  have h2 : ch ∈ s.reverse := by
    unfold Utils.rtrim at h1
    exact (List.dropWhile_sublist isspace).subset (List.mem_reverse.1 h1)
  exact List.mem_reverse.1 h2

/-- The four ways one iteration of the loop of `tokenize` changes the token
list and the current word. -/
theorem tokStep_shape (env : Env) (st : TokState) (c : Char) :
    ((tokStep env st c).tokens = st.tokens ∧
        ((tokStep env st c).current_token = st.current_token ∨
          (tokStep env st c).current_token = st.current_token ++ [c])) ∨
      (st.current_token ≠ [] ∧
        (tokStep env st c).tokens = st.tokens ++ [expand_variables env st.current_token] ∧
        (tokStep env st c).current_token = []) ∨
      (st.current_token ≠ [] ∧
        (tokStep env st c).tokens =
          st.tokens ++ [expand_variables env st.current_token] ++ [[c]] ∧
        (tokStep env st c).current_token = []) ∨
      ((tokStep env st c).tokens = st.tokens ++ [[c]] ∧
        (tokStep env st c).current_token = st.current_token) := by
  by_cases hq : st.in_quotes = true
  · by_cases hc : c = st.quote_char
    · left; simp [tokStep, hq, hc]
    · left; simp [tokStep, hq, hc]
  · have hq' : st.in_quotes = false := by simpa using hq
    by_cases h1 : c = dquote ∨ c = squote
    · left; simp [tokStep, hq', h1]
    · by_cases h2 : isspace c = true
      · by_cases h3 : st.current_token = []
        · left; simp [tokStep, hq', h1, h2, h3]
        · right; left
          have h3' : st.current_token.isEmpty = false := by simpa using h3
          simp [tokStep, hq', h1, h2, h3, h3']
      · by_cases h4 : is_special_char c = true
        · by_cases h3 : st.current_token = []
          · right; right; right; simp [tokStep, hq', h1, h2, h4, h3]
          · right; right; left
            have h3' : st.current_token.isEmpty = false := by simpa using h3
            simp [tokStep, hq', h1, h2, h4, h3, h3']
        · left; simp [tokStep, hq', h1, h2, h4]

/-- Every token pushed by the loop of `tokenize` is a single character or
the expansion of a non-empty word made of characters of the input. -/
theorem tokStep_tokens (env : Env) (s : Str) :
    ∀ (l : Str) (st : TokState), (∀ ch ∈ l, ch ∈ s) →
      (∀ t ∈ st.tokens, (∃ c, t = [c]) ∨
        ∃ w : Str, w ≠ [] ∧ (∀ ch ∈ w, ch ∈ s) ∧ t = expand_variables env w) →
      (∀ ch ∈ st.current_token, ch ∈ s) →
      (∀ t ∈ (l.foldl (tokStep env) st).tokens, (∃ c, t = [c]) ∨
        ∃ w : Str, w ≠ [] ∧ (∀ ch ∈ w, ch ∈ s) ∧ t = expand_variables env w) ∧
      (∀ ch ∈ (l.foldl (tokStep env) st).current_token, ch ∈ s) := by
  intro l
  induction l with
  | nil => intro st _ h1 h2; exact ⟨h1, h2⟩
  | cons c cs ih =>
    intro st hl h1 h2
    rw [List.foldl_cons]
    have hc : c ∈ s := hl c (List.mem_cons_self _ _)
    have hcur : ∀ ch ∈ st.current_token ++ [c], ch ∈ s := by
      intro ch hch
      rcases List.mem_append.1 hch with h | h
      · exact h2 ch h
      · simp only [List.mem_singleton] at h; subst h; exact hc
    have hflush : st.current_token ≠ [] →
        ∀ t ∈ st.tokens ++ [expand_variables env st.current_token], (∃ c, t = [c]) ∨
          ∃ w : Str, w ≠ [] ∧ (∀ ch ∈ w, ch ∈ s) ∧ t = expand_variables env w := by
      intro hne t ht
      rcases List.mem_append.1 ht with h | h
      · exact h1 t h
      · simp only [List.mem_singleton] at h
        exact Or.inr ⟨st.current_token, hne, h2, h⟩
    apply ih _ (fun ch hch => hl ch (List.mem_cons_of_mem _ hch))
    · rcases tokStep_shape env st c with ⟨e1, _⟩ | ⟨hne, e1, _⟩ | ⟨hne, e1, _⟩ | ⟨e1, _⟩
      · rw [e1]; exact h1
      · rw [e1]; exact hflush hne
      · rw [e1]
        intro t ht
        rcases List.mem_append.1 ht with h | h
        · exact hflush hne t h
        · simp only [List.mem_singleton] at h
          exact Or.inl ⟨c, h⟩
      · rw [e1]
        intro t ht
        rcases List.mem_append.1 ht with h | h
        · exact h1 t h
        · simp only [List.mem_singleton] at h
          exact Or.inl ⟨c, h⟩
    · rcases tokStep_shape env st c with ⟨_, e2 | e2⟩ | ⟨_, _, e2⟩ | ⟨_, _, e2⟩ | ⟨_, e2⟩
      · rw [e2]; exact h2
      · rw [e2]; exact hcur
      · rw [e2]; intro ch hch; simp at hch
      · rw [e2]; intro ch hch; simp at hch
      · rw [e2]; exact h2

theorem tokenize_tokens (env : Env) (s : Str) :
    ∀ t ∈ tokenize env s, (∃ c, t = [c]) ∨
      ∃ w : Str, w ≠ [] ∧ (∀ ch ∈ w, ch ∈ s) ∧ t = expand_variables env w := by
  obtain ⟨h1, h2⟩ := tokStep_tokens env s s {} (fun _ h => h) (by intro t ht; simp at ht)
    (by intro ch hch; simp at hch)
  intro t ht
  unfold tokenize tokFinish at ht
  split at ht
  · rename_i hne
    rcases List.mem_append.1 ht with h | h
    · exact h1 t h
    · simp only [List.mem_singleton] at h
      exact Or.inr ⟨_, by simpa using hne, h2, h⟩
  · exact h1 t ht

/-- A step of `tokenize` on a state whose tokens are the expansions of the
words of a second state is the step without expansion on the second state. -/
theorem tokStep_wordStep (env : Env) (st : TokState) (c : Char) :
    tokStep env { st with tokens := st.tokens.map (expand_variables env) } c =
      { wordStep st c with tokens := (wordStep st c).tokens.map (expand_variables env) } := by
  obtain ⟨tk, cur, q, qc⟩ := st
  have hop : is_special_char c = true → expand_variables env [c] = [c] := by
    intro h
    apply expand_variables_eq_self
    intro hm
    rw [List.mem_singleton] at hm
    rw [← hm] at h
    exact absurd h (by decide)
  by_cases hq : q = true
  · by_cases hc : c = qc
    · simp [tokStep, wordStep, hq, hc]
    · simp [tokStep, wordStep, hq, hc]
  · have hq' : q = false := by simpa using hq
    by_cases h1 : c = dquote ∨ c = squote
    · simp [tokStep, wordStep, hq', h1]
    · by_cases h2 : isspace c = true
      · by_cases h3 : cur = []
        · simp [tokStep, wordStep, hq', h1, h2, h3]
        · simp [tokStep, wordStep, hq', h1, h2, h3]
      · by_cases h4 : is_special_char c = true
        · by_cases h3 : cur = []
          · simp [tokStep, wordStep, hq', h1, h2, h4, h3, hop h4]
          · simp [tokStep, wordStep, hq', h1, h2, h4, h3, hop h4]
        · simp [tokStep, wordStep, hq', h1, h2, h4]

theorem foldl_tokStep_wordStep (env : Env) (l : Str) :
    ∀ st : TokState,
      l.foldl (tokStep env) { st with tokens := st.tokens.map (expand_variables env) } =
        { l.foldl wordStep st with
          tokens := (l.foldl wordStep st).tokens.map (expand_variables env) } := by
  induction l with
  | nil => intro st; rfl
  | cons c cs ih =>
    intro st
    rw [List.foldl_cons, List.foldl_cons, tokStep_wordStep, ← ih]

/-- The tokens of a piece are the expansions of its words. -/
theorem tokenize_eq_map_lineWords (env : Env) (s : Str) :
    tokenize env s = (lineWords s).map (expand_variables env) := by
  have h := foldl_tokStep_wordStep env s {}
  have h0 : ({ ({} : TokState) with
      tokens := ({} : TokState).tokens.map (expand_variables env) } : TokState) = {} := rfl
  rw [h0] at h
  unfold CommandParser.tokenize tokFinish lineWords
  rw [h]
  by_cases hc : (s.foldl wordStep {}).current_token = []
  · simp [hc]
  · simp [hc]

/-- Every word pushed by the loop without expansion is non-empty and made
of characters of the input. -/
theorem wordStep_words (s : Str) :
    ∀ (l : Str) (st : TokState), (∀ ch ∈ l, ch ∈ s) →
      (∀ t ∈ st.tokens, t ≠ [] ∧ ∀ ch ∈ t, ch ∈ s) →
      (∀ ch ∈ st.current_token, ch ∈ s) →
      (∀ t ∈ (l.foldl wordStep st).tokens, t ≠ [] ∧ ∀ ch ∈ t, ch ∈ s) ∧
      (∀ ch ∈ (l.foldl wordStep st).current_token, ch ∈ s) := by
  intro l
  induction l with
  | nil => intro st _ h1 h2; exact ⟨h1, h2⟩
  | cons c cs ih =>
    intro st hl h1 h2
    rw [List.foldl_cons]
    have hc : c ∈ s := hl c (List.mem_cons_self _ _)
    have hcur : ∀ ch ∈ st.current_token ++ [c], ch ∈ s := by
      intro ch hch
      rcases List.mem_append.1 hch with h | h
      · exact h2 ch h
      · rw [List.mem_singleton] at h; subst h; exact hc
    have hflush : st.current_token ≠ [] →
        ∀ t ∈ st.tokens ++ [st.current_token], t ≠ [] ∧ ∀ ch ∈ t, ch ∈ s := by
      intro hne t ht
      rcases List.mem_append.1 ht with h | h
      · exact h1 t h
      · rw [List.mem_singleton] at h
        subst h
        exact ⟨hne, h2⟩
    have hop : ∀ t ∈ [[c]], t ≠ [] ∧ ∀ ch ∈ t, ch ∈ s := by
      intro t ht
      rw [List.mem_singleton] at ht
      subst ht
      refine ⟨by simp, ?_⟩
      intro ch hch
      rw [List.mem_singleton] at hch
      subst hch
      exact hc
    have hnil : ∀ ch ∈ ([] : Str), ch ∈ s := fun ch hch => absurd hch (List.not_mem_nil _)
    obtain ⟨tk, cur, q, qc⟩ := st
    simp only at h1 h2 hcur hflush
    apply ih _ (fun ch hch => hl ch (List.mem_cons_of_mem _ hch))
    · by_cases hq : q = true
      · by_cases hcq : c = qc
        · simpa [wordStep, hq, hcq] using h1
        · simpa [wordStep, hq, hcq] using h1
      · have hq' : q = false := by simpa using hq
        by_cases g1 : c = dquote ∨ c = squote
        · simpa [wordStep, hq', g1] using h1
        · by_cases g2 : isspace c = true
          · by_cases g3 : cur = []
            · simpa [wordStep, hq', g1, g2, g3] using h1
            · have := hflush g3
              simpa [wordStep, hq', g1, g2, g3] using this
          · by_cases g4 : is_special_char c = true
            · by_cases g3 : cur = []
              · have : ∀ t ∈ tk ++ [[c]], t ≠ [] ∧ ∀ ch ∈ t, ch ∈ s := by
                  intro t ht
                  rcases List.mem_append.1 ht with h | h
                  · exact h1 t h
                  · exact hop t h
                simpa [wordStep, hq', g1, g2, g4, g3] using this
              · have : ∀ t ∈ tk ++ [cur] ++ [[c]], t ≠ [] ∧ ∀ ch ∈ t, ch ∈ s := by
                  intro t ht
                  rcases List.mem_append.1 ht with h | h
                  · exact hflush g3 t h
                  · exact hop t h
                simpa [wordStep, hq', g1, g2, g4, g3] using this
            · simpa [wordStep, hq', g1, g2, g4] using h1
    · by_cases hq : q = true
      · by_cases hcq : c = qc
        · simpa [wordStep, hq, hcq] using h2
        · simpa [wordStep, hq, hcq] using hcur
      · have hq' : q = false := by simpa using hq
        by_cases g1 : c = dquote ∨ c = squote
        · simpa [wordStep, hq', g1] using h2
        · by_cases g2 : isspace c = true
          · by_cases g3 : cur = []
            · simp [wordStep, hq', g1, g2, g3]
            · simp [wordStep, hq', g1, g2, g3]
          · by_cases g4 : is_special_char c = true
            · by_cases g3 : cur = []
              · simp [wordStep, hq', g1, g2, g4, g3]
              · simp [wordStep, hq', g1, g2, g4, g3]
            · simpa [wordStep, hq', g1, g2, g4] using hcur

theorem lineWords_words (s : Str) : ∀ t ∈ lineWords s, t ≠ [] ∧ ∀ ch ∈ t, ch ∈ s := by
  obtain ⟨h1, h2⟩ := wordStep_words s s {} (fun _ h => h) (by intro t ht; simp at ht)
    (by intro ch hch; simp at hch)
  intro t ht
  unfold lineWords at ht
  split at ht
  · rename_i hne
    rcases List.mem_append.1 ht with h | h
    · exact h1 t h
    · rw [List.mem_singleton] at h
      subst h
      exact ⟨by simpa using hne, h2⟩
  · exact h1 t ht

/-- The program of a parsed segment is its first token. -/
theorem parse_command_program (tokens : List Str) :
    (parse_command tokens 0 tokens.length).program = tokens.headD [] := by
  rw [parse_command_full]
  cases tokens with
  | nil => rfl
  | cons t rest => exact (parseArgs_props rest.length rest _ (Nat.le_refl _)).1

theorem head_of_expanded (env : Env) :
    ∀ segs : List (List Str),
      (((segs.map (List.map (expand_variables env))).filter
        (fun tokens => !tokens.isEmpty)).map (fun tokens => tokens.headD [])) =
        (segs.filterMap List.head?).map (expand_variables env) := by
  intro segs
  induction segs with
  | nil => rfl
  | cons seg rest ih =>
    cases seg with
    | nil => simpa using ih
    | cons t ts => simpa using ih

theorem programWords_words (line : Str) :
    ∀ w ∈ programWords line, w ≠ [] ∧ ∀ ch ∈ w, ch ∈ line := by
  intro w hw
  unfold programWords at hw
  rw [List.mem_filterMap] at hw
  obtain ⟨seg, hseg, hhead⟩ := hw
  obtain ⟨part, hpart, rfl⟩ := List.mem_map.1 hseg
  have hmem : w ∈ lineWords (trim part) := List.mem_of_mem_head? hhead
  obtain ⟨hne, hch⟩ := lineWords_words (trim part) w hmem
  exact ⟨hne, fun ch h =>
    mem_of_mem_split '|' line part hpart ch (mem_of_mem_trim part ch (hch ch h))⟩

/-- The programs of the parsed commands are, in order, the expansions of
the program words of the line. -/
theorem programs_eq_expanded (env : Env) (line : Str) :
    (parse env line).commands.map Command.program =
      (programWords line).map (expand_variables env) := by
  rw [parse_eq_hoist, (hoistBackground_props _).2.2.2.1, List.map_map]
  have hfun : (Command.program ∘ fun tokens => parse_command tokens 0 tokens.length) =
      fun tokens : List Str => tokens.headD [] := by
    funext tokens
    exact parse_command_program tokens
  rw [hfun]
  unfold segmentTokens programWords
  have hmap : (Utils.split line '|').map (fun part => tokenize env (trim part)) =
      ((Utils.split line '|').map (fun part => lineWords (trim part))).map
        (List.map (expand_variables env)) := by
    rw [List.map_map]
    apply List.map_congr_left
    intro part _
    exact tokenize_eq_map_lineWords env (trim part)
  rw [hmap]
  exact head_of_expanded env _

/-- C19, as amended: for every line and every environment, the programs of
the commands returned by `parse` are, in order, the variable expansions of the
program words of the line (the first word of each piece between `|` characters
that has a word), each of which is a non-empty word made of characters of the
line; so the `k`-th command has an empty program only when the `k`-th program
word, non-empty, expands to the empty string. When the line contains no `$`,
every command has a non-empty program. -/
theorem program_nonempty (env : Env) (line : Str) :
    (parse env line).commands.map Command.program =
        (programWords line).map (expand_variables env) ∧
      (∀ (k : Nat) (c : Command), (parse env line).commands[k]? = some c →
        ∃ w : Str, (programWords line)[k]? = some w ∧ w ≠ [] ∧ (∀ ch ∈ w, ch ∈ line) ∧
          c.program = expand_variables env w) ∧
      ('$' ∉ line → ∀ c ∈ (parse env line).commands, c.program ≠ []) := by
  have hmap := programs_eq_expanded env line
  have key : ∀ (k : Nat) (c : Command), (parse env line).commands[k]? = some c →
      ∃ w : Str, (programWords line)[k]? = some w ∧ w ≠ [] ∧ (∀ ch ∈ w, ch ∈ line) ∧
        c.program = expand_variables env w := by
    intro k c hk
    have h1 : ((parse env line).commands.map Command.program)[k]? = some c.program := by
      rw [List.getElem?_map, hk]
      rfl
    rw [hmap, List.getElem?_map] at h1
    cases hw : (programWords line)[k]? with
    | none => rw [hw] at h1; simp at h1
    | some w =>
      rw [hw] at h1
      simp only [Option.map_some', Option.some.injEq] at h1
      obtain ⟨hne, hch⟩ := programWords_words line w (List.getElem?_mem hw)
      exact ⟨w, rfl, hne, hch, h1.symm⟩
  refine ⟨hmap, key, ?_⟩
  intro hd c hc hemp
  obtain ⟨k, hk⟩ := List.getElem?_of_mem hc
  obtain ⟨w, _, hne, hch, hprog⟩ := key k c hk
  have : '$' ∉ w := fun h => hd (hch _ h)
  rw [expand_variables_eq_self env w this, hemp] at hprog
  exact hne hprog.symm

/-- C19 at `ls -l | wc`. -/
theorem program_nonempty_witness :
    ∀ c ∈ (parse emptyEnv "ls -l | wc".toList).commands, c.program ≠ [] :=
  (program_nonempty emptyEnv "ls -l | wc".toList).2.2 (by decide)

/-- C19 fails as stated: with `X` unset, the line `$X arg` yields a command
whose program is the empty word. -/
theorem program_nonempty_counterexample :
    parse emptyEnv "$X arg".toList =
      { commands := [{ program := [], arguments := ["arg".toList] }] } := by
  decide

/-! ## Segments of a line without quotes -/

theorem space_not_quote {c : Char} (h : isspace c = true) : ¬ (c = dquote ∨ c = squote) := by
  rintro (rfl | rfl) <;> exact absurd h (by decide)

/-- Outside quotes and with no word pending, whitespace changes nothing. -/
theorem tokStep_isspace_skip (env : Env) (st : TokState) (c : Char) (hs : st.in_quotes = false)
    (hc : st.current_token = []) (hsp : isspace c = true) : tokStep env st c = st := by
  simp [tokStep, hs, space_not_quote hsp, hsp, hc]

/-- Outside quotes, whitespace flushes a pending word. -/
theorem tokStep_isspace_flush (env : Env) (st : TokState) (c : Char) (hs : st.in_quotes = false)
    (hc : st.current_token ≠ []) (hsp : isspace c = true) :
    tokStep env st c =
      { st with tokens := st.tokens ++ [expand_variables env st.current_token],
                current_token := [] } := by
  simp [tokStep, hs, space_not_quote hsp, hsp, hc]

theorem foldl_tokStep_spaces (env : Env) (ws : Str) (hws : ∀ c ∈ ws, isspace c = true) :
    ∀ st : TokState, st.in_quotes = false → st.current_token = [] →
      ws.foldl (tokStep env) st = st := by
  induction ws with
  | nil => intro st _ _; rfl
  | cons c cs ih =>
    intro st hs hc
    rw [List.foldl_cons, tokStep_isspace_skip env st c hs hc (hws c (List.mem_cons_self _ _))]
    exact ih (fun x hx => hws x (List.mem_cons_of_mem _ hx)) st hs hc

/-- Trailing whitespace outside quotes does not change the tokens. -/
theorem tokFinish_trailing_spaces (env : Env) (ws : Str) (hws : ∀ c ∈ ws, isspace c = true)
    (st : TokState) (hs : st.in_quotes = false) :
    tokFinish env (ws.foldl (tokStep env) st) = tokFinish env st := by
  by_cases hc : st.current_token = []
  · rw [foldl_tokStep_spaces env ws hws st hs hc]
  · cases ws with
    | nil => rfl
    | cons c cs =>
      rw [List.foldl_cons,
        tokStep_isspace_flush env st c hs hc (hws c (List.mem_cons_self _ _)),
        foldl_tokStep_spaces env cs (fun x hx => hws x (List.mem_cons_of_mem _ hx))
          { st with tokens := st.tokens ++ [expand_variables env st.current_token],
                    current_token := [] } hs rfl]
      simp [tokFinish, hc]

/-- Without quote characters the tokenizer never enters a quote. -/
theorem foldl_tokStep_unquoted (env : Env) (l : Str)
    (hl : ∀ c ∈ l, ¬ (c = dquote ∨ c = squote)) :
    ∀ st : TokState, st.in_quotes = false → (l.foldl (tokStep env) st).in_quotes = false := by
  induction l with
  | nil => intro st hs; exact hs
  | cons c cs ih =>
    intro st hs
    rw [List.foldl_cons]
    apply ih (fun x hx => hl x (List.mem_cons_of_mem _ hx))
    have hc := hl c (List.mem_cons_self _ _)
    unfold tokStep
    simp only [hs, Bool.not_false, if_true, if_neg hc]
    split_ifs <;> first | rfl | exact hs

theorem rtrim_decomp (s : Str) :
    ∃ ws : Str, (∀ c ∈ ws, isspace c = true) ∧ s = Utils.rtrim s ++ ws := by
  refine ⟨(s.reverse.takeWhile isspace).reverse, ?_, ?_⟩
  · intro c hc
    exact List.mem_takeWhile_imp (List.mem_reverse.1 hc)
  · have h := List.takeWhile_append_dropWhile isspace s.reverse
    have h2 := congrArg List.reverse h
    rw [List.reverse_append, List.reverse_reverse] at h2
    exact h2.symm

theorem ltrim_decomp (s : Str) :
    ∃ ws : Str, (∀ c ∈ ws, isspace c = true) ∧ s = ws ++ Utils.ltrim s :=
  ⟨s.takeWhile isspace, fun _ hc => List.mem_takeWhile_imp hc,
    (List.takeWhile_append_dropWhile isspace s).symm⟩

/-- Without quote characters, trimming a segment does not change its
tokens. -/
theorem tokenize_trim (env : Env) (s : Str) (hq : ∀ c ∈ s, ¬ (c = dquote ∨ c = squote)) :
    tokenize env (trim s) = tokenize env s := by
  obtain ⟨ws2, hws2, h2⟩ := rtrim_decomp s
  obtain ⟨ws1, hws1, h1⟩ := ltrim_decomp (Utils.rtrim s)
  have hqr : ∀ c ∈ Utils.rtrim s, ¬ (c = dquote ∨ c = squote) := by
    intro c hc
    apply hq c
    rw [h2]
    exact List.mem_append_left _ hc
  have e1 : tokenize env s = tokenize env (Utils.rtrim s) := by
    conv_lhs => rw [h2]
    unfold tokenize
    rw [List.foldl_append]
    exact tokFinish_trailing_spaces env ws2 hws2 _ (foldl_tokStep_unquoted env _ hqr {} rfl)
  have e2 : tokenize env (Utils.rtrim s) = tokenize env (trim s) := by
    conv_lhs => rw [h1]
    unfold tokenize
    rw [List.foldl_append, foldl_tokStep_spaces env ws1 hws1 {} rfl rfl]
    rfl
  rw [e1, e2]

theorem modifyHead_self (l : List Str) : l.modifyHead (fun x => x) = l := by
  cases l <;> rfl

/-- The pieces of `Utils::split` and the pieces between the delimiters
differ at most by a last empty piece, which no per-piece computation `G` that
ignores empty pieces can see. -/
theorem splitLoop_splitOn {α : Type} (G : List Str → List α)
    (hcons : ∀ x xs, G (x :: xs) = G [x] ++ G xs) (hnil : G [[]] = []) (hG : G [] = [])
    (d : Char) :
    ∀ (s token : Str),
      G (Utils.splitLoop d s token) = G ((s.splitOn d).modifyHead (fun x => token ++ x)) := by
  intro s
  induction s with
  | nil => intro token; simp [Utils.splitLoop, List.modifyHead]
  | cons c cs ih =>
    intro token
    rw [Utils.splitLoop, List.splitOn, List.splitOnP_cons]
    by_cases hc : c = d
    · have hb : (c == d) = true := by simpa using hc
      rw [if_pos hc, if_pos hb]
      simp only [List.modifyHead_cons, List.append_nil]
      rw [hcons token, hcons token (List.splitOnP (fun x => x == d) cs)]
      congr 1
      cases cs with
      | nil => simp [hnil, hG]
      | cons c' cs' =>
        have := ih []
        simp only [List.nil_append] at this
        rw [List.isEmpty_cons, if_neg (by simp), this, modifyHead_self]
        rfl
    · have hb : (c == d) = false := by simpa using hc
      rw [if_neg hc, hb, ih (token ++ [c])]
      simp only [Bool.false_eq_true, if_false, List.modifyHead_modifyHead]
      congr 2
      funext x
      simp [List.splitOn]

theorem split_splitOn {α : Type} (G : List Str → List α)
    (hcons : ∀ x xs, G (x :: xs) = G [x] ++ G xs) (hnil : G [[]] = []) (hG : G [] = [])
    (d : Char) (s : Str) : G (Utils.split s d) = G (s.splitOn d) := by
  cases s with
  | nil => simp [Utils.split, hnil, hG]
  | cons c cs =>
    have h := splitLoop_splitOn G hcons hnil hG d (c :: cs) []
    simp only [List.nil_append] at h
    rw [Utils.split, h, modifyHead_self]

theorem tokFinish_eq_nil_iff (env : Env) (st : TokState) :
    tokFinish env st = [] ↔ st.tokens = [] ∧ st.current_token = [] := by
  unfold tokFinish
  by_cases h : st.current_token = []
  · simp [h]
  · simp [h]

theorem tokStep_progress (env : Env) (st : TokState) (c : Char)
    (h : st.tokens ≠ [] ∨ st.current_token ≠ []) :
    (tokStep env st c).tokens ≠ [] ∨ (tokStep env st c).current_token ≠ [] := by
  rcases tokStep_shape env st c with ⟨e1, e2 | e2⟩ | ⟨_, e1, _⟩ | ⟨_, e1, _⟩ | ⟨e1, _⟩
  · rw [e1, e2]; exact h
  · rw [e1, e2]
    rcases h with h | _
    · exact Or.inl h
    · exact Or.inr (by simp)
  · rw [e1]; exact Or.inl (by simp)
  · rw [e1]; exact Or.inl (by simp)
  · rw [e1]; exact Or.inl (by simp)

theorem foldl_tokStep_progress (env : Env) (l : Str) :
    ∀ st : TokState, (st.tokens ≠ [] ∨ st.current_token ≠ []) →
      (l.foldl (tokStep env) st).tokens ≠ [] ∨ (l.foldl (tokStep env) st).current_token ≠ [] := by
  induction l with
  | nil => intro st h; exact h
  | cons c cs ih =>
    intro st h
    rw [List.foldl_cons]
    exact ih _ (tokStep_progress env st c h)

theorem tokStep_nonspace (env : Env) (st : TokState) (c : Char) (hs : st.in_quotes = false)
    (hq : ¬ (c = dquote ∨ c = squote)) (hsp : isspace c = false) :
    (tokStep env st c).tokens ≠ [] ∨ (tokStep env st c).current_token ≠ [] := by
  by_cases h4 : is_special_char c = true
  · left
    by_cases h3 : st.current_token = []
    · simp [tokStep, hs, hq, hsp, h4, h3]
    · simp [tokStep, hs, hq, hsp, h4, h3]
  · right
    simp [tokStep, hs, hq, hsp, h4]

/-- A segment without quote characters has no token exactly when it is
blank. -/
theorem tokenize_eq_nil_iff (env : Env) (seg : Str)
    (hq : ∀ c ∈ seg, ¬ (c = dquote ∨ c = squote)) :
    tokenize env seg = [] ↔ ∀ c ∈ seg, isspace c = true := by
  constructor
  · intro h c hc
    by_contra hsp
    have hsp' : isspace c = false := by simpa using hsp
    obtain ⟨a, b, rfl⟩ := List.append_of_mem hc
    have ha : (a.foldl (tokStep env) {}).in_quotes = false :=
      foldl_tokStep_unquoted env a (fun x hx => hq x (List.mem_append_left _ hx)) {} rfl
    have h1 := tokStep_nonspace env _ c ha (hq c hc) hsp'
    have h2 := foldl_tokStep_progress env b _ h1
    unfold tokenize at h
    rw [List.foldl_append, List.foldl_cons] at h
    obtain ⟨e1, e2⟩ := (tokFinish_eq_nil_iff env _).1 h
    rcases h2 with h2 | h2
    · exact h2 e1
    · exact h2 e2
  · intro h
    unfold tokenize
    rw [foldl_tokStep_spaces env seg h {} rfl rfl]
    rfl

/-- C16: for every line without quote characters, `parse` yields, in order,
one command for each piece between the `|` characters that has a token (the
hoisting of the background flag apart), a piece has no token exactly when it is
empty or whitespace only, and a blank line yields the pipeline without commands,
for which `execute_pipeline` returns 0. -/
theorem unquoted_line_segments (env : Env) (line : Str)
    (hq : ∀ c ∈ line, ¬ (c = dquote ∨ c = squote)) :
    parse env line =
        hoistBackground (((line.splitOn '|').filter
          (fun seg => !(tokenize env seg).isEmpty)).map
            (fun seg => parse_command (tokenize env seg) 0 (tokenize env seg).length)) ∧
      (parse env line).commands.length =
        ((line.splitOn '|').filter (fun seg => !(tokenize env seg).isEmpty)).length ∧
      (∀ seg : Str, (∀ c ∈ seg, ¬ (c = dquote ∨ c = squote)) →
        (tokenize env seg = [] ↔ ∀ c ∈ seg, isspace c = true)) ∧
      (is_empty line = true →
        parse env line = {} ∧
        ∀ (os : OS) (h : Handlers) (w : World),
          execute_pipeline os h (parse env line) w = (w, some 0)) := by
  have hmain : parse env line =
      hoistBackground (((line.splitOn '|').filter
        (fun seg => !(tokenize env seg).isEmpty)).map
          (fun seg => parse_command (tokenize env seg) 0 (tokenize env seg).length)) := by
    rw [parse_eq_hoist]
    congr 1
    have hmap : (Utils.split line '|').map (fun part => tokenize env (trim part)) =
        (Utils.split line '|').map (fun part => tokenize env part) := by
      apply List.map_congr_left
      intro part hp
      exact tokenize_trim env part (fun c hc => hq c (mem_of_mem_split '|' line part hp c hc))
    unfold segmentTokens
    rw [hmap, List.filter_map, List.map_map]
    exact split_splitOn
      (fun parts => (parts.filter (fun seg => !(tokenize env seg).isEmpty)).map
        (fun seg => parse_command (tokenize env seg) 0 (tokenize env seg).length))
      (by
        intro x xs
        by_cases hx : tokenize env x = []
        · simp [List.filter_cons, hx]
        · simp [List.filter_cons, hx])
      (by
        have : tokenize env [] = [] := rfl
        simp [List.filter_cons, this])
      rfl '|' line
  refine ⟨hmain, ?_, fun seg hs => tokenize_eq_nil_iff env seg hs, ?_⟩
  · rw [hmain, (hoistBackground_props _).2.2.2.2, List.length_map]
  · intro he
    have hp : parse env line = {} := by
      unfold parse
      rw [if_pos he]
    refine ⟨hp, fun os h w => ?_⟩
    rw [hp]
    rfl

/-- C16 at `ls -l || wc |`, whose empty second and fourth pieces give no
command. -/
theorem unquoted_line_segments_witness :
    "ls -l || wc |".toList.splitOn '|' = ["ls -l ".toList, [], " wc ".toList, []] ∧
      parse emptyEnv "ls -l || wc |".toList =
        { commands := [{ program := "ls".toList, arguments := ["-l".toList] },
                       { program := "wc".toList }] } := by
  have h := (unquoted_line_segments emptyEnv "ls -l || wc |".toList (by decide)).1
  refine ⟨by decide, ?_⟩
  rw [h]
  decide

/-! ## Collapsing whitespace -/

theorem collapseGo_append (a b : Str) :
    ∀ st, collapseGo st (a ++ b) = collapseGo st a ++ collapseGo (collapseState st a) b := by
  induction a with
  | nil => intro st; rfl
  | cons c cs ih =>
    intro st
    show (collapseStep st c).2 ++ collapseGo (collapseStep st c).1 (cs ++ b) =
      ((collapseStep st c).2 ++ collapseGo (collapseStep st c).1 cs) ++
        collapseGo (collapseState (collapseStep st c).1 cs) b
    rw [ih, List.append_assoc]

theorem collapseState_append (a b : Str) (st : Option Char × Bool) :
    collapseState st (a ++ b) = collapseState (collapseState st a) b := by
  simp [collapseState, List.foldl_append]

theorem blank_isspace {c : Char} (h : c = ' ' ∨ c = '\t') : isspace c = true := by
  rcases h with rfl | rfl <;> decide

/-- Outside quotes, every whitespace character acts on the tokenizer as a
space does. -/
theorem tokStep_isspace_eq (env : Env) (ts : TokState) (c : Char) (hs : ts.in_quotes = false)
    (hsp : isspace c = true) : tokStep env ts c = tokStep env ts ' ' := by
  by_cases hc : ts.current_token = []
  · rw [tokStep_isspace_skip env ts c hs hc hsp, tokStep_isspace_skip env ts ' ' hs hc (by decide)]
  · rw [tokStep_isspace_flush env ts c hs hc hsp,
      tokStep_isspace_flush env ts ' ' hs hc (by decide)]

theorem tokStep_space_state (env : Env) (ts : TokState) (hs : ts.in_quotes = false) :
    (tokStep env ts ' ').in_quotes = false ∧ (tokStep env ts ' ').current_token = [] := by
  by_cases hc : ts.current_token = []
  · rw [tokStep_isspace_skip env ts ' ' hs hc (by decide)]
    exact ⟨hs, hc⟩
  · rw [tokStep_isspace_flush env ts ' ' hs hc (by decide)]
    exact ⟨hs, rfl⟩

theorem tokStep_unquoted (env : Env) (ts : TokState) (c : Char) (hs : ts.in_quotes = false)
    (hc : ¬ (c = dquote ∨ c = squote)) : (tokStep env ts c).in_quotes = false :=
  foldl_tokStep_unquoted env [c] (by simpa using hc) ts hs

/-- The tokenizer cannot tell a collapsed text from the original: from
matching states, both lead to the same tokenizer state. -/
theorem foldl_tokStep_collapse (env : Env) :
    ∀ (s : Str) (st : Option Char × Bool) (ts : TokState),
      (∀ q, st.1 = some q → ts.in_quotes = true ∧ ts.quote_char = q) →
      (st.1 = none → ts.in_quotes = false ∧ (st.2 = true → ts.current_token = [])) →
      (collapseGo st s).foldl (tokStep env) ts = s.foldl (tokStep env) ts := by
  intro s
  induction s with
  | nil => intro st ts _ _; rfl
  | cons c cs ih =>
    intro st ts h1 h2
    obtain ⟨q, run⟩ := st
    rw [collapseGo, List.foldl_append, List.foldl_cons]
    cases q with
    | some q =>
      obtain ⟨hq1, hq2⟩ := h1 q rfl
      by_cases hc : c = q
      · have e : collapseStep (some q, run) c = ((none, false), [c]) := by
          simp [collapseStep, hc]
        rw [e]
        simp only [List.foldl_cons, List.foldl_nil]
        apply ih
        · intro q' hq'; simp at hq'
        · intro _
          subst hc
          rw [← hq2, tokStep_close_quote env ts hq1]
          exact ⟨rfl, fun h => by simp at h⟩
      · have e : collapseStep (some q, run) c = ((some q, false), [c]) := by
          simp [collapseStep, hc]
        rw [e]
        simp only [List.foldl_cons, List.foldl_nil]
        have hstep : tokStep env ts c = { ts with current_token := ts.current_token ++ [c] } := by
          simp [tokStep, hq1, hq2, hc]
        apply ih
        · intro q' hq'
          simp only [Option.some.injEq] at hq'
          subst hq'
          rw [hstep]
          exact ⟨hq1, hq2⟩
        · intro h; simp at h
    | none =>
      obtain ⟨hn1, hn2⟩ := h2 rfl
      by_cases hquote : c = dquote ∨ c = squote
      · have e : collapseStep (none, run) c = ((some c, false), [c]) := by
          simp [collapseStep, hquote]
        rw [e]
        simp only [List.foldl_cons, List.foldl_nil]
        apply ih
        · intro q' hq'
          simp only [Option.some.injEq] at hq'
          subst hq'
          rw [tokStep_open_quote env ts c hn1 hquote]
          exact ⟨rfl, rfl⟩
        · intro h; simp at h
      · by_cases hb : c = ' ' ∨ c = '\t'
        · have hsp := blank_isspace hb
          cases run with
          | true =>
            have e : collapseStep (none, true) c = ((none, true), []) := by
              simp [collapseStep, hquote, hb]
            rw [e, tokStep_isspace_skip env ts c hn1 (hn2 rfl) hsp]
            simp only [List.foldl_nil]
            apply ih
            · intro q' hq'; simp at hq'
            · intro _; exact ⟨hn1, hn2⟩
          | false =>
            have e : collapseStep (none, false) c = ((none, true), [' ']) := by
              simp [collapseStep, hquote, hb]
            rw [e, tokStep_isspace_eq env ts c hn1 hsp]
            simp only [List.foldl_cons, List.foldl_nil]
            obtain ⟨g1, g2⟩ := tokStep_space_state env ts hn1
            apply ih
            · intro q' hq'; simp at hq'
            · intro _; exact ⟨g1, fun _ => g2⟩
        · have e : collapseStep (none, run) c = ((none, false), [c]) := by
            simp [collapseStep, hquote, hb]
          rw [e]
          simp only [List.foldl_cons, List.foldl_nil]
          apply ih
          · intro q' hq'; simp at hq'
          · intro _
            exact ⟨tokStep_unquoted env ts c hn1 hquote, fun h => by simp at h⟩

theorem tokenize_collapse (env : Env) (s : Str) :
    tokenize env (collapseSpaces s) = tokenize env s := by
  unfold tokenize collapseSpaces
  rw [foldl_tokStep_collapse env s (none, false) {} (by intro q h; simp at h)
    (by intro _; exact ⟨rfl, fun h => by simp at h⟩)]

theorem collapseStep_nonspace (st : Option Char × Bool) (c : Char) (h : isspace c = false) :
    (collapseStep st c).2 = [c] := by
  have hb : ¬ (c = ' ' ∨ c = '\t') := fun hb => by
    rw [blank_isspace hb] at h; exact absurd h (by decide)
  obtain ⟨q, run⟩ := st
  cases q with
  | some q => by_cases hc : c = q <;> simp [collapseStep, hc]
  | none => by_cases hq : c = dquote ∨ c = squote <;> simp [collapseStep, hq, hb]

theorem collapseStep_space (st : Option Char × Bool) (c : Char) (h : isspace c = true) :
    ∀ x ∈ (collapseStep st c).2, isspace x = true := by
  obtain ⟨q, run⟩ := st
  have hsp : isspace ' ' = true := by decide
  cases q with
  | some q =>
    by_cases hc : c = q
    · subst hc; simp [collapseStep, h]
    · simp [collapseStep, hc, h]
  | none =>
    by_cases hq : c = dquote ∨ c = squote
    · simp [collapseStep, hq, h]
    · by_cases hb : c = ' ' ∨ c = '\t'
      · cases run <;> simp [collapseStep, hq, hb, hsp]
      · simp [collapseStep, hq, hb, h]

theorem collapseGo_spaces (ws : Str) (hws : ∀ c ∈ ws, isspace c = true) :
    ∀ st, ∀ x ∈ collapseGo st ws, isspace x = true := by
  induction ws with
  | nil => intro st x hx; simp [collapseGo] at hx
  | cons c cs ih =>
    intro st x hx
    rw [collapseGo] at hx
    rcases List.mem_append.1 hx with h | h
    · exact collapseStep_space st c (hws c (List.mem_cons_self _ _)) x h
    · exact ih (fun y hy => hws y (List.mem_cons_of_mem _ hy)) _ x h

theorem ltrim_spaces_append (ws s : Str) (hws : ∀ c ∈ ws, isspace c = true) :
    Utils.ltrim (ws ++ s) = Utils.ltrim s := by
  unfold Utils.ltrim
  exact List.dropWhile_append_of_pos hws

theorem ltrim_cons_nonspace (c : Char) (s : Str) (h : isspace c = false) :
    Utils.ltrim (c :: s) = c :: s := by
  simp [Utils.ltrim, List.dropWhile_cons, h]

theorem ltrim_cons_space (c : Char) (s : Str) (h : isspace c = true) :
    Utils.ltrim (c :: s) = Utils.ltrim s := by
  simp [Utils.ltrim, List.dropWhile_cons, h]

/-- Collapsing commutes with removing the leading whitespace. -/
theorem ltrim_collapse :
    ∀ (s : Str) (run : Bool),
      Utils.ltrim (collapseGo (none, run) s) = collapseGo (none, false) (Utils.ltrim s) := by
  intro s
  induction s with
  | nil => intro run; rfl
  | cons c cs ih =>
    intro run
    by_cases hsp : isspace c = true
    · rw [ltrim_cons_space c cs hsp, collapseGo,
        ltrim_spaces_append _ _ (collapseStep_space (none, run) c hsp)]
      have hq := space_not_quote hsp
      by_cases hb : c = ' ' ∨ c = '\t'
      · have e : (collapseStep (none, run) c).1 = (none, true) := by
          simp [collapseStep, hq, hb]
        rw [e]; exact ih true
      · have e : (collapseStep (none, run) c).1 = (none, false) := by
          simp [collapseStep, hq, hb]
        rw [e]; exact ih false
    · have hsp' : isspace c = false := by simpa using hsp
      have hb : ¬ (c = ' ' ∨ c = '\t') := fun hb => by
        rw [blank_isspace hb] at hsp'; exact absurd hsp' (by decide)
      rw [ltrim_cons_nonspace c cs hsp']
      have e : collapseStep (none, run) c = collapseStep (none, false) c := by
        by_cases hq : c = dquote ∨ c = squote <;> simp [collapseStep, hq, hb]
      rw [collapseGo, collapseGo, e, collapseStep_nonspace (none, false) c hsp']
      exact ltrim_cons_nonspace c _ hsp'

theorem rtrim_append_spaces (a ws : Str) (hws : ∀ c ∈ ws, isspace c = true) :
    Utils.rtrim (a ++ ws) = Utils.rtrim a := by
  unfold Utils.rtrim
  rw [List.reverse_append,
    List.dropWhile_append_of_pos (fun c hc => hws c (List.mem_reverse.1 hc))]

theorem rtrim_concat_nonspace (a : Str) (b : Char) (h : isspace b = false) :
    Utils.rtrim (a ++ [b]) = a ++ [b] := by
  simp [Utils.rtrim, List.dropWhile_cons, h]

theorem dropWhile_head_not (p : Char → Bool) (l : Str) :
    l.dropWhile p = [] ∨ ∃ b t, l.dropWhile p = b :: t ∧ p b = false := by
  induction l with
  | nil => exact Or.inl rfl
  | cons c cs ih =>
    by_cases h : p c = true
    · rw [List.dropWhile_cons_of_pos h]; exact ih
    · rw [List.dropWhile_cons_of_neg h]
      exact Or.inr ⟨c, cs, rfl, by simpa using h⟩

theorem rtrim_shape (s : Str) :
    Utils.rtrim s = [] ∨ ∃ a b, Utils.rtrim s = a ++ [b] ∧ isspace b = false := by
  unfold Utils.rtrim
  rcases dropWhile_head_not isspace s.reverse with h | ⟨b, t, h, hb⟩
  · left; rw [h]; rfl
  · right
    refine ⟨t.reverse, b, ?_, hb⟩
    rw [h]; simp

/-- Collapsing commutes with removing the trailing whitespace. -/
theorem rtrim_collapse (s : Str) :
    Utils.rtrim (collapseSpaces s) = collapseSpaces (Utils.rtrim s) := by
  obtain ⟨ws, hws, hs⟩ := rtrim_decomp s
  unfold collapseSpaces
  conv_lhs => rw [hs]
  rw [collapseGo_append, rtrim_append_spaces _ _ (collapseGo_spaces ws hws _)]
  rcases rtrim_shape s with h | ⟨a, b, h, hb⟩
  · rw [h]; rfl
  · rw [h, collapseGo_append]
    have e : collapseGo (collapseState (none, false) a) [b] = [b] := by
      rw [collapseGo, collapseStep_nonspace _ b hb]; rfl
    rw [e]
    exact rtrim_concat_nonspace _ b hb

/-- Collapsing commutes with `trim`. -/
theorem trim_collapse (s : Str) : trim (collapseSpaces s) = collapseSpaces (trim s) := by
  unfold trim Utils.trim
  rw [rtrim_collapse]
  exact ltrim_collapse _ false

theorem splitLoop_prefix (d : Char) (e : Str) (he : d ∉ e) :
    ∀ (rest token : Str),
      Utils.splitLoop d (e ++ rest) token = Utils.splitLoop d rest (token ++ e) := by
  induction e with
  | nil => intro rest token; simp
  | cons c cs ih =>
    intro rest token
    have hc : c ≠ d := fun h => he (h ▸ List.mem_cons_self _ _)
    rw [List.cons_append, Utils.splitLoop, if_neg hc,
      ih (fun h => he (List.mem_cons_of_mem _ h))]
    simp

theorem collapseStep_no_pipe (st : Option Char × Bool) (c : Char) (hc : c ≠ '|') :
    '|' ∉ (collapseStep st c).2 := by
  have hc' : ¬ ('|' = c) := fun h => hc h.symm
  obtain ⟨q, run⟩ := st
  cases q with
  | some q =>
    by_cases h : c = q
    · subst h; simp [collapseStep, hc']
    · simp [collapseStep, h, hc']
  | none =>
    by_cases hq : c = dquote ∨ c = squote
    · simp [collapseStep, hq, hc']
    · by_cases hb : c = ' ' ∨ c = '\t'
      · cases run <;> simp [collapseStep, hq, hb]
      · simp [collapseStep, hq, hb, hc']

theorem collapseStep_pipe (run : Bool) :
    collapseStep (none, run) '|' = ((none, false), ['|']) := by
  have h1 : ¬ ('|' = dquote ∨ '|' = squote) := by decide
  have h2 : ¬ ('|' = ' ' ∨ '|' = '\t') := by decide
  simp [collapseStep, h1, h2]

theorem collapseSpaces_isEmpty (s : Str) : (collapseSpaces s).isEmpty = s.isEmpty := by
  cases s with
  | nil => rfl
  | cons c cs =>
    have : (collapseStep (none, false) c).2 ≠ [] := by
      by_cases hq : c = dquote ∨ c = squote
      · simp [collapseStep, hq]
      · by_cases hb : c = ' ' ∨ c = '\t' <;> simp [collapseStep, hq, hb]
    unfold collapseSpaces
    rw [collapseGo]
    cases h : (collapseStep (none, false) c).2 with
    | nil => exact absurd h this
    | cons x xs => rfl

/-- When no `|` lies inside quotes, splitting the collapsed line gives the
collapsed pieces of the line. -/
theorem splitLoop_collapse :
    ∀ (s token : Str), pipesOutsideQuotes (collapseState (none, false) token) s = true →
      Utils.splitLoop '|' (collapseGo (collapseState (none, false) token) s)
          (collapseSpaces token) =
        (Utils.splitLoop '|' s token).map collapseSpaces := by
  intro s
  induction s with
  | nil => intro token _; rfl
  | cons c cs ih =>
    intro token hp
    rw [pipesOutsideQuotes, Bool.and_eq_true] at hp
    obtain ⟨hp1, hp2⟩ := hp
    by_cases hc : c = '|'
    · subst hc
      have hq : (collapseState (none, false) token).1 = none := by
        simpa using hp1
      generalize collapseState (none, false) token = st at hq hp2 ⊢
      obtain ⟨q, run⟩ := st
      simp only at hq
      subst hq
      rw [collapseStep_pipe] at hp2
      rw [collapseGo, collapseStep_pipe]
      simp only [List.singleton_append]
      rw [Utils.splitLoop, if_pos rfl, Utils.splitLoop, if_pos rfl, List.map_cons]
      congr 1
      have hemp := collapseSpaces_isEmpty cs
      unfold collapseSpaces at hemp
      rw [hemp]
      by_cases he : cs.isEmpty = true
      · rw [if_pos he, if_pos he]; rfl
      · rw [if_neg he, if_neg he]
        exact ih [] hp2
    · have hstate : collapseState (none, false) (token ++ [c]) =
          (collapseStep (collapseState (none, false) token) c).1 := by
        simp [collapseState, List.foldl_append]
      have htok : collapseSpaces (token ++ [c]) =
          collapseSpaces token ++ (collapseStep (collapseState (none, false) token) c).2 := by
        unfold collapseSpaces
        rw [collapseGo_append, collapseGo]
        simp [collapseGo]
      rw [collapseGo, splitLoop_prefix '|' _ (collapseStep_no_pipe _ c hc), ← htok, ← hstate,
        Utils.splitLoop, if_neg hc]
      exact ih (token ++ [c]) (by rw [hstate]; exact hp2)

theorem split_collapse (line : Str) (hp : pipesOutsideQuotes (none, false) line = true) :
    Utils.split (collapseSpaces line) '|' = (Utils.split line '|').map collapseSpaces := by
  cases line with
  | nil => rfl
  | cons c cs =>
    have hne : (collapseSpaces (c :: cs)).isEmpty = false := by
      rw [collapseSpaces_isEmpty]; rfl
    have h := splitLoop_collapse (c :: cs) [] hp
    cases hx : collapseSpaces (c :: cs) with
    | nil => rw [hx] at hne; simp at hne
    | cons x xs =>
      rw [Utils.split, Utils.split, ← hx]
      exact h

/-- C20, as amended: for every line in which no `|` lies inside quotes,
replacing each run of spaces and tabs outside quotes by a single space does not
change the pipeline returned by `parse`. -/
theorem parse_collapse_whitespace (env : Env) (line : Str)
    (hp : pipesOutsideQuotes (none, false) line = true) :
    parse env (collapseSpaces line) = parse env line := by
  rw [parse_eq_hoist, parse_eq_hoist]
  congr 2
  unfold segmentTokens
  rw [split_collapse line hp, List.map_map]
  congr 1
  apply List.map_congr_left
  intro part _
  simp only [Function.comp_apply]
  rw [trim_collapse, tokenize_collapse]

/-- C20 at a line with runs of spaces and tabs outside quotes and a run
inside quotes. -/
theorem parse_collapse_whitespace_witness :
    collapseSpaces ("  echo \t ".toList ++ dquote :: ("a  b".toList ++ dquote ::
        "  |  wc   -l ".toList)) =
      " echo ".toList ++ dquote :: ("a  b".toList ++ dquote :: " | wc -l ".toList) ∧
    parse emptyEnv (" echo ".toList ++ dquote :: ("a  b".toList ++ dquote ::
        " | wc -l ".toList)) =
      parse emptyEnv ("  echo \t ".toList ++ dquote :: ("a  b".toList ++ dquote ::
        "  |  wc   -l ".toList)) := by
  have h := parse_collapse_whitespace emptyEnv
    ("  echo \t ".toList ++ dquote :: ("a  b".toList ++ dquote :: "  |  wc   -l ".toList))
    (by decide)
  have e : collapseSpaces ("  echo \t ".toList ++ dquote :: ("a  b".toList ++ dquote ::
        "  |  wc   -l ".toList)) =
      " echo ".toList ++ dquote :: ("a  b".toList ++ dquote :: " | wc -l ".toList) := by
    decide
  exact ⟨e, by rw [← e]; exact h⟩

/-- C20 fails as stated: in `x "|"  a  b` the run of spaces after the closing
quote lies outside quotes, but `parse` splits at the quoted `|` first and the
second piece is tokenized as one unterminated quoted word, spaces included. -/
theorem parse_collapse_counterexample :
    collapseSpaces ("x ".toList ++ dquote :: '|' :: dquote :: "  a  b".toList) =
        "x ".toList ++ dquote :: '|' :: dquote :: " a b".toList ∧
      parse emptyEnv ("x ".toList ++ dquote :: '|' :: dquote :: "  a  b".toList) =
        { commands := [{ program := "x".toList }, { program := "  a  b".toList }] } ∧
      parse emptyEnv ("x ".toList ++ dquote :: '|' :: dquote :: " a b".toList) =
        { commands := [{ program := "x".toList }, { program := " a b".toList }] } := by
  decide

/-! ## Exit statuses and fork failure -/

/-- C22: for the child that `execute_external_program` creates when `fork`
succeeds, `wait_for_process` returns 127 when the child's `execvp` fails, and 1
when one of its `dup2` calls fails; for a child that runs its program and
terminates, it returns the exit code of a normal exit and 128 plus the signal
number of a death by signal, and 1 when `waitpid` fails. It also returns 1 for
a process id that names no child. The status `execute_command` returns for an
external command in the foreground without redirection is this value. -/
theorem wait_for_process_encoding (os : OS) (w : World) (cmd : Command) (i o : Int)
    (hf : (os.fork w.n_fork).isSome = true) :
    ((childSetup w.fds i o).2 = true → os.exec_ok cmd.program = false →
        (wait_for_process os (execute_external_program os w cmd i o).1
          (execute_external_program os w cmd i o).2).2 = some 127) ∧
      ((childSetup w.fds i o).2 = false →
        (wait_for_process os (execute_external_program os w cmd i o).1
          (execute_external_program os w cmd i o).2).2 = some 1) ∧
      ((childSetup w.fds i o).2 = true → os.exec_ok cmd.program = true →
        sys_waitpid os (execute_external_program os w cmd i o).1
          (execute_external_program os w cmd i o).2 ≠ none →
        (∀ code, os.wait (execute_external_program os w cmd i o).2 = .exited code →
          (wait_for_process os (execute_external_program os w cmd i o).1
            (execute_external_program os w cmd i o).2).2 = some (code : Int)) ∧
        (∀ sig, os.wait (execute_external_program os w cmd i o).2 = .signaled sig →
          (wait_for_process os (execute_external_program os w cmd i o).1
            (execute_external_program os w cmd i o).2).2 = some (128 + (sig : Int))) ∧
        (os.wait (execute_external_program os w cmd i o).2 = .error →
          (wait_for_process os (execute_external_program os w cmd i o).1
            (execute_external_program os w cmd i o).2).2 = some 1)) ∧
      (∀ (w0 : World) (pid : Int), childOf w0 pid = none →
        (wait_for_process os w0 pid).2 = some 1) ∧
      (∀ h : Handlers, cmd.program ≠ [] → is_builtin cmd.program = false →
        cmd.input_file = none → cmd.output_file = none → cmd.run_in_background = false →
        (execute_command os h cmd w).2 =
          (wait_for_process os (execute_external_program os w cmd (-1) (-1)).1
            (execute_external_program os w cmd (-1) (-1)).2).2) := by
  obtain ⟨e1, e2⟩ := execute_external_program_ok os w cmd i o hf
  have hchild : childOf (execute_external_program os w cmd i o).1 (forkPid os w.n_fork) =
      some { pid := forkPid os w.n_fork, program := cmd.program, arguments := cmd.arguments,
             fds := (childSetup w.fds i o).1, exec_reached := (childSetup w.fds i o).2 } := by
    rw [e1]
    simp [childOf]
  have hpid : (execute_external_program os w cmd i o).2 = forkPid os w.n_fork := by rw [e1]
  rw [hpid]
  refine ⟨?_, ?_, ?_, ?_, ?_⟩
  · intro hs he
    simp [wait_for_process, sys_waitpid, Child.ownExit, hchild, hs, he]
  · intro hs
    simp [wait_for_process, sys_waitpid, Child.ownExit, hchild, hs]
  · intro hs he hret
    have hw : sys_waitpid os (execute_external_program os w cmd i o).1 (forkPid os w.n_fork) =
        some (os.wait (forkPid os w.n_fork)) := by
      unfold sys_waitpid at hret ⊢
      rw [hchild] at hret ⊢
      simp only [Child.ownExit, hs, he, Bool.not_true, Bool.false_eq_true, if_false]
        at hret ⊢
      split
      · rename_i hb
        rw [if_pos hb] at hret
        exact absurd rfl hret
      · rfl
    refine ⟨?_, ?_, ?_⟩
    · intro code hc
      simp [wait_for_process, hw, hc]
    · intro sig hc
      simp [wait_for_process, hw, hc]
    · intro hc
      simp [wait_for_process, hw, hc]
  · intro w0 pid hnone
    simp [wait_for_process, sys_waitpid, hnone]
  · intro h hne hb hin hout hbg
    obtain ⟨g1, g2⟩ := execute_external_program_ok os w cmd (-1) (-1) hf
    have hemp : cmd.program.isEmpty = false := by
      cases hp : cmd.program with
      | nil => exact absurd hp hne
      | cons _ _ => rfl
    have hnot : ¬ forkPid os w.n_fork < 0 := by omega
    simp [execute_command, setup_redirections, hemp, hb, hin, hout, hbg, g1, hnot]

/-- C22 at a program that `execvp` does not find, whose child is reported as
127, and at a child killed by signal 9, reported as 137. -/
theorem wait_for_process_encoding_witness :
    (wait_for_process noExecOS
        (execute_external_program noExecOS {} { program := "frobnicate".toList } (-1) (-1)).1
        (execute_external_program noExecOS {} { program := "frobnicate".toList } (-1) (-1)).2).2 =
        some 127 ∧
      (execute_command noExecOS noHandlers { program := "frobnicate".toList } {}).2 =
        some 127 ∧
      (wait_for_process { okOS with wait := fun _ => .signaled 9 }
        (execute_external_program { okOS with wait := fun _ => .signaled 9 } {}
          { program := "sleep".toList } (-1) (-1)).1
        (execute_external_program { okOS with wait := fun _ => .signaled 9 } {}
          { program := "sleep".toList } (-1) (-1)).2).2 = some 137 :=
  ⟨(wait_for_process_encoding noExecOS {} { program := "frobnicate".toList } (-1) (-1) rfl).1
      rfl rfl,
    ((wait_for_process_encoding noExecOS {} { program := "frobnicate".toList } (-1) (-1)
      rfl).2.2.2.2 noHandlers (by decide) (by decide) rfl rfl rfl).trans
      ((wait_for_process_encoding noExecOS {} { program := "frobnicate".toList } (-1) (-1)
        rfl).1 rfl rfl),
    ((wait_for_process_encoding { okOS with wait := fun _ => .signaled 9 } {}
      { program := "sleep".toList } (-1) (-1) rfl).2.2.1 (by decide) (by decide)
      (by decide)).2.1 9 rfl⟩

/-- C23, evaluated on the code: when every `fork` fails, the single command
`ls` returns 1, but the pipeline `ls | wc` returns 0: `create_pipeline` drops the
failed process id and returns the initial `last_exit_code`. When only the first
`fork` fails, `ls | date` returns the status 2 of `date`, and `ls | wc` waits
for `wc` without end. -/
theorem pipeline_fork_failure_returns_zero :
    (execute_pipeline noForkOS noHandlers (parse emptyEnv "ls".toList) {}).2 = some 1 ∧
      (execute_pipeline noForkOS noHandlers (parse emptyEnv "ls | wc".toList) {}).2 = some 0 ∧
      (execute_pipeline noForkOS noHandlers (parse emptyEnv "ls | wc".toList) {}).1.n_fork = 2 ∧
      (execute_pipeline noForkOS noHandlers (parse emptyEnv "ls | wc".toList) {}).1.children =
        [] ∧
      (execute_pipeline { okOS with fork := fun k => if k = 0 then none else some 101 }
        noHandlers (parse emptyEnv "ls | date".toList) {}).2 = some 2 ∧
      (execute_pipeline { okOS with fork := fun k => if k = 0 then none else some 101 }
        noHandlers (parse emptyEnv "ls | wc".toList) {}).2 = none := by
  decide

/-! ## The `cd`, `export` and `unset` built-ins -/

/-- C24, evaluated on the code: from `/home/u` with `OLDPWD` unset, `cd /tmp`
with `chdir` succeeding and `getcwd` failing returns 1 although `OLDPWD` has
been set to `/home/u`; the tracked directory and `PWD` are not updated. When
`chdir` itself fails nothing changes, and when both calls succeed the built-in
returns 0 with `OLDPWD`, `PWD` and the tracked directory updated. -/
theorem cd_failure_after_chdir :
    Shell.get_environment_variable startShell "OLDPWD".toList = [] ∧
      (cmd_cd { chdir_ok := fun _ => true, getcwd := fun _ => none }
        ["/tmp".toList] startShell).2 = 1 ∧
      Shell.get_environment_variable
        (cmd_cd { chdir_ok := fun _ => true, getcwd := fun _ => none }
          ["/tmp".toList] startShell).1 "OLDPWD".toList = "/home/u".toList ∧
      (cmd_cd { chdir_ok := fun _ => true, getcwd := fun _ => none }
        ["/tmp".toList] startShell).1.current_directory = "/home/u".toList ∧
      (cmd_cd { chdir_ok := fun _ => false, getcwd := fun _ => none }
        ["/nonexistent".toList] startShell).2 = 1 ∧
      Shell.get_environment_variable
        (cmd_cd { chdir_ok := fun _ => false, getcwd := fun _ => none }
          ["/nonexistent".toList] startShell).1 "OLDPWD".toList = [] ∧
      (cmd_cd { chdir_ok := fun _ => true, getcwd := fun p => some p }
        ["-".toList] startShell).2 = 1 ∧
      (cmd_cd { chdir_ok := fun _ => true, getcwd := fun p => some p }
        ["/tmp".toList] startShell).2 = 0 ∧
      Shell.get_environment_variable
        (cmd_cd { chdir_ok := fun _ => true, getcwd := fun p => some p }
          ["/tmp".toList] startShell).1 "OLDPWD".toList = "/home/u".toList ∧
      Shell.get_environment_variable
        (cmd_cd { chdir_ok := fun _ => true, getcwd := fun p => some p }
          ["/tmp".toList] startShell).1 "PWD".toList = "/tmp".toList ∧
      (cmd_cd { chdir_ok := fun _ => true, getcwd := fun p => some p }
        ["/tmp".toList] startShell).1.current_directory = "/tmp".toList := by
  decide

/-- C27, evaluated on the code: after `export FOO=bar`,
`get_environment_variable(FOO)` is `bar`; after the following `unset FOO`, which
returns 0, it is still `bar`, because `cmd_unset` only calls `unsetenv`; the
expander, which reads the process environment, expands `$FOO` to nothing. -/
theorem unset_leaves_shell_variable :
    Shell.get_environment_variable (cmd_export ["FOO=bar".toList] startShell).1 "FOO".toList =
        "bar".toList ∧
      (cmd_unset ["FOO".toList] (cmd_export ["FOO=bar".toList] startShell).1).2 = 0 ∧
      Shell.get_environment_variable
        (cmd_unset ["FOO".toList] (cmd_export ["FOO=bar".toList] startShell).1).1 "FOO".toList =
          "bar".toList ∧
      expand_variables (cmd_export ["FOO=bar".toList] startShell).1.process_env "$FOO".toList =
        "bar".toList ∧
      expand_variables
        (cmd_unset ["FOO".toList] (cmd_export ["FOO=bar".toList] startShell).1).1.process_env
          "$FOO".toList = [] := by
  decide

theorem indexOf?_eq_takeWhile (c : Char) (a : Str) (h : c ∈ a) :
    a.indexOf? c = some (a.takeWhile (fun x => x != c)).length := by
  induction a with
  | nil => simp at h
  | cons x xs ih =>
    by_cases hx : x = c
    · subst hx
      simp [List.indexOf?, List.findIdx?_cons, List.takeWhile_cons]
    · have hmem : c ∈ xs := by
        rcases List.mem_cons.1 h with h | h
        · exact absurd h.symm hx
        · exact h
      have hb : (x == c) = false := by simpa using hx
      have hb' : (x != c) = true := by simpa using hx
      have := ih hmem
      simp only [List.indexOf?] at this
      simp only [List.indexOf?, List.findIdx?_cons, hb, Bool.false_eq_true, if_false,
        List.findIdx?_succ, this, List.takeWhile_cons, hb', if_true, List.length_cons,
        Option.map_some']

theorem indexOf?_eq_none_of_not_mem (c : Char) (a : Str) (h : c ∉ a) : a.indexOf? c = none := by
  unfold List.indexOf?
  rw [List.findIdx?_eq_none_iff]
  intro x hx
  simp only [beq_eq_false_iff_ne, ne_eq]
  rintro rfl
  exact h hx

theorem get_after_set (sh : ShellState) (name value n : Str) :
    Shell.get_environment_variable (Shell.set_environment_variable sh name value) n =
      if n = name then value else Shell.get_environment_variable sh n := by
  unfold Shell.get_environment_variable Shell.set_environment_variable
  by_cases h : n = name
  · simp [h]
  · have hp : setenv sh.process_env name value n = sh.process_env n := by
      unfold setenv
      split
      · rfl
      · simp [h]
    simp only [h, if_false, hp]

/-- The loop of `cmd_export` on well-formed arguments. -/
theorem exportLoop_ok :
    ∀ (args : List Str) (sh : ShellState), (∀ a ∈ args, '=' ∈ a) →
      (exportLoop args sh).2 = 0 ∧
      ∀ name, Shell.get_environment_variable (exportLoop args sh).1 name =
        match exportedValue args name with
        | some value => value
        | none => Shell.get_environment_variable sh name := by
  intro args
  induction args with
  | nil => intro sh _; exact ⟨rfl, fun _ => rfl⟩
  | cons a rest ih =>
    intro sh h
    have ha : '=' ∈ a := h a (List.mem_cons_self _ _)
    rw [exportLoop, indexOf?_eq_takeWhile '=' a ha]
    simp only
    have hih := ih (Shell.set_environment_variable sh
      (a.take (a.takeWhile (fun x => x != '=')).length)
      (a.drop ((a.takeWhile (fun x => x != '=')).length + 1)))
      (fun x hx => h x (List.mem_cons_of_mem _ hx))
    refine ⟨hih.1, fun name => ?_⟩
    rw [hih.2 name, exportedValue]
    cases exportedValue rest name with
    | some v => rfl
    | none =>
      simp only
      rw [get_after_set, take_length_takeWhile, ← List.drop_drop, drop_length_takeWhile]
      by_cases hn : a.takeWhile (fun x => x != '=') = name
      · rw [if_pos hn, if_pos hn.symm]
      · rw [if_neg hn, if_neg (fun e => hn e.symm)]

theorem exportLoop_malformed :
    ∀ (args : List Str) (sh : ShellState), (∃ a ∈ args, '=' ∉ a) → (exportLoop args sh).2 = 1 := by
  intro args
  induction args with
  | nil => intro sh h; obtain ⟨a, ha, _⟩ := h; simp at ha
  | cons a rest ih =>
    intro sh h
    rw [exportLoop]
    by_cases ha : '=' ∈ a
    · rw [indexOf?_eq_takeWhile '=' a ha]
      simp only
      apply ih
      obtain ⟨b, hb, hnb⟩ := h
      rcases List.mem_cons.1 hb with e | e
      · subst e; exact absurd ha hnb
      · exact ⟨b, e, hnb⟩
    · rw [indexOf?_eq_none_of_not_mem '=' a ha]

/-- C25: for a non-empty argument list of `export`, if every argument holds
an `=`, the built-in returns 0 and afterwards `get_environment_variable` gives,
for every name an argument sets, the VALUE of the last argument with that NAME
(each argument split at its first `=`), and for every other name what it gave
before; if some argument holds no `=`, the built-in returns 1. -/
theorem export_sets_variables (args : List Str) (sh : ShellState) (hne : args ≠ []) :
    ((∀ a ∈ args, '=' ∈ a) →
      (cmd_export args sh).2 = 0 ∧
      ∀ name, Shell.get_environment_variable (cmd_export args sh).1 name =
        match exportedValue args name with
        | some value => value
        | none => Shell.get_environment_variable sh name) ∧
    ((∃ a ∈ args, '=' ∉ a) → (cmd_export args sh).2 = 1) := by
  have he : args.isEmpty = false := by
    cases args with
    | nil => exact absurd rfl hne
    | cons _ _ => rfl
  unfold cmd_export
  simp only [he, Bool.false_eq_true, if_false]
  exact ⟨exportLoop_ok args sh, exportLoop_malformed args sh⟩

/-- C25 at `export A=1 B=x=y A=2` and at `export A=1 B`. -/
theorem export_sets_variables_witness :
    (cmd_export ["A=1".toList, "B=x=y".toList, "A=2".toList] startShell).2 = 0 ∧
      Shell.get_environment_variable
        (cmd_export ["A=1".toList, "B=x=y".toList, "A=2".toList] startShell).1 "A".toList =
          "2".toList ∧
      Shell.get_environment_variable
        (cmd_export ["A=1".toList, "B=x=y".toList, "A=2".toList] startShell).1 "B".toList =
          "x=y".toList ∧
      (cmd_export ["A=1".toList, "B".toList] startShell).2 = 1 := by
  have h := export_sets_variables ["A=1".toList, "B=x=y".toList, "A=2".toList] startShell
    (by simp)
  have h1 := h.1 (by decide)
  have h2 := (export_sets_variables ["A=1".toList, "B".toList] startShell (by simp)).2
    ⟨"B".toList, by simp, by decide⟩
  refine ⟨h1.1, ?_, ?_, h2⟩
  · rw [h1.2]; decide
  · rw [h1.2]; decide

/-! ## The reason given by the validator -/

theorem commands_in_order_mem :
    ∀ d, d ∈ CommandValidator.commands_in_order ↔ d ∈ CommandValidator.dangerous_commands := by
  intro d
  simp only [CommandValidator.commands_in_order, CommandValidator.dangerous_commands,
    List.mem_cons, List.mem_singleton, List.not_mem_nil, or_false]
  tauto

theorem patterns_in_order_mem :
    ∀ d, d ∈ CommandValidator.patterns_in_order ↔ d ∈ CommandValidator.dangerous_patterns := by
  intro d
  simp only [CommandValidator.patterns_in_order, CommandValidator.dangerous_patterns,
    List.mem_cons, List.mem_singleton, List.not_mem_nil, or_false]
  tauto

theorem reason_command_ne_safe (d : Str) :
    "Contains dangerous command: ".toList ++ d ≠ "Command appears safe".toList := by
  intro h
  have h2 : ("Contains dangerous command: ".toList ++ d).get? 2 = some 'n' := rfl
  rw [h] at h2
  exact absurd h2 (by decide)

theorem reason_pattern_ne_safe (d : Str) :
    "Contains dangerous pattern: ".toList ++ d ≠ "Command appears safe".toList := by
  intro h
  have h2 : ("Contains dangerous pattern: ".toList ++ d).get? 2 = some 'n' := rfl
  rw [h] at h2
  exact absurd h2 (by decide)

/-- C29: `get_danger_reason` returns `Command appears safe` exactly when
`is_safe` holds, and when `is_safe` fails the reason is `Contains dangerous
command: ` or `Contains dangerous pattern: ` followed by an entry of the
validator's lists that is a substring of the command. -/
theorem danger_reason_matches_is_safe (command : Str) :
    (CommandValidator.get_danger_reason command = "Command appears safe".toList ↔
        CommandValidator.is_safe command = true) ∧
      (CommandValidator.is_safe command = false →
        ∃ d, d ∈ CommandValidator.dangerous_commands ++ CommandValidator.dangerous_patterns ∧
          AIAssistant.contains command d = true ∧
          (CommandValidator.get_danger_reason command =
              "Contains dangerous command: ".toList ++ d ∨
            CommandValidator.get_danger_reason command =
              "Contains dangerous pattern: ".toList ++ d)) := by
  unfold CommandValidator.get_danger_reason
  cases h1 : CommandValidator.commands_in_order.find?
      (fun dangerous => AIAssistant.contains command dangerous) with
  | some d =>
    have hd := List.mem_of_find?_eq_some h1
    have hc := List.find?_some h1
    have hmem := (commands_in_order_mem d).1 hd
    have hun := validator_unsafe_of_entry command d (List.mem_append_left _ hmem) hc
    refine ⟨⟨fun h => absurd h (reason_command_ne_safe d), fun h => ?_⟩, fun _ => ?_⟩
    · rw [hun] at h; exact absurd h (by decide)
    · exact ⟨d, List.mem_append_left _ hmem, hc, Or.inl rfl⟩
  | none =>
    have hno1 : ∀ x ∈ CommandValidator.dangerous_commands,
        AIAssistant.contains command x = false := by
      intro x hx
      have := List.find?_eq_none.1 h1 x ((commands_in_order_mem x).2 hx)
      simpa using this
    cases h2 : CommandValidator.patterns_in_order.find?
        (fun pattern => AIAssistant.contains command pattern) with
    | some d =>
      have hd := List.mem_of_find?_eq_some h2
      have hc := List.find?_some h2
      have hmem := (patterns_in_order_mem d).1 hd
      have hun := validator_unsafe_of_entry command d (List.mem_append_right _ hmem) hc
      refine ⟨⟨fun h => absurd h (reason_pattern_ne_safe d), fun h => ?_⟩, fun _ => ?_⟩
      · rw [hun] at h; exact absurd h (by decide)
      · exact ⟨d, List.mem_append_right _ hmem, hc, Or.inr rfl⟩
    | none =>
      have hno2 : ∀ x ∈ CommandValidator.dangerous_patterns,
          AIAssistant.contains command x = false := by
        intro x hx
        have := List.find?_eq_none.1 h2 x ((patterns_in_order_mem x).2 hx)
        simpa using this
      have hsafe : CommandValidator.is_safe command = true := by
        by_contra hns
        have hns' : CommandValidator.is_safe command = false := by simpa using hns
        obtain ⟨d, hd, hc⟩ := (validator_unsafe_iff command).1 hns'
        rcases List.mem_append.1 hd with hd | hd
        · rw [hno1 d hd] at hc; exact absurd hc (by decide)
        · rw [hno2 d hd] at hc; exact absurd hc (by decide)
      refine ⟨⟨fun _ => hsafe, fun _ => rfl⟩, fun h => ?_⟩
      rw [hsafe] at h
      exact absurd h (by decide)

/-- C29 at `sudo mkfs.ext4 /dev/sda`, which `is_safe` rejects: the reason
names `mkfs`. -/
theorem danger_reason_matches_is_safe_witness :
    CommandValidator.is_safe "sudo mkfs.ext4 /dev/sda".toList = false ∧
      CommandValidator.get_danger_reason "sudo mkfs.ext4 /dev/sda".toList =
        "Contains dangerous command: mkfs".toList ∧
      ∃ d, d ∈ CommandValidator.dangerous_commands ++ CommandValidator.dangerous_patterns ∧
        AIAssistant.contains "sudo mkfs.ext4 /dev/sda".toList d = true ∧
        (CommandValidator.get_danger_reason "sudo mkfs.ext4 /dev/sda".toList =
            "Contains dangerous command: ".toList ++ d ∨
          CommandValidator.get_danger_reason "sudo mkfs.ext4 /dev/sda".toList =
            "Contains dangerous pattern: ".toList ++ d) :=
  ⟨by decide!, by decide!,
    (danger_reason_matches_is_safe "sudo mkfs.ext4 /dev/sda".toList).2 (by decide!)⟩

/-! ## Termination of the expansion loop -/

theorem indexOf?_lt_length (c : Char) :
    ∀ (l : Str) (k : Nat), l.indexOf? c = some k → k < l.length := by
  intro l
  induction l with
  | nil => intro k h; simp [List.indexOf?] at h
  | cons x xs ih =>
    intro k h
    simp only [List.indexOf?, List.findIdx?_cons, List.findIdx?_succ] at h
    by_cases hx : (x == c) = true
    · simp only [hx, if_true, Option.some.injEq] at h
      subst h; simp
    · simp only [hx, Bool.false_eq_true, if_false] at h
      cases hk : List.findIdx? (fun x => x == c) xs with
      | none => rw [hk] at h; simp at h
      | some j =>
        rw [hk] at h
        simp only [Option.map_some', Option.some.injEq] at h
        subst h
        have := ih j (by simpa [List.indexOf?] using hk)
        simp; omega

theorem findFrom_bounds (c : Char) (s : Str) (pos p : Nat) (h : findFrom c s pos = some p) :
    pos ≤ p ∧ p < s.length := by
  unfold findFrom at h
  cases hk : (s.drop pos).indexOf? c with
  | none => rw [hk] at h; simp at h
  | some k =>
    rw [hk] at h
    simp only [Option.some.injEq] at h
    subst h
    have := indexOf?_lt_length c _ k hk
    rw [List.length_drop] at this
    omega

theorem scanName_bounds (s : Str) (start : Nat) (h : start ≤ s.length) :
    start ≤ scanName s start ∧ scanName s start ≤ s.length := by
  unfold scanName
  have h1 : ((s.drop start).takeWhile (fun c => isalnum c || c == '_')).length ≤
      (s.drop start).length := (List.takeWhile_sublist _).length_le
  rw [List.length_drop] at h1
  omega

/-- One test of the loop of `expand_variables`: either no `$` is left and the
loop returns the working string, or the loop goes on from a state in which the
scan position is within the string and strictly closer to its end. -/
theorem expandLoop_step (env : Env) (fuel : Nat) (result : Str) (pos : Nat) :
    (findFrom '$' result pos = none ∧ expandLoop env (fuel + 1) result pos = some result) ∨
      ∃ (result' : Str) (pos' : Nat),
        expandLoop env (fuel + 1) result pos = expandLoop env fuel result' pos' ∧
        pos' ≤ result'.length ∧ result'.length - pos' < result.length - pos := by
  cases hf : findFrom '$' result pos with
  | none => left; exact ⟨rfl, by rw [expandLoop, hf]⟩
  | some p =>
    right
    obtain ⟨hp1, hp2⟩ := findFrom_bounds '$' result pos p hf
    obtain ⟨hs1, hs2⟩ := scanName_bounds result (p + 1) (by omega)
    by_cases he : scanName result (p + 1) > p + 1
    · refine ⟨replace result p (scanName result (p + 1) - p)
          ((env ((result.drop (p + 1)).take (scanName result (p + 1) - (p + 1)))).getD []),
        p + ((env ((result.drop (p + 1)).take (scanName result (p + 1) - (p + 1)))).getD []).length,
        ?_, ?_, ?_⟩
      · rw [expandLoop, hf]
        simp only [if_pos he]
      · simp only [replace, List.length_append, List.length_take, List.length_drop]
        omega
      · simp only [replace, List.length_append, List.length_take, List.length_drop]
        omega
    · refine ⟨result, p + 1, ?_, by omega, by omega⟩
      rw [expandLoop, hf]
      simp only [if_neg he]

theorem expandLoop_total (env : Env) :
    ∀ (fuel : Nat) (result : Str) (pos : Nat), result.length - pos < fuel →
      ∃ r, expandLoop env fuel result pos = some r := by
  intro fuel
  induction fuel with
  | zero => intro result pos h; omega
  | succ f ih =>
    intro result pos h
    rcases expandLoop_step env f result pos with ⟨_, h2⟩ | ⟨result', pos', e, _, hlt⟩
    · exact ⟨result, h2⟩
    · rw [e]
      exact ih result' pos' (by omega)

/-- C28: the loop of `expand_variables` ends for every token and every
environment: each iteration that finds a `$` leaves the scan position strictly
closer to the end of the working string, so the loop returns within
`token.length + 1` tests, whatever the values of the variables. -/
theorem expand_variables_terminates (env : Env) :
    (∀ token : Str, ∃ r, expandLoop env (token.length + 1) token 0 = some r ∧
      expand_variables env token = r) ∧
    (∀ (fuel : Nat) (result : Str) (pos : Nat), result.length - pos < fuel →
      ∃ r, expandLoop env fuel result pos = some r) ∧
    (∀ (fuel : Nat) (result : Str) (pos : Nat),
      (findFrom '$' result pos = none ∧ expandLoop env (fuel + 1) result pos = some result) ∨
      ∃ (result' : Str) (pos' : Nat),
        expandLoop env (fuel + 1) result pos = expandLoop env fuel result' pos' ∧
        pos' ≤ result'.length ∧ result'.length - pos' < result.length - pos) := by
  refine ⟨fun token => ?_, expandLoop_total env, expandLoop_step env⟩
  obtain ⟨r, hr⟩ := expandLoop_total env (token.length + 1) token 0 (by omega)
  exact ⟨r, hr, by rw [expand_variables, hr]; rfl⟩

/-- C28 at the token `$A$B` with `A` set to `$A` and `B` unset: the loop
returns, and the inserted `$A` is not expanded again. -/
theorem expand_variables_terminates_witness :
    (∃ r, expandLoop selfEnv 5 "$A$B".toList 0 = some r) ∧
      expand_variables selfEnv "$A$B".toList = "$A".toList :=
  ⟨(expand_variables_terminates selfEnv).2.1 5 "$A$B".toList 0 (by decide), by decide⟩

/-! ## The characters of the tokens -/

theorem tokFinish_flatten (env : Env) (st : TokState) (h : '$' ∉ st.current_token) :
    (tokFinish env st).flatten = st.tokens.flatten ++ st.current_token := by
  unfold tokFinish
  by_cases hc : st.current_token = []
  · simp [hc]
  · simp [hc, expand_variables_eq_self env _ h]

/-- From matching states, the tokens that `tokenize` ends with hold, in
order, the characters already collected followed by the stripped rest of the
input. -/
theorem foldl_tokStep_flatten (env : Env) :
    ∀ (l : Str) (q : Option Char) (st : TokState),
      (∀ qc, q = some qc → st.in_quotes = true ∧ st.quote_char = qc) →
      (q = none → st.in_quotes = false) →
      '$' ∉ st.current_token → '$' ∉ l →
      (tokFinish env (l.foldl (tokStep env) st)).flatten =
        st.tokens.flatten ++ st.current_token ++ stripText q l := by
  intro l
  induction l with
  | nil =>
    intro q st _ _ hcur _
    cases q <;> simp [tokFinish_flatten env st hcur, stripText]
  | cons c cs ih =>
    intro q st h1 h2 hcur hl
    have hcs : '$' ∉ cs := fun h => hl (List.mem_cons_of_mem _ h)
    have hc : c ≠ '$' := fun h => hl (h ▸ List.mem_cons_self _ _)
    have hcur' : '$' ∉ st.current_token ++ [c] := by
      intro h
      rcases List.mem_append.1 h with h | h
      · exact hcur h
      · simp only [List.mem_singleton] at h
        exact hc h.symm
    rw [List.foldl_cons]
    cases q with
    | some qc =>
      obtain ⟨hq1, hq2⟩ := h1 qc rfl
      by_cases hcq : c = qc
      · have hstep : tokStep env st c =
            { st with in_quotes := false, quote_char := Char.ofNat 0 } := by
          simp [tokStep, hq1, hq2, hcq]
        rw [hstep, stripText, if_pos hcq,
          ih none { st with in_quotes := false, quote_char := Char.ofNat 0 }
            (by intro _ h; simp at h) (fun _ => rfl) hcur hcs]
      · have hstep : tokStep env st c = { st with current_token := st.current_token ++ [c] } := by
          simp [tokStep, hq1, hq2, hcq]
        rw [hstep, stripText, if_neg hcq,
          ih (some qc) { st with current_token := st.current_token ++ [c] }
            (by intro q' hq'; cases hq'; exact ⟨hq1, hq2⟩) (by intro h; simp at h) hcur' hcs]
        simp
    | none =>
      have hn := h2 rfl
      by_cases hquote : c = dquote ∨ c = squote
      · rw [tokStep_open_quote env st c hn hquote, stripText, if_pos hquote,
          ih (some c) { st with in_quotes := true, quote_char := c }
            (by intro q' hq'; cases hq'; exact ⟨rfl, rfl⟩) (by intro h; simp at h) hcur hcs]
      · by_cases hsp : isspace c = true
        · rw [stripText, if_neg hquote, if_pos hsp]
          by_cases he : st.current_token = []
          · rw [tokStep_isspace_skip env st c hn he hsp,
              ih none st (by intro _ h; simp at h) (fun _ => hn) hcur hcs]
          · rw [tokStep_isspace_flush env st c hn he hsp,
              ih none
                { st with tokens := st.tokens ++ [expand_variables env st.current_token],
                          current_token := [] }
                (by intro _ h; simp at h) (fun _ => hn) (by simp) hcs]
            simp [expand_variables_eq_self env _ hcur]
        · rw [stripText, if_neg hquote, if_neg hsp]
          have hsp' : isspace c = false := by simpa using hsp
          by_cases h4 : is_special_char c = true
          · by_cases he : st.current_token = []
            · have hstep : tokStep env st c = { st with tokens := st.tokens ++ [[c]] } := by
                simp [tokStep, hn, hquote, hsp', h4, he]
              rw [hstep, ih none { st with tokens := st.tokens ++ [[c]] }
                (by intro _ h; simp at h) (fun _ => hn) hcur hcs]
              simp [he]
            · have hstep : tokStep env st c =
                  { st with
                    tokens := st.tokens ++ [expand_variables env st.current_token] ++ [[c]],
                    current_token := [] } := by
                simp [tokStep, hn, hquote, hsp', h4, he]
              rw [hstep, ih none
                { st with
                  tokens := st.tokens ++ [expand_variables env st.current_token] ++ [[c]],
                  current_token := [] }
                (by intro _ h; simp at h) (fun _ => hn) (by simp) hcs]
              simp [expand_variables_eq_self env _ hcur]
          · have hstep : tokStep env st c =
                { st with current_token := st.current_token ++ [c] } := by
              simp [tokStep, hn, hquote, hsp', h4]
            rw [hstep, ih none { st with current_token := st.current_token ++ [c] }
              (by intro _ h; simp at h) (fun _ => hn) hcur' hcs]
            simp

/-- C30: for every string without `$`, the tokens of `tokenize`, put
together in order, are the string with every quote delimiter and every
whitespace character outside quotes removed (an unterminated quote being closed
by the end of the input), and no token is empty. -/
theorem tokens_concat_eq_stripped (env : Env) (s : Str) (h : '$' ∉ s) :
    (tokenize env s).flatten = stripText none s ∧ ∀ t ∈ tokenize env s, t ≠ [] := by
  constructor
  · unfold tokenize
    rw [foldl_tokStep_flatten env s none {} (by intro _ hq; simp at hq) (fun _ => rfl)
      (by simp) h]
    simp
  · intro t ht
    rcases tokenize_tokens env s t ht with ⟨c, hc⟩ | ⟨w, hw, hsub, he⟩
    · rw [hc]; simp
    · rw [he, expand_variables_eq_self env w (fun hd => h (hsub _ hd))]
      exact hw

/-- C30 at `ls  -l "a b"|wc 'x` (two spaces, a quoted word, an unterminated
quote). -/
theorem tokens_concat_eq_stripped_witness :
    tokenize emptyEnv ("ls  -l ".toList ++ dquote :: ("a b".toList ++ dquote ::
        ("|wc ".toList ++ squote :: "x y".toList))) =
      ["ls".toList, "-l".toList, "a b".toList, "|".toList, "wc".toList, "x y".toList] ∧
    (tokenize emptyEnv ("ls  -l ".toList ++ dquote :: ("a b".toList ++ dquote ::
        ("|wc ".toList ++ squote :: "x y".toList)))).flatten = "ls-la b|wcx y".toList := by
  have h := (tokens_concat_eq_stripped emptyEnv ("ls  -l ".toList ++ dquote ::
    ("a b".toList ++ dquote :: ("|wc ".toList ++ squote :: "x y".toList))) (by decide)).1
  refine ⟨by decide, h.trans (by decide)⟩

/-! ## Built-ins inside a pipeline -/

/-- C26, evaluated on the code: in a pipeline of `N ≥ 2` commands whose pipes
are created and whose forks succeed, no handler of a built-in is invoked (the
result is the same for every choice of handlers, and the shell writes nothing),
a child is forked for each command that is not a built-in and for no other, in
left-to-right order, and nothing is put on the background list; the call
returns exactly when the wait for each of these children returns, and the
status is then that of the last of them (0 when there is none). But when the
shell has descriptors 0 and 1 open (each descriptor once in its table), the
children get distinct process ids, and an external command after the first is
found by `execvp` and reads its standard input to the end, the call never
returns: `ls | echo hi | wc` does not, the child of `wc` holding the write end of
the pipe it reads. -/
theorem pipeline_skips_builtins :
    (∀ (os : OS) (h : Handlers) (p : Pipeline) (w : World),
      2 ≤ p.commands.length →
      (∀ k, k < p.commands.length - 1 → os.pipe_ok (w.n_pipe + k) = true) →
      (∀ i, i < (externalCommands p.commands).length →
        (os.fork (w.n_fork + i)).isSome = true) →
      (∀ h' : Handlers, execute_pipeline os h' p w = execute_pipeline os h p w) ∧
        (execute_pipeline os h p w).1.out = w.out ∧
        (execute_pipeline os h p w).1.background_processes = w.background_processes ∧
        (execute_pipeline os h p w).1.children.map (fun c => (c.program, c.arguments)) =
          w.children.map (fun c => (c.program, c.arguments)) ++
            (externalCommands p.commands).map (fun c => (c.program, c.arguments)) ∧
        (execute_pipeline os h p w).1.children.map Child.pid =
          w.children.map Child.pid ++
            spawnedPids os w.n_fork (externalCommands p.commands).length ∧
        ((execute_pipeline os h p w).2 = none ↔
          ∃ pid ∈ spawnedPids os w.n_fork (externalCommands p.commands).length,
            sys_waitpid os (execute_pipeline os h p w).1 pid = none) ∧
        ((execute_pipeline os h p w).2 ≠ none →
          (execute_pipeline os h p w).1.waited =
              w.waited ++ spawnedPids os w.n_fork (externalCommands p.commands).length ∧
            (execute_pipeline os h p w).2 =
              (match (externalCommands p.commands).length with
                | 0 => some 0
                | n + 1 =>
                  (wait_for_process os (execute_pipeline os h p w).1
                    (forkPid os (w.n_fork + n))).2)) ∧
        ((∀ c ∈ externalCommands p.commands,
            os.reads_stdin c.program c.arguments = false) →
          (execute_pipeline os h p w).2 ≠ none) ∧
        ((∀ i j, i < (externalCommands p.commands).length →
            j < (externalCommands p.commands).length →
            forkPid os (w.n_fork + i) = forkPid os (w.n_fork + j) → i = j) →
          (w.fds.map Prod.fst).Nodup → isOpen w.fds 0 = true → isOpen w.fds 1 = true →
          (∃ c ∈ p.commands.tail, is_builtin c.program = false ∧
            os.exec_ok c.program = true ∧ os.reads_stdin c.program c.arguments = true) →
          (execute_pipeline os h p w).2 = none)) ∧
      (execute_pipeline okOS noHandlers (parse emptyEnv "ls | echo hi | wc".toList) {}).2 =
        none ∧
      (execute_pipeline okOS noHandlers
        (parse emptyEnv "ls | echo hi | wc".toList) {}).1.children.map
          (fun c => (c.pid, c.program, c.starved)) =
        [(101, "ls".toList, false), (102, "wc".toList, true)] ∧
      (execute_pipeline okOS noHandlers (parse emptyEnv "ls | echo hi | wc".toList) {}).1.out =
        [] ∧
      (execute_pipeline okOS noHandlers (parse emptyEnv "ls | echo hi | wc".toList) {}).1.waited =
        [101, 102] := by
  refine ⟨?_, by decide, by decide, by decide, by decide⟩
  intro os h p w hN hpipe hfork
  obtain ⟨⟨created, k1, k2, k3⟩, k4, k5, k6, k7⟩ := create_pipeline_spec os p w hpipe hfork
  have hex : ∀ h' : Handlers, execute_pipeline os h' p w = create_pipeline os p w :=
    fun h' => execute_pipeline_eq_create os h' p w hN
  have hiff : (create_pipeline os p w).2 = none ↔
      ∃ pid ∈ spawnedPids os w.n_fork (externalCommands p.commands).length,
        sys_waitpid os (create_pipeline os p w).1 pid = none := by
    constructor
    · intro hnone
      by_contra hno
      exact (k6 (fun pid hpid hb => hno ⟨pid, hpid, hb⟩)).2.2 hnone
    · exact k7
  refine ⟨fun h' => by rw [hex h', hex h], ?_⟩
  rw [hex h]
  refine ⟨k4, k5, by rw [k1, List.map_append, k3], by rw [k1, List.map_append, k2], hiff,
    ?_, ?_, ?_⟩
  · intro hsome
    have hret : ∀ pid ∈ spawnedPids os w.n_fork (externalCommands p.commands).length,
        sys_waitpid os (create_pipeline os p w).1 pid ≠ none :=
      fun pid hpid hb => hsome (hiff.2 ⟨pid, hpid, hb⟩)
    exact ⟨(k6 hret).1, (k6 hret).2.1⟩
  · intro hread
    exact (k6 (create_pipeline_waits_return os p w hpipe hfork hread)).2.2
  · intro hpid hu h0 h1 hreader
    exact create_pipeline_blocks os p w hN hpipe hfork hpid hu h0 h1 hreader

/-- C26 (general part) at `ls | echo hi | date`: two children, `ls` and
`date`, the status 2 of `date`, and nothing written by the shell for `echo`;
and at `ls | cd | sort`, which never returns. -/
theorem pipeline_skips_builtins_witness :
    (execute_pipeline okOS noHandlers
        (parse emptyEnv "ls | echo hi | date".toList) {}).1.children.map
          (fun c => (c.program, c.arguments)) = [("ls".toList, []), ("date".toList, [])] ∧
      (execute_pipeline okOS noHandlers (parse emptyEnv "ls | echo hi | date".toList) {}).2 =
        some 2 ∧
      (execute_pipeline okOS noHandlers (parse emptyEnv "ls | echo hi | date".toList) {}).1.out =
        [] ∧
      (execute_pipeline okOS noHandlers (parse emptyEnv "ls | cd | sort".toList) {}).2 =
        none := by
  have hp : parse emptyEnv "ls | echo hi | date".toList =
      { commands := [{ program := "ls".toList },
                     { program := "echo".toList, arguments := ["hi".toList] },
                     { program := "date".toList }] } := by decide
  have key := pipeline_skips_builtins.1 okOS noHandlers
    (parse emptyEnv "ls | echo hi | date".toList) {}
    (by rw [hp]; decide) (by intro k _; rfl) (by intro i _; rfl)
  have hsome := key.2.2.2.2.2.2.2.1 (by rw [hp]; decide)
  have key2 := pipeline_skips_builtins.1 okOS noHandlers
    (parse emptyEnv "ls | cd | sort".toList) {}
    (by decide) (by intro k _; rfl) (by intro i _; rfl)
  rw [hp] at key hsome ⊢
  refine ⟨key.2.2.2.1.trans (by decide), ((key.2.2.2.2.2.2.1 hsome).2).trans (by decide),
    key.2.1.trans (by decide),
    key2.2.2.2.2.2.2.2.2 ?_ (by decide) (by decide) (by decide) (by decide)⟩
  intro i j _ _ hij
  have h1 : forkPid okOS (({} : World).n_fork + i) = ((100 + i : Nat) : Int) + 1 := by
    simp [forkPid, okOS]
  have h2 : forkPid okOS (({} : World).n_fork + j) = ((100 + j : Nat) : Int) + 1 := by
    simp [forkPid, okOS]
  rw [h1, h2] at hij
  omega

/-! ## Round trip of plain pipelines -/

theorem Emits.append (env : Env) {x y : Str} {t1 t2 : List Str} (h1 : Emits env x t1)
    (h2 : Emits env y t2) : Emits env (x ++ y) (t1 ++ t2) := by
  intro st hs
  obtain ⟨a1, a2⟩ := h1 st hs
  obtain ⟨b1, b2⟩ := h2 _ a1
  rw [List.foldl_append]
  exact ⟨b1, by rw [b2, a2, List.append_assoc]⟩

theorem Emits.nil (env : Env) : Emits env [] [] := by
  intro st hs
  exact ⟨hs, by simp⟩

/-- After a space outside quotes, no word is pending and the token list is
what `tokenize` would have returned. -/
theorem after_space (env : Env) (st : TokState) (hs : st.in_quotes = false) :
    (tokStep env st ' ').in_quotes = false ∧ (tokStep env st ' ').current_token = [] ∧
      (tokStep env st ' ').tokens = tokFinish env st := by
  by_cases hc : st.current_token = []
  · rw [tokStep_isspace_skip env st ' ' hs hc (by decide)]
    exact ⟨hs, hc, by simp [tokFinish, hc]⟩
  · rw [tokStep_isspace_flush env st ' ' hs hc (by decide)]
    exact ⟨hs, rfl, by simp [tokFinish, hc]⟩

theorem Emits.space (env : Env) : Emits env [' '] [] := by
  intro st hs
  obtain ⟨h1, h2, h3⟩ := after_space env st hs
  refine ⟨h1, ?_⟩
  simp only [List.foldl_cons, List.foldl_nil, List.append_nil]
  simp [tokFinish, h2, h3]

theorem plainWord_iff (w : Str) :
    plainWord w = true ↔ w ≠ [] ∧ ∀ c ∈ w, plainChar c = true := by
  unfold plainWord
  cases w with
  | nil => simp
  | cons c cs => simp [List.all_eq_true]

theorem Emits.word (env : Env) (w : Str) (hw : plainWord w = true) :
    Emits env (' ' :: w) [w] := by
  obtain ⟨hne, hp⟩ := (plainWord_iff w).1 hw
  intro st hs
  obtain ⟨h1, h2, h3⟩ := after_space env st hs
  rw [List.foldl_cons, foldl_tokStep_plain env w hp _ h1]
  refine ⟨h1, ?_⟩
  simp [tokFinish, h2, h3, hne, expand_variables_eq_self env w (plain_no_dollar hp)]

theorem Emits.operator (env : Env) (op : Char) (hop : is_special_char op = true) :
    Emits env [' ', op] [[op]] := by
  have hq : ¬ (op = dquote ∨ op = squote) := by
    rintro (rfl | rfl) <;> exact absurd hop (by decide)
  have hsp : isspace op = false := by
    by_contra h
    have h' : isspace op = true := by simpa using h
    simp only [is_special_char, Bool.or_eq_true, beq_iff_eq] at hop
    rcases hop with ((rfl | rfl) | rfl) | rfl <;> exact absurd h' (by decide)
  intro st hs
  obtain ⟨h1, h2, h3⟩ := after_space env st hs
  simp only [List.foldl_cons, List.foldl_nil]
  generalize tokStep env st ' ' = s1 at h1 h2 h3
  have hstep : tokStep env s1 op = { s1 with tokens := s1.tokens ++ [[op]] } := by
    simp [tokStep, h1, hq, hsp, hop, h2]
  rw [hstep]
  exact ⟨h1, by simp [tokFinish, h2, h3]⟩

theorem Emits.words (env : Env) :
    ∀ args : List Str, (∀ a ∈ args, plainWord a = true) →
      Emits env (args.map (fun a => ' ' :: a)).flatten args := by
  intro args
  induction args with
  | nil => intro _; exact Emits.nil env
  | cons a rest ih =>
    intro h
    have h1 := Emits.word env a (h a (List.mem_cons_self _ _))
    have h2 := ih (fun x hx => h x (List.mem_cons_of_mem _ hx))
    have := Emits.append env h1 h2
    simpa using this

theorem Emits.spaces (env : Env) (ws : Str) (hws : ∀ c ∈ ws, isspace c = true) :
    Emits env ws [] := by
  intro st hs
  rw [List.append_nil]
  refine ⟨?_, tokFinish_trailing_spaces env ws hws st hs⟩
  exact foldl_tokStep_unquoted env ws (fun c hc => space_not_quote (hws c hc)) st hs

theorem plainCommand_iff (c : Command) :
    plainCommand c = true ↔
      plainWord c.program = true ∧ (∀ a ∈ c.arguments, plainWord a = true) ∧
      (∀ f, c.input_file = some f → plainWord f = true) ∧
      (∀ f, c.output_file = some f → plainWord f = true) ∧
      c.append_output = false ∧ c.run_in_background = false := by
  unfold plainCommand
  cases hi : c.input_file <;> cases ho : c.output_file <;>
    simp [List.all_eq_true, and_assoc]

/-- Reading a space and the text of a plain command emits the tokens of
the command. -/
theorem Emits.command (env : Env) (c : Command) (hc : plainCommand c = true) :
    Emits env (' ' :: serializeCommand c) (commandTokens c) := by
  obtain ⟨h1, h2, h3, h4, h5, _⟩ := (plainCommand_iff c).1 hc
  have e1 := Emits.word env c.program h1
  have e2 := Emits.words env c.arguments h2
  have e3 : Emits env (match c.input_file with
      | some f => " < ".toList ++ f
      | none => [])
      (match c.input_file with
      | some f => ["<".toList, f]
      | none => []) := by
    cases hi : c.input_file with
    | none => exact Emits.nil env
    | some f =>
      have := Emits.append env (Emits.operator env '<' (by decide)) (Emits.word env f (h3 f hi))
      exact this
  have e4 : Emits env (match c.output_file with
      | some f => (if c.append_output then " >> ".toList else " > ".toList) ++ f
      | none => [])
      (match c.output_file with
      | some f => [">".toList, f]
      | none => []) := by
    cases ho : c.output_file with
    | none => exact Emits.nil env
    | some f =>
      have := Emits.append env (Emits.operator env '>' (by decide)) (Emits.word env f (h4 f ho))
      simp only [h5, Bool.false_eq_true, if_false]
      exact this
  have := Emits.append env (Emits.append env (Emits.append env e1 e2) e3) e4
  unfold serializeCommand commandTokens
  simpa [List.append_assoc] using this

theorem Emits.tokenize (env : Env) (text : Str) (tokens : List Str) (h : Emits env text tokens) :
    tokenize env text = tokens := by
  have := (h {} rfl).2
  simpa [CommandParser.tokenize, tokFinish] using this

theorem tokenize_space (env : Env) (s : Str) : tokenize env (' ' :: s) = tokenize env s := by
  unfold CommandParser.tokenize
  rw [List.foldl_cons, tokStep_isspace_skip env {} ' ' rfl rfl (by decide)]

/-- The first piece of a line ends at the first `|`. -/
theorem split_segment (seg rest : Str) (h : '|' ∉ seg) :
    Utils.split (seg ++ '|' :: rest) '|' = seg :: Utils.split rest '|' := by
  have h1 : Utils.split (seg ++ '|' :: rest) '|' =
      Utils.splitLoop '|' (seg ++ '|' :: rest) [] := by
    unfold Utils.split
    cases hx : seg ++ '|' :: rest with
    | nil => simp at hx
    | cons _ _ => rfl
  rw [h1, splitLoop_prefix '|' seg h, List.nil_append, Utils.splitLoop, if_pos rfl]
  cases rest with
  | nil => rfl
  | cons c cs => rfl

theorem segmentTokens_segment (env : Env) (seg rest : Str) (toks : List Str) (h : '|' ∉ seg)
    (ht : tokenize env (trim seg) = toks) (hne : toks ≠ []) :
    segmentTokens env (seg ++ '|' :: rest) = toks :: segmentTokens env rest := by
  unfold segmentTokens
  rw [split_segment seg rest h, List.map_cons, ht, List.filter_cons]
  cases toks with
  | nil => exact absurd rfl hne
  | cons t ts => rfl

theorem segmentTokens_last (env : Env) (seg : Str) (toks : List Str) (h : '|' ∉ seg)
    (ht : tokenize env (trim seg) = toks) (hne : toks ≠ []) :
    segmentTokens env seg = [toks] := by
  have hseg : seg ≠ [] := by
    rintro rfl
    exact hne (ht.symm.trans rfl)
  unfold segmentTokens
  rw [split_no_delim '|' seg hseg h, List.map_cons, List.map_nil, ht, List.filter_cons]
  cases toks with
  | nil => exact absurd rfl hne
  | cons t ts => rfl

theorem plain_line_char {ch : Char} (h : plainChar ch = true) :
    ch ≠ '|' ∧ ¬ (ch = dquote ∨ ch = squote) := by
  refine ⟨?_, ?_⟩
  · rintro rfl
    exact absurd h (by decide)
  · rintro (rfl | rfl) <;> exact absurd h (by decide)

/-- The text of a plain command has no `|` and no quote character. -/
theorem serializeCommand_chars (c : Command) (hc : plainCommand c = true) :
    ∀ ch ∈ serializeCommand c, ch ≠ '|' ∧ ¬ (ch = dquote ∨ ch = squote) := by
  obtain ⟨h1, h2, h3, h4, h5, _⟩ := (plainCommand_iff c).1 hc
  have hw : ∀ w, plainWord w = true → ∀ ch ∈ w, ch ≠ '|' ∧ ¬ (ch = dquote ∨ ch = squote) :=
    fun w hw ch hch => plain_line_char (((plainWord_iff w).1 hw).2 ch hch)
  intro ch hch
  unfold serializeCommand at hch
  rw [List.mem_append, List.mem_append, List.mem_append] at hch
  rcases hch with ((hch | hch) | hch) | hch
  · exact hw _ h1 ch hch
  · rw [List.mem_flatten] at hch
    obtain ⟨l, hl, hch⟩ := hch
    rw [List.mem_map] at hl
    obtain ⟨a, ha, rfl⟩ := hl
    rcases List.mem_cons.1 hch with rfl | hch
    · decide
    · exact hw a (h2 a ha) ch hch
  · cases hi : c.input_file with
    | none =>
      rw [hi] at hch
      exact absurd hch (List.not_mem_nil _)
    | some f =>
      rw [hi] at hch
      rcases List.mem_append.1 hch with h | h
      · have h' : ch = ' ' ∨ ch = '<' ∨ ch = ' ' := by simpa using h
        rcases h' with rfl | rfl | rfl <;> decide
      · exact hw f (h3 f hi) ch h
  · cases ho : c.output_file with
    | none =>
      rw [ho] at hch
      exact absurd hch (List.not_mem_nil _)
    | some f =>
      rw [ho, h5] at hch
      rcases List.mem_append.1 hch with h | h
      · have h' : ch = ' ' ∨ ch = '>' ∨ ch = ' ' := by simpa using h
        rcases h' with rfl | rfl | rfl <;> decide
      · exact hw f (h4 f ho) ch h

/-- The tokens of a piece of a serialized pipeline: those of its command,
then those of what follows the command in the piece. -/
theorem tokenize_piece (env : Env) (c : Command) (hc : plainCommand c = true) (pre tail : Str)
    (tailToks : List Str) (hpre : pre = [] ∨ pre = [' ']) (htail : Emits env tail tailToks)
    (htc : ∀ ch ∈ tail, ch ≠ '|' ∧ ¬ (ch = dquote ∨ ch = squote)) :
    '|' ∉ pre ++ serializeCommand c ++ tail ∧
      tokenize env (trim (pre ++ serializeCommand c ++ tail)) = commandTokens c ++ tailToks := by
  have hchars : ∀ ch ∈ pre ++ serializeCommand c ++ tail,
      ch ≠ '|' ∧ ¬ (ch = dquote ∨ ch = squote) := by
    intro ch hch
    rcases List.mem_append.1 hch with h | h
    · rcases List.mem_append.1 h with h | h
      · rcases hpre with rfl | rfl
        · exact absurd h (List.not_mem_nil _)
        · rw [List.mem_singleton] at h
          subst h
          decide
      · exact serializeCommand_chars c hc ch h
    · exact htc ch h
  refine ⟨fun h => (hchars _ h).1 rfl, ?_⟩
  rw [tokenize_trim env _ (fun ch hch => (hchars ch hch).2)]
  have key : tokenize env ((' ' :: serializeCommand c) ++ tail) = commandTokens c ++ tailToks :=
    Emits.tokenize env _ _ (Emits.append env (Emits.command env c hc) htail)
  rcases hpre with rfl | rfl
  · rw [List.nil_append, ← tokenize_space]
    exact key
  · exact key

theorem serializeCommands_cons (c : Command) (cs : List Command) (h : cs ≠ []) :
    serializeCommands (c :: cs) = serializeCommand c ++ " | ".toList ++ serializeCommands cs := by
  cases cs with
  | nil => exact absurd rfl h
  | cons c' rest => rfl

/-- The token sequences of the pieces of a serialized pipeline of plain
commands. -/
theorem segmentTokens_serialize (env : Env) (suffix : Str) (sufToks : List Str)
    (hsuf : Emits env suffix sufToks)
    (hsc : ∀ ch ∈ suffix, ch ≠ '|' ∧ ¬ (ch = dquote ∨ ch = squote)) :
    ∀ (init : List Command) (l : Command) (pre : Str),
      (∀ c ∈ init, plainCommand c = true) → plainCommand l = true →
      (pre = [] ∨ pre = [' ']) →
      segmentTokens env (pre ++ serializeCommands (init ++ [l]) ++ suffix) =
        init.map commandTokens ++ [commandTokens l ++ sufToks] := by
  intro init
  induction init with
  | nil =>
    intro l pre _ hl hpre
    obtain ⟨hp, ht⟩ := tokenize_piece env l hl pre suffix sufToks hpre hsuf hsc
    exact segmentTokens_last env _ _ hp ht (by simp [commandTokens])
  | cons c init ih =>
    intro l pre hinit hl hpre
    have hc := hinit c (List.mem_cons_self _ _)
    obtain ⟨hp, ht⟩ := tokenize_piece env c hc pre [' '] [] hpre (Emits.space env)
      (by
        intro ch hch
        rw [List.mem_singleton] at hch
        subst hch
        decide)
    rw [List.append_nil] at ht
    have hshape : pre ++ serializeCommands (c :: init ++ [l]) ++ suffix =
        (pre ++ serializeCommand c ++ [' ']) ++
          '|' :: ([' '] ++ serializeCommands (init ++ [l]) ++ suffix) := by
      rw [List.cons_append, serializeCommands_cons c (init ++ [l]) (by simp)]
      simp [List.append_assoc]
    rw [hshape, segmentTokens_segment env _ _ _ hp ht (by simp [commandTokens]),
      ih l [' '] (fun x hx => hinit x (List.mem_cons_of_mem _ hx)) hl (Or.inr rfl)]
    rfl

theorem parseArgs_words (args : List Str) (hargs : ∀ a ∈ args, plainWord a = true) :
    ∀ (cmd : Command) (rest : List Str),
      parseArgs cmd (args ++ rest) =
        parseArgs { cmd with arguments := cmd.arguments ++ args } rest := by
  induction args with
  | nil =>
    intro cmd rest
    rw [List.nil_append, List.append_nil]
  | cons a args ih =>
    intro cmd rest
    have hp := ((plainWord_iff a).1 (hargs a (List.mem_cons_self _ _))).2
    rw [List.cons_append,
      parseArgs_word cmd a _ (plain_ne_of_mem hp _ '>' (by decide) (by decide))
        (plain_ne_of_mem hp _ '>' (by decide) (by decide))
        (plain_ne_of_mem hp _ '<' (by decide) (by decide))
        (plain_ne_of_mem hp _ '&' (by decide) (by decide)),
      ih (fun x hx => hargs x (List.mem_cons_of_mem _ hx))]
    simp only [List.append_assoc, List.singleton_append]

/-- Parsing the tokens of a plain command gives the command back; a final
`&` token sets its background flag. -/
theorem parse_command_commandTokens (c : Command) (hc : plainCommand c = true) (bg : Bool) :
    parse_command (commandTokens c ++ (if bg then ["&".toList] else [])) 0
        (commandTokens c ++ (if bg then ["&".toList] else [])).length =
      { c with run_in_background := bg } := by
  obtain ⟨_, h2, _, _, h5, h6⟩ := (plainCommand_iff c).1 hc
  rw [parse_command_full]
  unfold commandTokens
  simp only [List.cons_append, List.append_assoc]
  rw [parseArgs_words c.arguments h2]
  obtain ⟨prog, args, inp, out, app, cbg⟩ := c
  simp only at h5 h6
  subst h5 h6
  cases inp <;> cases out <;> cases bg <;>
    simp [parseArgs_cons, parseArgs_nil]

theorem hoistBackground_plain (cmds : List Command)
    (h : ∀ c ∈ cmds, c.run_in_background = false) :
    hoistBackground cmds = { commands := cmds, run_in_background := false } := by
  unfold hoistBackground
  cases hl : cmds.getLast? with
  | none => rfl
  | some last_cmd =>
    simp only
    rw [if_neg (by rw [h last_cmd (List.mem_of_getLast?_eq_some hl)]; decide)]

/-- C21 (amended): for every pipeline whose commands consist of non-empty
plain words (no whitespace, quote, `$` or operator character), with no
appending redirection and no background flag on a command, and which has a
command if it is a background pipeline, parsing the re-serialized pipeline
gives the pipeline back, in every environment. -/
theorem parse_serialize_plain (env : Env) (p : Pipeline) (hp : plainPipeline p = true) :
    parse env (serialize p) = p := by
  obtain ⟨cs, bg⟩ := p
  unfold plainPipeline at hp
  simp only [Bool.and_eq_true, List.all_eq_true, Bool.or_eq_true, Bool.not_eq_true'] at hp
  obtain ⟨hall, hbg⟩ := hp
  rcases List.eq_nil_or_concat cs with rfl | ⟨init, l, hcs⟩
  · rcases hbg with rfl | h
    · rfl
    · exact absurd h (by decide)
  · rw [List.concat_eq_append] at hcs
    subst hcs
    have hinit : ∀ c ∈ init, plainCommand c = true :=
      fun c hc => hall c (List.mem_append_left _ hc)
    have hl : plainCommand l = true := hall l (List.mem_append_right _ (List.mem_singleton_self _))
    have hflag : ∀ c ∈ init, c.run_in_background = false :=
      fun c hc => ((plainCommand_iff c).1 (hinit c hc)).2.2.2.2.2
    have hmap : init.map (fun c => parse_command (commandTokens c) 0 (commandTokens c).length) =
        init := by
      conv_rhs => rw [← List.map_id init]
      apply List.map_congr_left
      intro c hc
      have := parse_command_commandTokens c (hinit c hc) false
      simp only [Bool.false_eq_true, if_false, List.append_nil] at this
      rw [this, id]
      obtain ⟨prog, args, inp, out, app, cbg⟩ := c
      have hf := hflag _ hc
      simp only at hf
      rw [hf]
    rw [parse_eq_hoist]
    unfold serialize
    simp only
    cases bg with
    | false =>
      have hseg := segmentTokens_serialize env [] [] (Emits.nil env)
        (fun ch hch => absurd hch (List.not_mem_nil _)) init l [] hinit hl (Or.inl rfl)
      rw [List.nil_append] at hseg
      rw [if_neg (by decide), hseg, List.map_append, List.map_map, List.map_singleton,
        hoistBackground_concat]
      have hlast := parse_command_commandTokens l hl false
      simp only [Bool.false_eq_true, if_false] at hlast
      have hmap2 : List.map ((fun tokens => parse_command tokens 0 tokens.length) ∘ commandTokens)
          init = init := hmap
      rw [hmap2, hlast]
      have hlf := ((plainCommand_iff l).1 hl).2.2.2.2.2
      obtain ⟨prog, args, inp, out, app, cbg⟩ := l
      simp only at hlf
      subst hlf
      rfl
    | true =>
      have hseg := segmentTokens_serialize env [' ', '&'] [['&']]
        (Emits.operator env '&' (by decide))
        (by
          intro ch hch
          have h2 : ch = ' ' ∨ ch = '&' := by simpa using hch
          rcases h2 with rfl | rfl <;> decide)
        init l [] hinit hl (Or.inl rfl)
      rw [List.nil_append] at hseg
      have hsuffix : " &".toList = [' ', '&'] := rfl
      rw [if_pos rfl, hsuffix, hseg, List.map_append, List.map_map, List.map_singleton,
        hoistBackground_concat]
      have hlast := parse_command_commandTokens l hl true
      simp only [if_true] at hlast
      have hamp : "&".toList = ['&'] := rfl
      rw [hamp] at hlast
      have hmap2 : List.map ((fun tokens => parse_command tokens 0 tokens.length) ∘ commandTokens)
          init = init := hmap
      rw [hmap2, hlast]
      have hlf := ((plainCommand_iff l).1 hl).2.2.2.2.2
      obtain ⟨prog, args, inp, out, app, cbg⟩ := l
      simp only at hlf
      subst hlf
      rfl

/-- C21 (amended) applies to the background pipeline `cat < in | sort -r >
out &`. -/
theorem parse_serialize_plain_witness :
    plainPipeline
        { commands := [{ program := "cat".toList, input_file := some "in".toList },
            { program := "sort".toList, arguments := ["-r".toList],
              output_file := some "out".toList }],
          run_in_background := true } = true ∧
      parse emptyEnv
          (serialize
            { commands := [{ program := "cat".toList, input_file := some "in".toList },
                { program := "sort".toList, arguments := ["-r".toList],
                  output_file := some "out".toList }],
              run_in_background := true }) =
        { commands := [{ program := "cat".toList, input_file := some "in".toList },
            { program := "sort".toList, arguments := ["-r".toList],
              output_file := some "out".toList }],
          run_in_background := true } :=
  ⟨by decide, parse_serialize_plain emptyEnv _ (by decide)⟩

/-- C21 fails as stated: the parser turns `echo "a b"` into a pipeline with
the single argument `a b`; its re-serialization `echo a b` parses to a pipeline
with the two arguments `a` and `b`. -/
theorem parse_serialize_counterexample :
    parse emptyEnv ("echo ".toList ++ dquote :: ("a b".toList ++ [dquote])) =
        { commands := [{ program := "echo".toList, arguments := ["a b".toList] }] } ∧
      serialize (parse emptyEnv ("echo ".toList ++ dquote :: ("a b".toList ++ [dquote]))) =
        "echo a b".toList ∧
      parse emptyEnv
          (serialize (parse emptyEnv ("echo ".toList ++ dquote :: ("a b".toList ++ [dquote])))) ≠
        parse emptyEnv ("echo ".toList ++ dquote :: ("a b".toList ++ [dquote])) := by
  decide

end NeXShell
